import Mathlib

/-!
# gocommonweb: job queue, cron scheduler, event bus and messenger

A shallow embedding of `queue_db.go`, `scheduler_impl.go`, `event_redis.go`
and the package `messaging`.

Modelling conventions.

* `time.Time` values handled by the queue are wall-clock instants, kept as an
  `Int` number of nanoseconds since the Unix epoch.  `time.Duration` is a
  signed 64-bit nanosecond count; arithmetic on durations wraps
  (`wrapInt64`).  `uint` is the 64-bit unsigned integer of the usual targets.
* Every call of `time.Now()` is an explicit argument of the embedded function,
  in source order, so that a function which reads the clock three times takes
  three readings.
* The relational store is the table `JobsTable`; a transaction is one atomic
  function on the table.  Store I/O failures are outside the model: the only
  store error that is represented is `ErrRecordNotFound`.  Of the columns that
  `gorm.Model` adds, only the auto-increment primary key `ID` is kept; no code
  of the repository deletes a job, so `deleted_at IS NULL` holds for all rows.
* The key/value store is a function from keys to the values that have not
  expired at the time of the call.
* The scheduler coarsens every instant to whole seconds (`now()`), so scheduler
  instants are `Int` Unix seconds.
* Library functions whose result the code branches on (`cron.ParseStandard`,
  `json.Marshal`, `json.Unmarshal`, the outcome of a mutex attempt) are
  arguments of the embedded functions.  Library functions with a fixed, simple
  result (`fmt.Sprintf` with `%s`, `base64.URLEncoding`, `strconv.ParseInt`)
  are written out.
* For the round trip of the packets `json.Marshal` and `json.Unmarshal` are
  written out on the two packet structs, after the documentation of
  `encoding/json`: the encoder's escaping and key order, the grammar of the
  scanner, the Go types in which a decoded `interface{}` is stored, the
  matching of object keys against field tags.  The formatting and parsing of
  a `float64` (`strconv`) stay arguments; a `float64` is given by its bits.
* A Go map that the code iterates over is the list of its entries in the
  iteration order of the run; its keys are pairwise distinct.
* What a call does to the outside (handler invocations, socket writes,
  publishes, store writes) is returned as a list of effects, in order.
-/

namespace GoCommonWeb

/-! ## Time and machine integers -/

/-- Instant in nanoseconds since the Unix epoch. -/
abbrev Time := Int

/-- Two-complement reading of an integer as an `int64`. -/
def wrapInt64 (x : Int) : Int := (x + 2 ^ 63) % 2 ^ 64 - 2 ^ 63

/-- Duration constant `time.Second`, in nanoseconds. -/
def Second : Int := 1000000000

/-- Duration constant `time.Minute`, in nanoseconds. -/
def Minute : Int := 60 * Second

/-- Heartbeat period: `visitingInterval = time.Second * 10`. -/
def visitingInterval : Int := Second * 10

/-- Stall bound: `maxLastVisitedDuration = time.Minute * 15`. -/
def maxLastVisitedDuration : Int := Minute * 15

/-- The expression `time.Second * time.Duration(delaySecs)` of `AddDelayedJob`:
the `uint` is converted to `int64` and the product wraps. -/
def delayDuration (delaySecs : Nat) : Int :=
  wrapInt64 (Second * wrapInt64 (delaySecs : Int))

/-! ## Job rows and the jobs table -/

/-- Status constant `statusWaiting`. -/
def statusWaiting : String := "waiting"

/-- Status constant `statusProcessing`. -/
def statusProcessing : String := "processing"

/-- Status constant `statusComplete`. -/
def statusComplete : String := "complete"

/-- One row of the `jobs` table (`type job struct`).  `RunAt` is a nullable
column, which the lease query tests with `run_at IS NULL`. -/
structure job where
  ID : Nat
  JobName : String
  Payload : String
  Status : String
  RunAt : Option Time
  LastVisited : Time
deriving DecidableEq, Repr

/-- The `jobs` table together with the store's auto-increment counter. -/
structure JobsTable where
  rows : List job
  nextID : Nat
deriving DecidableEq, Repr

/-- Errors of the queue's store calls (`gorm.ErrRecordNotFound`). -/
inductive StoreError where
  | ErrRecordNotFound
deriving DecidableEq, Repr

/-- Row insertion `db.Create(&j)`: the store assigns the next primary key. -/
def JobsTable.Create (tbl : JobsTable) (j : job) : JobsTable :=
  { rows := tbl.rows ++ [{ j with ID := tbl.nextID }], nextID := tbl.nextID + 1 }

/-- Choice between two candidate rows by primary key, as `ORDER BY id` does. -/
def lowerID (acc : Option job) (r : job) : Option job :=
  match acc with
  | none => some r
  | some a => if r.ID < a.ID then some r else some a

/-- Query `Where(cond).First(&res)`: the matching row of least primary key. -/
def JobsTable.First (tbl : JobsTable) (cond : job → Bool) : Except StoreError job :=
  match (tbl.rows.filter cond).foldl lowerID none with
  | none => Except.error StoreError.ErrRecordNotFound
  | some r => Except.ok r

/-- Statement `Model(&job{}).Where("id = ?", id).Updates(...)`: the columns are
rewritten by `f` on every row whose primary key is `id`. -/
def JobsTable.UpdateWhereID (tbl : JobsTable) (id : Nat) (f : job → job) : JobsTable :=
  { tbl with rows := tbl.rows.map (fun r => if r.ID = id then f r else r) }

/-- Row lookup by primary key. -/
def JobsTable.byID (tbl : JobsTable) (id : Nat) : Option job :=
  tbl.rows.find? (fun r => r.ID == id)

/-! ## Queue operations (`queue_db.go`) -/

/-- Source `queueDB.AddDelayedJob`.  `now67`, `now69` and `now76` are the clock
readings of lines 67, 69 and 76; line 69 is only reached when
`delaySecs > 0`. -/
def AddDelayedJob (tbl : JobsTable) (now67 now69 now76 : Time)
    (jobName payload : String) (delaySecs : Nat) : JobsTable :=
  let runAt := if delaySecs > 0 then now69 + delayDuration delaySecs else now67
  tbl.Create
    { ID := 0
      JobName := jobName
      Payload := payload
      Status := statusWaiting
      RunAt := some runAt
      LastVisited := now76 }

/-- Source `queueDB.AddJob`. -/
def AddJob (tbl : JobsTable) (now67 now69 now76 : Time)
    (jobName payload : String) : JobsTable :=
  AddDelayedJob tbl now67 now69 now76 jobName payload 0

/-- The lease predicate
`status = 'waiting' AND (run_at <= now OR run_at IS NULL)`. -/
def leasable (now : Time) (r : job) : Bool :=
  decide (r.Status = statusWaiting) &&
    (match r.RunAt with
     | some t => decide (t ≤ now)
     | none => true)

/-- Source `queueDB.findJobToProcess`: one transaction that selects the first
leasable row and marks it `processing`.  `now192` and `now202` are the clock
readings of lines 192 and 202.  The returned struct is the row as selected. -/
def findJobToProcess (tbl : JobsTable) (now192 now202 : Time) :
    Except StoreError job × JobsTable :=
  match tbl.First (leasable now192) with
  | Except.error e => (Except.error e, tbl)
  | Except.ok res =>
      (Except.ok res,
        tbl.UpdateWhereID res.ID
          (fun r => { r with Status := statusProcessing, LastVisited := now202 }))

/-- Source `queueDB.updateJobStatus`. -/
def updateJobStatus (tbl : JobsTable) (jobID : Nat) (status : String) : JobsTable :=
  tbl.UpdateWhereID jobID (fun r => { r with Status := status })

/-- Source `queueDB.updateLastVisited`; `now` is the reading of line 223. -/
def updateLastVisited (tbl : JobsTable) (jobID : Nat) (now : Time) : JobsTable :=
  tbl.UpdateWhereID jobID (fun r => { r with LastVisited := now })

/-- The stall predicate
`status = 'processing' AND last_visited <= now - maxLastVisitedDuration`. -/
def stalled (now : Time) (r : job) : Bool :=
  decide (r.Status = statusProcessing) &&
    decide (r.LastVisited ≤ now + -maxLastVisitedDuration)

/-- One tick of `queueDB.startJobRequeueLoop` (the transaction of lines
114-132).  `now118` and `now126` are the clock readings of lines 118 and 126. -/
def requeueTick (tbl : JobsTable) (now118 now126 : Time) :
    Except StoreError Unit × JobsTable :=
  match tbl.First (stalled now118) with
  | Except.error e => (Except.error e, tbl)
  | Except.ok res =>
      (Except.ok (),
        tbl.UpdateWhereID res.ID
          (fun r => { r with Status := statusWaiting, LastVisited := now126 }))

/-- A job handler (`JobHandler.Handle`): `none` is a `nil` error. -/
abbrev JobHandler := String → String → Option String

/-- One handler invocation, as seen by an observer. -/
structure Invocation where
  worker : Nat
  jobID : Nat
  jobName : String
  payload : String
deriving DecidableEq, Repr

/-- The queue: the shared jobs table and the worker goroutines of every replica
that polls it.  `handlers w` is the handler registry (`q.handlers`) of the
replica that worker `w` belongs to; `busy w` is the row that worker `w` has
leased and not yet finished; `calls` records the handler invocations in
order. -/
structure queueDB where
  db : JobsTable
  handlers : Nat → String → Option JobHandler
  busy : Nat → Option job
  calls : List Invocation

/-- Atomic steps of the queue.  Each carries the clock readings it makes. -/
inductive Event where
  | enqueue (jobName payload : String) (delaySecs : Nat) (now67 now69 now76 : Time)
  | lease (w : Nat) (now192 now202 : Time)
  | heartbeat (w : Nat) (now : Time)
  | finish (w : Nat)
  | requeue (now118 now126 : Time)
deriving DecidableEq, Repr

/-- Worker `w` leaves the timer case of `startWorkerLoop` through lines
152-159: it leases a row and, when a handler is registered for the row's job
name, calls it. -/
def leaseStep (q : queueDB) (w : Nat) (now192 now202 : Time) : queueDB :=
  match q.busy w with
  | some _ => q
  | none =>
    match findJobToProcess q.db now192 now202 with
    | (Except.error _, _) => q
    | (Except.ok j, db) =>
      { q with
        db := db
        busy := fun v => if v = w then some j else q.busy v
        calls :=
          match q.handlers w j.JobName with
          | some _ => q.calls ++ [{ worker := w, jobID := j.ID, jobName := j.JobName,
                                    payload := j.Payload }]
          | none => q.calls }

/-- The visitor of worker `w` ticks (lines 156-158): `updateLastVisited(j.ID)`.
A visitor exists only while a handler is running. -/
def heartbeatStep (q : queueDB) (w : Nat) (now : Time) : queueDB :=
  match q.busy w with
  | none => q
  | some j =>
    match q.handlers w j.JobName with
    | none => q
    | some _ => { q with db := updateLastVisited q.db j.ID now }

/-- Worker `w` runs lines 159-169: the handler (if any) has returned and the
final status of the leased row is written. -/
def finishStep (q : queueDB) (w : Nat) : queueDB :=
  match q.busy w with
  | none => q
  | some j =>
    let db :=
      match q.handlers w j.JobName with
      | some handler =>
        match handler j.JobName j.Payload with
        | none => updateJobStatus q.db j.ID statusComplete
        | some _ => updateJobStatus q.db j.ID statusWaiting
      | none => updateJobStatus q.db j.ID statusWaiting
    { q with db := db, busy := fun v => if v = w then none else q.busy v }

/-- One atomic step of the queue. -/
def step (q : queueDB) : Event → queueDB
  | Event.enqueue jobName payload delaySecs now67 now69 now76 =>
      { q with db := AddDelayedJob q.db now67 now69 now76 jobName payload delaySecs }
  | Event.lease w now192 now202 => leaseStep q w now192 now202
  | Event.heartbeat w now => heartbeatStep q w now
  | Event.finish w => finishStep q w
  | Event.requeue now118 now126 => { q with db := (requeueTick q.db now118 now126).2 }

/-- An interleaving of atomic steps, run from state `q`. -/
def run (q : queueDB) (evs : List Event) : queueDB :=
  evs.foldl step q

/-- Worker `w` holds job `id`: it has leased the row and not yet written its
final status. -/
def holds (q : queueDB) (w id : Nat) : Prop :=
  (q.busy w).map (fun j => j.ID) = some id

instance holdsDecidable (q : queueDB) (w id : Nat) : Decidable (holds q w id) :=
  inferInstanceAs (Decidable ((q.busy w).map (fun j => j.ID) = some id))

/-- Status of the row with primary key `id`, if there is one. -/
def statusOf (tbl : JobsTable) (id : Nat) : Option String :=
  (tbl.byID id).map (fun r => r.Status)

/-- The event is a move of the loop of worker `w` itself (a lease or a final
status write), as opposed to its visitor or to any other party. -/
def Event.ofLoop (w : Nat) : Event → Bool
  | Event.lease v _ _ => decide (v = w)
  | Event.finish v => decide (v = w)
  | _ => false

/-- One full pass of the timer case of `startWorkerLoop` by worker `w`: the
lease, then whatever the rest of the system (and the visitor of `w`) does
while the handler runs, then the final status write. -/
def workerIteration (q : queueDB) (w : Nat) (now192 now202 : Time)
    (during : List Event) : queueDB :=
  finishStep (run (leaseStep q w now192 now202) during) w

/-- Primary-key constraint of the table: keys are pairwise distinct and below
the auto-increment counter. -/
def JobsTable.WF (tbl : JobsTable) : Prop :=
  (tbl.rows.map job.ID).Nodup ∧ ∀ r ∈ tbl.rows, r.ID < tbl.nextID

/-- The table obeys its key constraint and every leased row carries a key that
the store has issued. -/
def queueDB.WF (q : queueDB) : Prop :=
  q.db.WF ∧ ∀ w j, q.busy w = some j → j.ID < q.db.nextID

/-- Exclusivity: no two workers hold the same job id in state `processing`. -/
def Exclusive (q : queueDB) : Prop :=
  ∀ w1 w2 id, holds q w1 id → holds q w2 id →
    statusOf q.db id = some statusProcessing → w1 = w2

/-- The lease invariant: every held row is `processing` and has one holder. -/
def LeaseInv (q : queueDB) : Prop :=
  q.db.WF ∧
  (∀ w j, q.busy w = some j → statusOf q.db j.ID = some statusProcessing) ∧
  (∀ w1 w2 id, holds q w1 id → holds q w2 id → w1 = w2)

/-- At a requeue tick reading the clock as `now118`, no held row is stalled. -/
def noStalledHolder (q : queueDB) (now118 : Time) : Prop :=
  ∀ r ∈ q.db.rows, stalled now118 r = true → ∀ w, ¬ holds q w r.ID

/-- An interleaving in which every requeue tick finds no held row stalled. -/
def Timely : queueDB → List Event → Prop
  | _, [] => True
  | q, e :: es =>
      (match e with
       | Event.requeue now118 _ => noStalledHolder q now118
       | _ => True) ∧ Timely (step q e) es

/-- The event is not a lease whose query reads a clock value of `bound` or
later. -/
def leaseBefore (bound : Time) : Event → Prop
  | Event.lease _ now192 _ => now192 < bound
  | _ => True

/-- A handler that always succeeds. -/
def okHandler : JobHandler := fun _ _ => none

/-- Scenario S1: an empty table, a handler registered for `send_email` on
every replica, all workers idle. -/
def exampleQueue : queueDB :=
  { db := { rows := [], nextID := 1 }
    handlers := fun _ n => if n = "send_email" then some okHandler else none
    busy := fun _ => none
    calls := [] }

/-- The row `id` carries job name `name`, payload `payload` and `run_at = R`,
is not `processing`, and no worker holds it. -/
def Dormant (q : queueDB) (id : Nat) (R : Time) (name payload : String) : Prop :=
  (∃ r, q.db.byID id = some r ∧ r.RunAt = some R ∧ r.Status ≠ statusProcessing ∧
      r.JobName = name ∧ r.Payload = payload) ∧
    ∀ w, ¬ holds q w id

instance leaseBeforeDecidable (bound : Time) : (e : Event) → Decidable (leaseBefore bound e)
  | Event.lease _ now192 _ => inferInstanceAs (Decidable (now192 < bound))
  | Event.enqueue _ _ _ _ _ _ => isTrue trivial
  | Event.heartbeat _ _ => isTrue trivial
  | Event.finish _ => isTrue trivial
  | Event.requeue _ _ => isTrue trivial

/-- Latest visit of the row held by worker `w` after event `e`, when it was
`last` before: a heartbeat of `w` moves it to the reading of that heartbeat. -/
def visitAfter (w : Nat) (last : Time) : Event → Time
  | Event.heartbeat v now => if v = w then now else last
  | _ => last

/-- The event is not a requeue tick that reads the clock later than `bound`. -/
def requeueBy (bound : Time) : Event → Bool
  | Event.requeue now118 _ => decide (now118 ≤ bound)
  | _ => true

/-- The events `during` fit a visitor of worker `w` that ticks on time: none is
a move of the loop of `w` itself, and every requeue tick reads the clock no
later than one `visitingInterval` after the latest visit `last` of the row by
`w` (its lease or its latest heartbeat). -/
def paced (w : Nat) : Time → List Event → Bool
  | _, [] => true
  | last, e :: es =>
      (!Event.ofLoop w e) && requeueBy (last + visitingInterval) e &&
        paced w (visitAfter w last e) es

/-- Scenario S2 while the handler of worker 1 runs: `n` heartbeat periods,
the first starting at `last`.  At the end of each period the requeue loop
ticks, worker 2 tries to lease, and the visitor of worker 1 ticks. -/
def stallDuring : Nat → Time → List Event
  | 0, _ => []
  | n + 1, last =>
      [Event.requeue (last + visitingInterval) (last + visitingInterval),
        Event.lease 2 (last + visitingInterval) (last + visitingInterval),
        Event.heartbeat 1 (last + visitingInterval)] ++
      stallDuring n (last + visitingInterval)

/-- Worker `w` is in the handler of row `j`: the row is `processing`, was last
visited at `last` or later, and `w` is its only holder. -/
def HeldFresh (q : queueDB) (w : Nat) (j : job) (last : Time) : Prop :=
  q.db.WF ∧ q.busy w = some j ∧ (∀ v, holds q v j.ID → v = w) ∧
    ∃ r, q.db.byID j.ID = some r ∧ r.Status = statusProcessing ∧ last ≤ r.LastVisited

/-! ## Scheduler (`scheduler_impl.go`) -/

/-- Alphabet of `base64.URLEncoding` (RFC 4648, section 5). -/
def encodeURL : List Char :=
  "ABCDEFGHIJKLMNOPQRSTUVWXYZabcdefghijklmnopqrstuvwxyz0123456789-_".data

/-- The character that encodes the 6-bit value `v`. -/
def base64Char (v : Nat) : Char :=
  encodeURL.getD (v % 64) 'A'

/-- Library function `(*Encoding).Encode` of `encoding/base64` for the padded
URL alphabet: three bytes give four characters; a remainder of one or two
bytes is padded with `=`. -/
def base64Encode : List Nat → List Char
  | a :: b :: c :: rest =>
      let val := a * 65536 + b * 256 + c
      base64Char (val / 262144) :: base64Char (val / 4096) :: base64Char (val / 64) ::
        base64Char val :: base64Encode rest
  | [a, b] =>
      let val := a * 65536 + b * 256
      [base64Char (val / 262144), base64Char (val / 4096), base64Char (val / 64), '=']
  | [a] =>
      let val := a * 65536
      [base64Char (val / 262144), base64Char (val / 4096), '=', '=']
  | [] => []

/-- The bytes of a string: `[]byte(s)`. -/
def stringBytes (s : String) : List Nat :=
  s.data.flatMap (fun c => (String.utf8EncodeChar c).map UInt8.toNat)

/-- Expression `base64.URLEncoding.EncodeToString([]byte(s))`. -/
def base64URL (s : String) : String :=
  String.mk (base64Encode (stringBytes s))

/-- Library function `fmt.Sprintf` restricted to the verb `%s` with string
operands. -/
def Sprintf : List Char → List String → List Char
  | [], _ => []
  | '%' :: 's' :: rest, a :: args => a.data ++ Sprintf rest args
  | '%' :: 's' :: rest, [] => "%!s(MISSING)".data ++ Sprintf rest []
  | c :: rest, args => c :: Sprintf rest args

/-- Source `getSchedulerKey`. -/
def getSchedulerKey (jobName cronSpec : String) : String :=
  let cronSpecEnc := base64URL cronSpec
  String.mk (Sprintf "scheduler:%s-%s".data [jobName, cronSpecEnc])

/-- Source `getMutexKey`. -/
def getMutexKey (jobName cronSpec : String) : String :=
  let cronSpecEnc := base64URL cronSpec
  String.mk (Sprintf "handlerMutex:%s-%s".data [jobName, cronSpecEnc])

/-- Value of a run of decimal digits, most significant first; `none` when a
character is not a digit. -/
def parseDigits (acc : Nat) : List Char → Option Nat
  | [] => some acc
  | c :: cs => if c.isDigit then parseDigits (acc * 10 + (c.toNat - 48)) cs else none

/-- Library function `strconv.ParseInt(str, 10, 64)`: an optional sign, then at
least one decimal digit, the value within the `int64` range; `none` is an
error. -/
def ParseInt (str : String) : Option Int :=
  let signed : Bool × List Char :=
    match str.data with
    | '+' :: cs => (false, cs)
    | '-' :: cs => (true, cs)
    | cs => (false, cs)
  match signed.2 with
  | [] => none
  | ds =>
    match parseDigits 0 ds with
    | none => none
    | some un =>
      if signed.1 then
        if un > 2 ^ 63 then none else some (-(un : Int))
      else
        if un ≥ 2 ^ 63 then none else some (un : Int)

/-- Source `stringToInt64`. -/
def stringToInt64 (str : String) : Int :=
  match ParseInt str with
  | some parsed => parsed
  | none => 0

/-- A parsed cron schedule (`cron.Schedule`): its method `Next`, on instants in
whole Unix seconds. -/
structure Schedule where
  Next : Int → Int

/-- Source `scheduleEntry`.  `nextExecution` is kept as its Unix seconds. -/
structure scheduleEntry where
  jobName : String
  cronSpec : String
  nextExecution : Int
  cronSchedule : Schedule

/-- A schedule handler (`ScheduleHandler`), as the observable effect of calling
it on `(execTime, jobName, cronSpec)`. -/
abbrev ScheduleHandler := Int → String → String → String

/-- A value of the key/value store with the expiry it was written with
(`none`: no expiry), in nanoseconds. -/
structure RedisValue where
  value : String
  ttl : Option Int
deriving DecidableEq, Repr

/-- The unexpired content of the key/value store. -/
abbrev RedisStore := String → Option RedisValue

/-- Command `Set(ctx, key, value, expiration)`: an expiration that is not
positive sets no expiry. -/
def RedisStore.Set (r : RedisStore) (key value : String) (expiration : Int) : RedisStore :=
  fun k => if k = key then
      some { value := value, ttl := if expiration > 0 then some expiration else none }
    else r k

/-- Source `ScheduleSafeImpl`, with the content of the store behind
`redisClient`. -/
structure ScheduleSafeImpl where
  running : Bool
  handlers : String → Option ScheduleHandler
  scheduleEntries : List scheduleEntry
  redisClient : RedisStore

/-- Method `Time.Sub` on whole-second instants: the difference in nanoseconds,
saturated to the `int64` range. -/
def timeSub (t u : Int) : Int :=
  max (-(2 ^ 63)) (min (2 ^ 63 - 1) ((t - u) * Second))

/-- Source `ScheduleSafeImpl.retrieveNextExecutionTime`. -/
def retrieveNextExecutionTime (s : ScheduleSafeImpl) (jobName cronSpec : String) :
    Except String Int :=
  let key := getSchedulerKey jobName cronSpec
  match s.redisClient key with
  | some res =>
    let t := stringToInt64 res.value
    if t = 0 then Except.error "next duration time is zero" else Except.ok t
  | none => Except.error "redis: nil"

/-- Source `ScheduleSafeImpl.updateNextExecutionTime`; `now186` is the reading
of `now()` on line 186. -/
def updateNextExecutionTime (s : ScheduleSafeImpl) (entry : scheduleEntry) (now186 : Int) :
    Except String Unit × ScheduleSafeImpl :=
  let key := getSchedulerKey entry.jobName entry.cronSpec
  let duration := timeSub entry.nextExecution now186
  (Except.ok (),
    { s with redisClient := s.redisClient.Set key (toString entry.nextExecution) duration })

/-- Source `ScheduleSafeImpl.ScheduleJob`.  `ParseStandard` is the cron parser
of the library; `now97` and `now186` are the readings of `now()` on lines 97
and 186.  The slice holds a pointer to `entry`, so the assignment of line 104
shows in the appended entry. -/
def ScheduleJob (ParseStandard : String → Except String Schedule) (s : ScheduleSafeImpl)
    (now97 now186 : Int) (jobName cronSpec : String) (handler : ScheduleHandler) :
    Except String Unit × ScheduleSafeImpl :=
  if s.running then
    (Except.error "cannot add new job while scheduler already running", s)
  else
    match ParseStandard cronSpec with
    | Except.error err => (Except.error err, s)
    | Except.ok schedule =>
      let entry : scheduleEntry :=
        { jobName := jobName
          cronSpec := cronSpec
          nextExecution := schedule.Next now97
          cronSchedule := schedule }
      let handlers := fun n => if n = jobName then some handler else s.handlers n
      match retrieveNextExecutionTime s jobName cronSpec with
      | Except.ok nextExec =>
        (Except.ok (),
          { s with
            scheduleEntries := s.scheduleEntries ++ [{ entry with nextExecution := nextExec }]
            handlers := handlers })
      | Except.error _ =>
        updateNextExecutionTime
          { s with
            scheduleEntries := s.scheduleEntries ++ [entry]
            handlers := handlers }
          entry now186

/-- A schedule that fires at every full hour (`0 * * * *`). -/
def hourly : Schedule :=
  { Next := fun t => (t / 3600 + 1) * 3600 }

/-- A stand-in for `cron.ParseStandard` that knows the spec `0 * * * *`. -/
def exampleParse (spec : String) : Except String Schedule :=
  if spec = "0 * * * *" then Except.ok hourly else Except.error "bad cron spec"

/-- A stopped scheduler with no entries over a store whose content is `store`. -/
def freshScheduler (store : RedisStore) : ScheduleSafeImpl :=
  { running := false
    handlers := fun _ => none
    scheduleEntries := []
    redisClient := store }

/-- Scenario S4 mid-run: the register of `("hourly", "0 * * * *")` holds `7200`. -/
def fleetStore : RedisStore :=
  fun k => if k = "scheduler:hourly-MCAqICogKiAq" then
      some { value := "7200", ttl := some (3600 * Second) }
    else none

/-- A handler that reports the job it ran. -/
def exampleHandler : ScheduleHandler := fun _ jobName _ => jobName

/-! ## Messenger (`messaging/`) -/

/-- Source `Packet`: a message from a client.  `Data` is the dynamic type of
the field `Data interface{}`. -/
structure Packet (Data : Type) where
  ID : String
  ReceiverID : String
  EventName : String
  Data : Data

/-- Source `OutPacket`: a message from the server to a client. -/
structure OutPacket (Data : Type) where
  ID : String
  SenderID : String
  ReceiverID : String
  EventName : String
  Data : Data

/-- Source `validateOutgoingPacket`. -/
def validateOutgoingPacket {Data : Type} (pkt : OutPacket Data) : Bool :=
  decide (pkt.ID ≠ "") &&
    decide (pkt.SenderID ≠ "") &&
    decide (pkt.ReceiverID ≠ "") &&
    decide (pkt.EventName ≠ "")

/-- Source `validateIncomingPacket`. -/
def validateIncomingPacket {Data : Type} (message : Packet Data) : Bool :=
  decide (message.ID ≠ "") &&
    decide (message.EventName ≠ "")

/-- Source `connection`: an attached client; `socket` identifies the
websocket. -/
structure connection where
  socket : Nat
  clientID : String
deriving DecidableEq, Repr

/-- Source `connectionInfo`: a directory entry. -/
structure connectionInfo where
  clientID : String
  serverID : String
deriving DecidableEq, Repr

/-- Source `localConnections`: the map `connections`, as the list of its
entries in the order in which a `range` over the map visits them. -/
structure localConnections where
  connections : List (String × connection)
deriving DecidableEq, Repr

/-- Source `localConnections.Put`: map assignment. -/
def localConnections.Put (l : localConnections) (key : String) (client : connection) :
    localConnections :=
  { connections := (key, client) :: l.connections.filter (fun e => e.1 != key) }

/-- Source `localConnections.Get`: `none` is the nil pointer. -/
def localConnections.Get (l : localConnections) (key : String) : Option connection :=
  (l.connections.find? (fun e => e.1 == key)).map (fun e => e.2)

/-- Source `localConnections.Remove`: map deletion. -/
def localConnections.Remove (l : localConnections) (key : String) : localConnections :=
  { connections := l.connections.filter (fun e => e.1 != key) }

/-- The loop of `IterateAndPop`: `todo` are the entries the `range` has not
reached yet, `cur` is the map.  An entry that was deleted before it is reached
is not produced; an entry that is produced is deleted, then passed to the
callback.  The result is the final map and the callback invocations. -/
def popLoop : List (String × connection) → List (String × connection) →
    List (String × connection) × List (String × connection)
  | [], cur => (cur, [])
  | (clientID, conn) :: todo, cur =>
      if cur.any (fun e => e.1 == clientID) then
        let res := popLoop todo (cur.filter (fun e => e.1 != clientID))
        (res.1, (clientID, conn) :: res.2)
      else popLoop todo cur

/-- Source `localConnections.IterateAndPop`: the map afterwards and the
arguments of the callback invocations, in order. -/
def localConnections.IterateAndPop (l : localConnections) :
    localConnections × List (String × connection) :=
  ({ connections := (popLoop l.connections l.connections).1 },
    (popLoop l.connections l.connections).2)

/-- The hashes of the key/value store: key, then field. -/
abbrev HashStore := String → String → Option String

/-- Source `createUserInfoKey`. -/
def createUserInfoKey (userSerial : String) : String :=
  String.mk (Sprintf "messaging:sessions:%s".data [userSerial])

/-- Constant `fieldUserSerial`. -/
def fieldUserSerial : String := "cid"

/-- Constant `fieldServerID`. -/
def fieldServerID : String := "sid"

/-- Source `globalConnectionInfoImpl.Get`. -/
def globalConnectionInfoGet (store : HashStore) (userSerial : String) :
    Except String connectionInfo :=
  let key := createUserInfoKey userSerial
  match store key fieldUserSerial, store key fieldServerID with
  | some cid, some sid => Except.ok { clientID := cid, serverID := sid }
  | _, _ => Except.error ("client info " ++ userSerial ++ " not found")

/-- Source `globalConnectionInfoImpl.Put`. -/
def globalConnectionInfoPut (store : HashStore) (info : connectionInfo) : HashStore :=
  fun k f =>
    if k = createUserInfoKey info.clientID then
      if f = fieldUserSerial then some info.clientID
      else if f = fieldServerID then some info.serverID
      else store k f
    else store k f

/-- Source `messengerImpl`: one replica.  The directory lives in the shared
store and is passed along with the replica. -/
structure messengerImpl where
  serverID : String
  localConnections : localConnections
deriving DecidableEq, Repr

/-- What a messenger call does to the outside: a directory lookup, a text
frame written to a socket, a message published on the event bus. -/
inductive Effect where
  | lookup (clientID : String)
  | write (socket : Nat) (data : String)
  | publish (eventName payload : String)
deriving DecidableEq, Repr

/-- Source `messengerImpl.pushMessage`.  `Marshal` is `json.Marshal` on
`*OutPacket`. -/
def pushMessage {Data : Type} (Marshal : OutPacket Data → Except String String)
    (receiver : connection) (pkt : OutPacket Data) : List Effect :=
  match Marshal pkt with
  | Except.error _ => []
  | Except.ok data => [Effect.write receiver.socket data]

/-- Source `messengerImpl.sendMessageImpl`. -/
def sendMessageImpl {Data : Type} (Marshal : OutPacket Data → Except String String)
    (m : messengerImpl) (store : HashStore) (pkt : OutPacket Data) : List Effect :=
  if !validateOutgoingPacket pkt then []
  else
    match m.localConnections.Get pkt.ReceiverID with
    | some receiver => pushMessage Marshal receiver pkt
    | none =>
      Effect.lookup pkt.ReceiverID ::
        (match globalConnectionInfoGet store pkt.ReceiverID with
         | Except.ok clientInfo =>
           (match Marshal pkt with
            | Except.ok messageData => [Effect.publish clientInfo.serverID messageData]
            | Except.error _ => [])
         | Except.error _ => [])

/-- Source `messengerImpl.Send`. -/
def Send {Data : Type} (Marshal : OutPacket Data → Except String String)
    (m : messengerImpl) (store : HashStore) (message : OutPacket Data) : List Effect :=
  sendMessageImpl Marshal m store message

/-- Source `messengerImpl.Handle`: the subscription callback of a replica.
`Unmarshal` is `json.Unmarshal` into `*OutPacket`. -/
def Handle {Data : Type} (Marshal : OutPacket Data → Except String String)
    (Unmarshal : String → Except String (OutPacket Data))
    (m : messengerImpl) (payload : String) : List Effect :=
  match Unmarshal payload with
  | Except.error _ => []
  | Except.ok pkt =>
    match m.localConnections.Get pkt.ReceiverID with
    | some receiver => pushMessage Marshal receiver pkt
    | none => []

/-- Source `messengerImpl.AddClient`, without the read loop it starts: the
directory entry is written, then the connection is put in the local table. -/
def AddClient (m : messengerImpl) (store : HashStore) (clientID : String) (socket : Nat) :
    messengerImpl × HashStore :=
  let clientConn : connection := { socket := socket, clientID := clientID }
  let clientInfo : connectionInfo := { clientID := clientConn.clientID, serverID := m.serverID }
  ({ m with localConnections := m.localConnections.Put clientConn.clientID clientConn },
    globalConnectionInfoPut store clientInfo)

/-- What the event bus does with the effects of one replica: a message
published on a topic reaches the `Handle` of every replica of `fleet` that is
subscribed to it, each replica being subscribed to its own `serverID`.  The
result pairs every effect with the `serverID` of the replica that caused
it. -/
def deliver {Data : Type} (Marshal : OutPacket Data → Except String String)
    (Unmarshal : String → Except String (OutPacket Data))
    (fleet : List messengerImpl) : List Effect → List (String × Effect)
  | [] => []
  | Effect.publish eventName payload :: rest =>
      (fleet.filter (fun r => r.serverID == eventName)).flatMap
          (fun r => (Handle Marshal Unmarshal r payload).map (fun e => (r.serverID, e))) ++
        deliver Marshal Unmarshal fleet rest
  | _ :: rest => deliver Marshal Unmarshal fleet rest

/-- Everything that `Send(pkt)` on the replica `sender` causes in the fleet:
the effects on `sender` itself, then those of the deliveries. -/
def fleetSend {Data : Type} (Marshal : OutPacket Data → Except String String)
    (Unmarshal : String → Except String (OutPacket Data))
    (fleet : List messengerImpl) (store : HashStore) (sender : messengerImpl)
    (pkt : OutPacket Data) : List (String × Effect) :=
  (Send Marshal sender store pkt).map (fun e => (sender.serverID, e)) ++
    deliver Marshal Unmarshal fleet (Send Marshal sender store pkt)

/-- The socket writes among the effects of a fleet. -/
def socketWrites (effs : List (String × Effect)) : List (String × Nat × String) :=
  effs.filterMap (fun e =>
    match e.2 with
    | Effect.write socket data => some (e.1, socket, data)
    | _ => none)

/-- Values of `Data` used in the scenarios: `nil`, a string, and a channel,
which `encoding/json` cannot encode. -/
inductive ExampleData where
  | null
  | text (s : String)
  | channel
deriving DecidableEq, Repr

/-- A stand-in for `json.Marshal` on the packets of the scenarios, whose
strings need no escaping: a channel makes it fail, as
`json.UnsupportedTypeError` does. -/
def exampleMarshal (pkt : OutPacket ExampleData) : Except String String :=
  match pkt.Data with
  | ExampleData.channel => Except.error "json: unsupported type: chan int"
  | ExampleData.null =>
      Except.ok ("\x7b\"id\":\"" ++ pkt.ID ++ "\",\"sender\":\"" ++ pkt.SenderID ++
        "\",\"receiver\":\"" ++ pkt.ReceiverID ++ "\",\"event_name\":\"" ++ pkt.EventName ++
        "\",\"data\":null\x7d")
  | ExampleData.text s =>
      Except.ok ("\x7b\"id\":\"" ++ pkt.ID ++ "\",\"sender\":\"" ++ pkt.SenderID ++
        "\",\"receiver\":\"" ++ pkt.ReceiverID ++ "\",\"event_name\":\"" ++ pkt.EventName ++
        "\",\"data\":\"" ++ s ++ "\"\x7d")

/-- Scenario S5: the packet `m1` from `bob` to `alice`. -/
def chatPacket : OutPacket ExampleData :=
  { ID := "m1", SenderID := "bob", ReceiverID := "alice", EventName := "chat",
    Data := ExampleData.text "hi" }

/-- The JSON text of `chatPacket`. -/
def chatPayload : String :=
  "\x7b\"id\":\"m1\",\"sender\":\"bob\",\"receiver\":\"alice\",\"event_name\":\"chat\",\"data\":\"hi\"\x7d"

/-- A stand-in for `json.Unmarshal` that knows the payload of scenario S5. -/
def exampleUnmarshal (payload : String) : Except String (OutPacket ExampleData) :=
  if payload = chatPayload then Except.ok chatPacket
  else Except.error "invalid character"

/-- A packet whose data is a channel. -/
def channelPacket : OutPacket ExampleData :=
  { ID := "m2", SenderID := "bob", ReceiverID := "alice", EventName := "chat",
    Data := ExampleData.channel }

/-- A replica with no attached clients. -/
def newMessenger (serverID : String) : messengerImpl :=
  { serverID := serverID, localConnections := { connections := [] } }

/-- An empty directory. -/
def emptyHashes : HashStore := fun _ _ => none

/-! ## Event bus (`event_redis.go`) -/

/-- An event handler (`EventHandler.Handle`), as the observable effect of
calling it on `(eventName, payload)`. -/
abbrev EventHandler := String → String → String

/-- Source `eventSubscription`; `id` stands for the address of the struct. -/
structure eventSubscription where
  id : Nat
  eventName : String
  handler : EventHandler

/-- Source `eventRedis`.  `subscriptions` is the map from event names to
subscriptions, by their `id`; `loops` are the dispatch goroutines that are
running, each on the subscription it was started for; `nextID` numbers the
allocations. -/
structure eventRedis where
  subscriptions : List (String × Nat)
  loops : List eventSubscription
  nextID : Nat

/-- Source `NewEventRedis`. -/
def NewEventRedis : eventRedis :=
  { subscriptions := [], loops := [], nextID := 0 }

/-- Source `eventRedis.Subscribe`: the new subscription is stored under its
event name and its dispatch loop is started; the call returns `nil`. -/
def eventRedis.Subscribe (e : eventRedis) (eventName : String) (handler : EventHandler) :
    eventRedis :=
  let subscription : eventSubscription :=
    { id := e.nextID, eventName := eventName, handler := handler }
  { subscriptions :=
      (eventName, subscription.id) :: e.subscriptions.filter (fun s => s.1 != eventName)
    loops := e.loops ++ [subscription]
    nextID := e.nextID + 1 }

/-- Source `eventRedis.Unsubscribe`: the map entry is deleted and the stop
signal is sent to the loop of that subscription, which returns.  `none`: the
loop is not running and the send on the unbuffered channel never returns. -/
def eventRedis.Unsubscribe (e : eventRedis) (eventName : String) : Option eventRedis :=
  match e.subscriptions.find? (fun s => s.1 == eventName) with
  | none => some e
  | some s =>
    if e.loops.any (fun l => l.id == s.2) then
      some { e with
        subscriptions := e.subscriptions.filter (fun s => s.1 != eventName)
        loops := e.loops.filter (fun l => l.id != s.2) }
    else none

/-- A call on the event bus. -/
inductive BusCall where
  | Subscribe (eventName : String) (handler : EventHandler)
  | Unsubscribe (eventName : String)

/-- A sequence of calls on one event bus, in order. -/
def busCalls : eventRedis → List BusCall → Option eventRedis
  | e, [] => some e
  | e, BusCall.Subscribe eventName handler :: rest =>
      busCalls (e.Subscribe eventName handler) rest
  | e, BusCall.Unsubscribe eventName :: rest =>
      match e.Unsubscribe eventName with
      | some e' => busCalls e' rest
      | none => none

/-- Number of running dispatch loops that deliver the messages of `eventName`. -/
def activeLoops (e : eventRedis) (eventName : String) : Nat :=
  (e.loops.filter (fun l => l.eventName == eventName)).length

/-- What the running loops do with a message published on `eventName`: the
effect of each handler that is called, in order. -/
def dispatch (e : eventRedis) (eventName payload : String) : List String :=
  (e.loops.filter (fun l => l.eventName == eventName)).map
    (fun l => l.handler eventName payload)

/-! ## Scheduler tick (`ScheduleSafeImpl.run`) -/

/-- Source `ScheduleSafeImpl.refreshScheduleEntries`. -/
def refreshScheduleEntries (s : ScheduleSafeImpl) : ScheduleSafeImpl :=
  { s with
    scheduleEntries := s.scheduleEntries.map (fun entry =>
      let key := getSchedulerKey entry.jobName entry.cronSpec
      match s.redisClient key with
      | some res => { entry with nextExecution := stringToInt64 res.value }
      | none => entry) }

/-- What one pass of the timer case does to the outside: an attempt on the
fire mutex, a handler started, a register written. -/
inductive SchedEffect where
  | lock (key : String)
  | invoke (execTime : Int) (jobName cronSpec : String) (effect : String)
  | set (key value : String) (expiration : Int)
deriving DecidableEq, Repr

/-- The loop of lines 141-153 over the entries from position `i` on, at wake
time `T`.  `lock i` tells whether the attempt on the mutex of the entry at
position `i` succeeds; `now186 i` is the reading of `now()` when its register
is written.  The result is the entries after the loop, the scheduler with the
store written, and the effects in order. -/
def tickLoop (T : Int) (lock : Nat → Bool) (now186 : Nat → Int) :
    Nat → List scheduleEntry → ScheduleSafeImpl →
      List scheduleEntry × ScheduleSafeImpl × List SchedEffect
  | _, [], s => ([], s, [])
  | i, entry :: rest, s =>
    if entry.nextExecution ≤ T then
      match s.handlers entry.jobName with
      | some handler =>
        if lock i then
          let entry' := { entry with nextExecution := entry.cronSchedule.Next T }
          let s' := (updateNextExecutionTime s entry' (now186 i)).2
          let res := tickLoop T lock now186 (i + 1) rest s'
          (entry' :: res.1, res.2.1,
            SchedEffect.lock (getMutexKey entry.jobName entry.cronSpec) ::
              SchedEffect.invoke T entry.jobName entry.cronSpec
                (handler T entry.jobName entry.cronSpec) ::
              SchedEffect.set (getSchedulerKey entry.jobName entry.cronSpec)
                (toString entry'.nextExecution)
                (timeSub entry'.nextExecution (now186 i)) :: res.2.2)
        else
          let res := tickLoop T lock now186 (i + 1) rest s
          (entry :: res.1, res.2.1,
            SchedEffect.lock (getMutexKey entry.jobName entry.cronSpec) :: res.2.2)
      | none =>
        let res := tickLoop T lock now186 (i + 1) rest s
        (entry :: res.1, res.2.1, res.2.2)
    else (entry :: rest, s, [])

/-- The timer case of `ScheduleSafeImpl.run` (lines 139-153) at wake time `T`. -/
def tick (s : ScheduleSafeImpl) (T : Int) (lock : Nat → Bool) (now186 : Nat → Int) :
    ScheduleSafeImpl × List SchedEffect :=
  let res := tickLoop T lock now186 0 s.scheduleEntries s
  ({ res.2.1 with scheduleEntries := res.1 }, res.2.2)

/-- The tick as the specification words it, entry by entry from position `i`
on: an entry that is due gets a lock attempt; if the lock is acquired its
handler is invoked with `(T, jobName, cronSpec)`, its `nextExecution` becomes
`cronSchedule.Next T` and that value is written to its register; an entry that
is not due, or whose lock is busy, is left as it is. -/
def tickBySpec (T : Int) (lock : Nat → Bool) (now186 : Nat → Int) :
    Nat → List scheduleEntry → ScheduleSafeImpl →
      List scheduleEntry × ScheduleSafeImpl × List SchedEffect
  | _, [], s => ([], s, [])
  | i, entry :: rest, s =>
    if entry.nextExecution ≤ T ∧ lock i = true then
      let next := entry.cronSchedule.Next T
      let key := getSchedulerKey entry.jobName entry.cronSpec
      let s' := { s with
        redisClient := s.redisClient.Set key (toString next) (timeSub next (now186 i)) }
      let res := tickBySpec T lock now186 (i + 1) rest s'
      ({ entry with nextExecution := next } :: res.1, res.2.1,
        SchedEffect.lock (getMutexKey entry.jobName entry.cronSpec) ::
          (match s.handlers entry.jobName with
            | some handler =>
              [SchedEffect.invoke T entry.jobName entry.cronSpec
                (handler T entry.jobName entry.cronSpec)]
            | none => []) ++
          SchedEffect.set key (toString next) (timeSub next (now186 i)) :: res.2.2)
    else
      let res := tickBySpec T lock now186 (i + 1) rest s
      (entry :: res.1, res.2.1,
        (if entry.nextExecution ≤ T then
          [SchedEffect.lock (getMutexKey entry.jobName entry.cronSpec)] else []) ++ res.2.2)

/-- No byte of the cron spec is `>` (0x3E), `~` (0x7E), 0xBE or 0xFE, the
bytes whose low six bits are 62.  Every spec that `cron.ParseStandard` accepts
is of this kind (`cronAlphabet`). -/
def dashFree (cronSpec : String) : Prop :=
  ∀ b ∈ stringBytes cronSpec, b % 64 ≠ 62

instance dashFreeDecidable (cronSpec : String) : Decidable (dashFree cronSpec) :=
  inferInstanceAs (Decidable (∀ b ∈ stringBytes cronSpec, b % 64 ≠ 62))

/-- The characters of the specs that `cron.ParseStandard` accepts: digits and
signs of the numbers, the letters of the month and day names and of the
descriptors, `*`, `/`, `,`, `-`, `?`, `@`, the point and the unit signs of a
duration after `@every`, the white space on which `strings.Fields` splits,
the letter U+0130, which `strings.ToLower` maps to `i`, and `_`, `=`, `:` of
the time zone prefix that later versions of the library accept. -/
def cronAlphabet : List Char :=
  ("0123456789abcdefghijklmnopqrstuvwxyzABCDEFGHIJKLMNOPQRSTUVWXYZ*/,-?@+._=:" ++
    " \t\n\x0b\x0c\r\u0085\u00a0\u1680\u2000\u2001\u2002\u2003\u2004\u2005\u2006" ++
    "\u2007\u2008\u2009\u200a\u2028\u2029\u202f\u205f\u3000\u00b5\u03bc\u0130").data

/-- The arguments of one `ScheduleJob` call, with the readings of `now()` on
lines 97 and 186 during it. -/
structure ScheduleCall where
  jobName : String
  cronSpec : String
  handler : ScheduleHandler
  now97 : Int
  now186 : Int

/-- The scheduler after the calls of `calls`, made in order. -/
def scheduleCalls (ParseStandard : String → Except String Schedule) :
    ScheduleSafeImpl → List ScheduleCall → ScheduleSafeImpl
  | s, [] => s
  | s, c :: rest =>
    scheduleCalls ParseStandard
      (ScheduleJob ParseStandard s c.now97 c.now186 c.jobName c.cronSpec c.handler).2 rest

/-- The returned `error` is nil. -/
def succeeded : Except String Unit → Bool
  | Except.ok _ => true
  | Except.error _ => false

/-- Every call of `calls`, made in order, returns a nil error. -/
def callsSucceed (ParseStandard : String → Except String Schedule) :
    ScheduleSafeImpl → List ScheduleCall → Bool
  | _, [] => true
  | s, c :: rest =>
    succeeded
        (ScheduleJob ParseStandard s c.now97 c.now186 c.jobName c.cronSpec c.handler).1 &&
      callsSucceed ParseStandard
        (ScheduleJob ParseStandard s c.now97 c.now186 c.jobName c.cronSpec c.handler).2 rest

/-- The handler of the last call of `calls` whose job name is `jobName`. -/
def lastHandler : List ScheduleCall → String → Option ScheduleHandler
  | [], _ => none
  | c :: rest, jobName =>
    match lastHandler rest jobName with
    | some h => some h
    | none => if c.jobName = jobName then some c.handler else none

/-- A schedule that fires at half past every hour (`30 * * * *`). -/
def halfPast : Schedule :=
  { Next := fun t => ((t - 1800) / 3600 + 1) * 3600 + 1800 }

/-- A stand-in for `cron.ParseStandard` that knows the specs `0 * * * *` and
`30 * * * *`. -/
def twoSpecParse (spec : String) : Except String Schedule :=
  if spec = "0 * * * *" then Except.ok hourly
  else if spec = "30 * * * *" then Except.ok halfPast
  else Except.error "bad cron spec"

/-- A handler that reports `first`. -/
def firstHandler : ScheduleHandler := fun _ _ _ => "first"

/-- A handler that reports `second`. -/
def secondHandler : ScheduleHandler := fun _ _ _ => "second"

/-- Two calls at Unix time 3000 with the job name `report`: the first with
the spec `0 * * * *` and `firstHandler`, the second with the spec `30 * * * *`
and `secondHandler`. -/
def sameNameCalls : List ScheduleCall :=
  [{ jobName := "report", cronSpec := "0 * * * *", handler := firstHandler,
     now97 := 3000, now186 := 3000 },
   { jobName := "report", cronSpec := "30 * * * *", handler := secondHandler,
     now97 := 3000, now186 := 3000 }]

/-- Two calls at Unix time 3000 with different job names. -/
def twoNameCalls : List ScheduleCall :=
  [{ jobName := "report", cronSpec := "0 * * * *", handler := firstHandler,
     now97 := 3000, now186 := 3000 },
   { jobName := "digest", cronSpec := "30 * * * *", handler := secondHandler,
     now97 := 3000, now186 := 3000 }]

/-! ## Refresh of the entries from the registers -/

/-- A store in which the register of `("hourly", "0 * * * *")` holds `value`
and no other key exists. -/
def registerStore (value : String) : RedisStore :=
  fun k => if k = "scheduler:hourly-MCAqICogKiAq" then
      some { value := value, ttl := some (3600 * Second) }
    else none

/-- A scheduler over `store` whose one entry `("hourly", "0 * * * *")` has the
next execution 3600. -/
def hourlyScheduler (store : RedisStore) : ScheduleSafeImpl :=
  { running := true
    handlers := fun n => if n = "hourly" then some exampleHandler else none
    scheduleEntries :=
      [{ jobName := "hourly", cronSpec := "0 * * * *", nextExecution := 3600,
         cronSchedule := hourly }]
    redisClient := store }

/-! ## End of a read loop (`messengerImpl.removeClient`) -/

/-- Source `globalConnectionInfoImpl.Remove`: the key is deleted. -/
def globalConnectionInfoRemove (store : HashStore) (userSerial : String) : HashStore :=
  fun k f => if k = createUserInfoKey userSerial then none else store k f

/-- Source `messengerImpl.removeClient`.  The result is the replica, the
directory and the sockets on which `Close` was called. -/
def removeClient (m : messengerImpl) (store : HashStore) (userSerial : String) :
    messengerImpl × HashStore × List Nat :=
  let store' := globalConnectionInfoRemove store userSerial
  match m.localConnections.Get userSerial with
  | some client =>
    ({ m with localConnections := m.localConnections.Remove userSerial }, store',
      [client.socket])
  | none => (m, store', [])

/-- The error branch of `messengerImpl.startClientReadLoop` (lines 105-109):
`ReadMessage` on the socket of `client` returned an error. -/
def readLoopError (m : messengerImpl) (store : HashStore) (client : connection) :
    messengerImpl × HashStore × List Nat :=
  removeClient m store client.clientID

/-! ## JSON encoding of the packets (`encoding/json`) -/

/-- A JSON text as a tree: what the scanner of `encoding/json` accepts, without
the white space.  A number keeps its literal, a string is given by its
characters after unescaping. -/
inductive JSON where
  | null
  | bool (b : Bool)
  | number (literal : List Char)
  | string (s : List Char)
  | array (elems : List JSON)
  | object (members : List (List Char × JSON))

/-- The lower-case hexadecimal digit of `n`. -/
def hexDigit (n : Nat) : Char :=
  "0123456789abcdef".data.getD n '0'

/-- What the encoder of `encoding/json` writes for one character of a string
(`encodeState.string` with HTML escaping, as `json.Marshal` sets it).  The
backspace and the form feed are written as `\u0008` and `\u000c`, as Go did
up to version 1.21; later versions write `\b` and `\f`, which `unescape`
reads as the same characters. -/
def escapeChar (c : Char) : List Char :=
  if c = '"' then ['\\', '"']
  else if c = '\\' then ['\\', '\\']
  else if c = '\n' then ['\\', 'n']
  else if c = '\r' then ['\\', 'r']
  else if c = '\t' then ['\\', 't']
  else if c.toNat < 32 ∨ c = '<' ∨ c = '>' ∨ c = '&' then
    ['\\', 'u', '0', '0', hexDigit (c.toNat / 16), hexDigit (c.toNat % 16)]
  else if c = '\u2028' then ['\\', 'u', '2', '0', '2', '8']
  else if c = '\u2029' then ['\\', 'u', '2', '0', '2', '9']
  else [c]

/-- The content of a JSON string literal for `s`, between the quotes. -/
def escape (s : List Char) : List Char :=
  s.flatMap escapeChar

mutual
/-- The compact JSON text of a tree, as `json.Marshal` writes it. -/
def render : JSON → List Char
  | JSON.null => ['n', 'u', 'l', 'l']
  | JSON.bool true => ['t', 'r', 'u', 'e']
  | JSON.bool false => ['f', 'a', 'l', 's', 'e']
  | JSON.number literal => literal
  | JSON.string s => '"' :: (escape s ++ ['"'])
  | JSON.array elems => '[' :: (renderElems elems ++ [']'])
  | JSON.object members => '\x7b' :: (renderMembers members ++ ['\x7d'])
/-- The elements of an array, separated by commas. -/
def renderElems : List JSON → List Char
  | [] => []
  | [j] => render j
  | j :: rest => render j ++ ',' :: renderElems rest
/-- The members of an object, separated by commas. -/
def renderMembers : List (List Char × JSON) → List Char
  | [] => []
  | [(k, j)] => '"' :: (escape k ++ '"' :: ':' :: render j)
  | (k, j) :: rest => '"' :: (escape k ++ '"' :: ':' :: (render j ++ ',' :: renderMembers rest))
end

/-- White space between JSON tokens is skipped. -/
def skipWS : List Char → List Char
  | [] => []
  | c :: rest => if c = ' ' ∨ c = '\t' ∨ c = '\r' ∨ c = '\n' then skipWS rest else c :: rest

/-- The value of a hexadecimal digit. -/
def hexValue (c : Char) : Option Nat :=
  if '0' ≤ c ∧ c ≤ '9' then some (c.toNat - 48)
  else if 'a' ≤ c ∧ c ≤ 'f' then some (c.toNat - 87)
  else if 'A' ≤ c ∧ c ≤ 'F' then some (c.toNat - 55)
  else none

/-- Four hexadecimal digits at the start of the input. -/
def hex4 : List Char → Option (Nat × List Char)
  | a :: b :: c :: d :: rest =>
    match hexValue a, hexValue b, hexValue c, hexValue d with
    | some x, some y, some z, some w => some (x * 4096 + y * 256 + z * 16 + w, rest)
    | _, _, _, _ => none
  | _ => none

/-- The character of the escape sequence whose backslash was just read, and
the input after the sequence.  A `\u` escape that is half of a surrogate pair
is joined with the other half if that follows, and is U+FFFD otherwise. -/
def unescape : List Char → Option (Char × List Char)
  | [] => none
  | c :: rest =>
    if c = '"' then some ('"', rest)
    else if c = '\\' then some ('\\', rest)
    else if c = '/' then some ('/', rest)
    else if c = 'b' then some ('\x08', rest)
    else if c = 'f' then some ('\x0c', rest)
    else if c = 'n' then some ('\n', rest)
    else if c = 'r' then some ('\r', rest)
    else if c = 't' then some ('\t', rest)
    else if c = 'u' then
      match hex4 rest with
      | none => none
      | some (v, rest1) =>
        if 55296 ≤ v ∧ v < 57344 then
          match rest1 with
          | '\\' :: 'u' :: rest2 =>
            match hex4 rest2 with
            | some (w, rest3) =>
              if v < 56320 ∧ 56320 ≤ w ∧ w < 57344 then
                some (Char.ofNat ((v - 55296) * 1024 + (w - 56320) + 65536), rest3)
              else some ('\ufffd', rest1)
            | none => some ('\ufffd', rest1)
          | _ => some ('\ufffd', rest1)
        else some (Char.ofNat v, rest1)
    else none

/-- A string literal after its opening quote: the string and the input after
the closing quote.  Each step reads at least one character, so a fuel of the
length of the input is enough. -/
def parseString : Nat → List Char → Option (List Char × List Char)
  | 0, _ => none
  | _ + 1, [] => none
  | fuel + 1, c :: rest =>
    if c = '"' then some ([], rest)
    else if c = '\\' then
      match unescape rest with
      | none => none
      | some (ch, rest1) => (parseString fuel rest1).map (fun r => (ch :: r.1, r.2))
    else if c.toNat < 32 then none
    else (parseString fuel rest).map (fun r => (c :: r.1, r.2))

/-- States of the scanner inside a number. -/
inductive NumState where
  | start
  | neg
  | zero
  | int
  | dot
  | frac
  | e
  | esign
  | exp
deriving DecidableEq, Repr

/-- The scanner's step on a character of a number; `none` when the character
does not continue the number. -/
def numStep : NumState → Char → Option NumState
  | NumState.start, c =>
    if c = '-' then some NumState.neg
    else if c = '0' then some NumState.zero
    else if c.isDigit then some NumState.int
    else none
  | NumState.neg, c =>
    if c = '0' then some NumState.zero
    else if c.isDigit then some NumState.int
    else none
  | NumState.zero, c =>
    if c = '.' then some NumState.dot
    else if c = 'e' ∨ c = 'E' then some NumState.e
    else none
  | NumState.int, c =>
    if c.isDigit then some NumState.int
    else if c = '.' then some NumState.dot
    else if c = 'e' ∨ c = 'E' then some NumState.e
    else none
  | NumState.dot, c => if c.isDigit then some NumState.frac else none
  | NumState.frac, c =>
    if c.isDigit then some NumState.frac
    else if c = 'e' ∨ c = 'E' then some NumState.e
    else none
  | NumState.e, c =>
    if c = '+' ∨ c = '-' then some NumState.esign
    else if c.isDigit then some NumState.exp
    else none
  | NumState.esign, c => if c.isDigit then some NumState.exp else none
  | NumState.exp, c => if c.isDigit then some NumState.exp else none

/-- The states in which a number may end. -/
def NumState.accepting : NumState → Bool
  | NumState.zero => true
  | NumState.int => true
  | NumState.frac => true
  | NumState.exp => true
  | _ => false

/-- The longest number literal at the start of the input, and the input
after it. -/
def scanNumber : NumState → List Char → Option (List Char × List Char)
  | st, [] => if st.accepting then some ([], []) else none
  | st, c :: rest =>
    match numStep st c with
    | some st1 => (scanNumber st1 rest).map (fun r => (c :: r.1, r.2))
    | none => if st.accepting then some ([], c :: rest) else none

/-- The literal is a JSON number. -/
def validNumber (literal : List Char) : Bool :=
  decide (scanNumber NumState.start literal = some (literal, []))

/-- Constant `maxNestingDepth` of the scanner (Go 1.15 and later): arrays and
objects may be nested this deep. -/
def maxNestingDepth : Nat := 10000

mutual
/-- One JSON value at the start of the input, and the input after it.
`depth` is the number of arrays and objects that are open. -/
def parseValue (depth : Nat) : Nat → List Char → Option (JSON × List Char)
  | 0, _ => none
  | fuel + 1, cs =>
    match skipWS cs with
    | [] => none
    | c :: rest =>
      if c = '"' then
        (parseString rest.length rest).map (fun r => (JSON.string r.1, r.2))
      else if c = '[' then
        if maxNestingDepth ≤ depth then none
        else
          match skipWS rest with
          | ']' :: rest1 => some (JSON.array [], rest1)
          | _ => (parseElems (depth + 1) fuel rest).map (fun r => (JSON.array r.1, r.2))
      else if c = '\x7b' then
        if maxNestingDepth ≤ depth then none
        else
          match skipWS rest with
          | '\x7d' :: rest1 => some (JSON.object [], rest1)
          | _ => (parseMembers (depth + 1) fuel rest).map (fun r => (JSON.object r.1, r.2))
      else if c = 'n' then
        match rest with
        | 'u' :: 'l' :: 'l' :: rest1 => some (JSON.null, rest1)
        | _ => none
      else if c = 't' then
        match rest with
        | 'r' :: 'u' :: 'e' :: rest1 => some (JSON.bool true, rest1)
        | _ => none
      else if c = 'f' then
        match rest with
        | 'a' :: 'l' :: 's' :: 'e' :: rest1 => some (JSON.bool false, rest1)
        | _ => none
      else
        (scanNumber NumState.start (c :: rest)).map (fun r => (JSON.number r.1, r.2))
/-- The elements of an array after `[`, up to and including `]`. -/
def parseElems (depth : Nat) : Nat → List Char → Option (List JSON × List Char)
  | 0, _ => none
  | fuel + 1, cs =>
    match parseValue depth fuel cs with
    | none => none
    | some (v, rest) =>
      match skipWS rest with
      | ',' :: rest1 => (parseElems depth fuel rest1).map (fun r => (v :: r.1, r.2))
      | ']' :: rest1 => some ([v], rest1)
      | _ => none
/-- The members of an object after `\x7b`, up to and including `\x7d`. -/
def parseMembers (depth : Nat) :
    Nat → List Char → Option (List (List Char × JSON) × List Char)
  | 0, _ => none
  | fuel + 1, cs =>
    match skipWS cs with
    | '"' :: rest =>
      match parseString rest.length rest with
      | none => none
      | some (k, rest1) =>
        match skipWS rest1 with
        | ':' :: rest2 =>
          match parseValue depth fuel rest2 with
          | none => none
          | some (v, rest3) =>
            match skipWS rest3 with
            | ',' :: rest4 =>
              (parseMembers depth fuel rest4).map (fun r => ((k, v) :: r.1, r.2))
            | '\x7d' :: rest4 => some ([(k, v)], rest4)
            | _ => none
        | _ => none
    | _ => none
end

/-- A Go value held in a field of type `interface{}`, for the dynamic types
that matter here.  `float64` carries the IEEE 754 bits of the number
(`math.Float64bits`); `int` is a Go integer; `string` is a string of valid
UTF-8; `slice` is a non-nil `[]interface{}`; `map` is a non-nil
`map[string]interface{}`, given by its entries in the order of their keys;
`chan` is a channel. -/
inductive GoValue where
  | null
  | bool (b : Bool)
  | float64 (bits : Nat)
  | int (n : Int)
  | string (s : String)
  | slice (elems : List GoValue)
  | map (entries : List (String × GoValue))
  | chan

/-- Go's `<` on strings, which compares byte by byte. -/
def bytesLess : List Nat → List Nat → Bool
  | _, [] => false
  | [], _ :: _ => true
  | a :: as, b :: bs => if a < b then true else if b < a then false else bytesLess as bs

/-- Map assignment `m[k] = v` on the entries in key order. -/
def insertEntry {α : Type} (k : String) (v : α) : List (String × α) → List (String × α)
  | [] => [(k, v)]
  | (k1, v1) :: rest =>
    if k = k1 then (k, v) :: rest
    else if bytesLess (stringBytes k) (stringBytes k1) then (k, v) :: (k1, v1) :: rest
    else (k1, v1) :: insertEntry k v rest

/-- The entries sorted by key, as the encoder sorts the keys of a map. -/
def sortEntries {α : Type} (entries : List (String × α)) : List (String × α) :=
  entries.foldl (fun acc e => insertEntry e.1 e.2 acc) []

mutual
/-- Library function `json.Marshal` on a value held in an `interface{}`:
the JSON tree it writes, or its error.  `FormatFloat` is the formatting of a
`float64` given by its bits. -/
def encodeValue (FormatFloat : Nat → List Char) : GoValue → Except String JSON
  | GoValue.null => Except.ok JSON.null
  | GoValue.bool b => Except.ok (JSON.bool b)
  | GoValue.float64 bits =>
    if bits / 2 ^ 52 % 2048 = 2047 then Except.error "json: unsupported value"
    else Except.ok (JSON.number (FormatFloat bits))
  | GoValue.int n => Except.ok (JSON.number (toString n).data)
  | GoValue.string s => Except.ok (JSON.string s.data)
  | GoValue.slice elems =>
    match encodeElems FormatFloat elems with
    | Except.error err => Except.error err
    | Except.ok js => Except.ok (JSON.array js)
  | GoValue.map entries =>
    match encodeEntries FormatFloat entries with
    | Except.error err => Except.error err
    | Except.ok js => Except.ok (JSON.object ((sortEntries js).map (fun e => (e.1.data, e.2))))
  | GoValue.chan => Except.error "json: unsupported type: chan int"
/-- The elements of a slice, encoded in order. -/
def encodeElems (FormatFloat : Nat → List Char) : List GoValue → Except String (List JSON)
  | [] => Except.ok []
  | v :: rest =>
    match encodeValue FormatFloat v with
    | Except.error err => Except.error err
    | Except.ok j =>
      match encodeElems FormatFloat rest with
      | Except.error err => Except.error err
      | Except.ok js => Except.ok (j :: js)
/-- The values of the entries of a map, encoded. -/
def encodeEntries (FormatFloat : Nat → List Char) :
    List (String × GoValue) → Except String (List (String × JSON))
  | [] => Except.ok []
  | (k, v) :: rest =>
    match encodeValue FormatFloat v with
    | Except.error err => Except.error err
    | Except.ok j =>
      match encodeEntries FormatFloat rest with
      | Except.error err => Except.error err
      | Except.ok js => Except.ok ((k, j) :: js)
end

mutual
/-- Library function `json.Unmarshal` into an `interface{}`: a JSON boolean
gives a `bool`, a number a `float64`, a string a `string`, an array a
`[]interface{}`, an object a `map[string]interface{}`, `null` gives nil.
`ParseFloat` is `strconv.ParseFloat` with the bits of its result. -/
def decodeValue (ParseFloat : List Char → Option Nat) : JSON → Except String GoValue
  | JSON.null => Except.ok GoValue.null
  | JSON.bool b => Except.ok (GoValue.bool b)
  | JSON.number literal =>
    match ParseFloat literal with
    | some bits => Except.ok (GoValue.float64 bits)
    | none => Except.error "json: cannot unmarshal number into Go value of type float64"
  | JSON.string s => Except.ok (GoValue.string (String.mk s))
  | JSON.array elems =>
    match decodeElems ParseFloat elems with
    | Except.error err => Except.error err
    | Except.ok vs => Except.ok (GoValue.slice vs)
  | JSON.object members =>
    match decodeMembers ParseFloat members [] with
    | Except.error err => Except.error err
    | Except.ok entries => Except.ok (GoValue.map entries)
/-- The elements of an array, decoded in order. -/
def decodeElems (ParseFloat : List Char → Option Nat) : List JSON → Except String (List GoValue)
  | [] => Except.ok []
  | j :: rest =>
    match decodeValue ParseFloat j with
    | Except.error err => Except.error err
    | Except.ok v =>
      match decodeElems ParseFloat rest with
      | Except.error err => Except.error err
      | Except.ok vs => Except.ok (v :: vs)
/-- The members of an object, assigned to the map `acc` in order. -/
def decodeMembers (ParseFloat : List Char → Option Nat) :
    List (List Char × JSON) → List (String × GoValue) → Except String (List (String × GoValue))
  | [], acc => Except.ok acc
  | (k, j) :: rest, acc =>
    match decodeValue ParseFloat j with
    | Except.error err => Except.error err
    | Except.ok v => decodeMembers ParseFloat rest (insertEntry (String.mk k) v acc)
end

/-- The keys increase strictly in Go's string order. -/
def sortedKeys : List String → Bool
  | [] => true
  | k :: rest =>
    rest.all (fun k1 => bytesLess (stringBytes k) (stringBytes k1)) && sortedKeys rest

mutual
/-- The value is of the Go types in which `json.Unmarshal` stores JSON in an
`interface{}`: nil, `bool`, `float64`, `string`, `[]interface{}` and
`map[string]interface{}` of such values.  A `float64` is finite, and the
library formats it as a JSON number that `strconv.ParseFloat` reads back as
the same `float64`. -/
def jsonNative (FormatFloat : Nat → List Char) (ParseFloat : List Char → Option Nat) :
    GoValue → Bool
  | GoValue.null => true
  | GoValue.bool _ => true
  | GoValue.float64 bits =>
    decide (bits / 2 ^ 52 % 2048 ≠ 2047) && validNumber (FormatFloat bits) &&
      decide (ParseFloat (FormatFloat bits) = some bits)
  | GoValue.int _ => false
  | GoValue.string _ => true
  | GoValue.slice elems => jsonNativeElems FormatFloat ParseFloat elems
  | GoValue.map entries =>
    sortedKeys (entries.map (fun e => e.1)) && jsonNativeEntries FormatFloat ParseFloat entries
  | GoValue.chan => false
/-- Every element is `jsonNative`. -/
def jsonNativeElems (FormatFloat : Nat → List Char) (ParseFloat : List Char → Option Nat) :
    List GoValue → Bool
  | [] => true
  | v :: rest =>
    jsonNative FormatFloat ParseFloat v && jsonNativeElems FormatFloat ParseFloat rest
/-- Every value of the entries is `jsonNative`. -/
def jsonNativeEntries (FormatFloat : Nat → List Char) (ParseFloat : List Char → Option Nat) :
    List (String × GoValue) → Bool
  | [] => true
  | (_, v) :: rest =>
    jsonNative FormatFloat ParseFloat v && jsonNativeEntries FormatFloat ParseFloat rest
end

mutual
/-- How deep slices and maps are nested in the value. -/
def valueDepth : GoValue → Nat
  | GoValue.slice elems => 1 + valueDepthElems elems
  | GoValue.map entries => 1 + valueDepthEntries entries
  | _ => 0
/-- The deepest nesting among the elements. -/
def valueDepthElems : List GoValue → Nat
  | [] => 0
  | v :: rest => max (valueDepth v) (valueDepthElems rest)
/-- The deepest nesting among the values of the entries. -/
def valueDepthEntries : List (String × GoValue) → Nat
  | [] => 0
  | (_, v) :: rest => max (valueDepth v) (valueDepthEntries rest)
end

/-- The character ends a value: a comma or a closing bracket. -/
def delimiter (c : Char) : Prop := c = ',' ∨ c = ']' ∨ c = '\x7d'

/-- The input after a value is empty or starts with a delimiter. -/
def delimited : List Char → Prop
  | [] => True
  | c :: _ => delimiter c

/-- The character starts a JSON value. -/
def startsValue (c : Char) : Prop :=
  c = '"' ∨ c = '[' ∨ c = '\x7b' ∨ c = 'n' ∨ c = 't' ∨ c = 'f' ∨ c = '-' ∨ c.isDigit = true

mutual
/-- Every number of the tree is a JSON number literal. -/
def wfJSON : JSON → Bool
  | JSON.number literal => validNumber literal
  | JSON.array elems => wfElems elems
  | JSON.object members => wfMembers members
  | _ => true
/-- Every element is well formed. -/
def wfElems : List JSON → Bool
  | [] => true
  | j :: rest => wfJSON j && wfElems rest
/-- Every member value is well formed. -/
def wfMembers : List (List Char × JSON) → Bool
  | [] => true
  | (_, j) :: rest => wfJSON j && wfMembers rest
end

mutual
/-- A fuel that is enough for `parseValue` on the text of the tree. -/
def need : JSON → Nat
  | JSON.array elems => 1 + needElems elems
  | JSON.object members => 1 + needMembers members
  | _ => 1
/-- A fuel that is enough for `parseElems`. -/
def needElems : List JSON → Nat
  | [] => 0
  | j :: rest => 1 + need j + needElems rest
/-- A fuel that is enough for `parseMembers`. -/
def needMembers : List (List Char × JSON) → Nat
  | [] => 0
  | (_, j) :: rest => 1 + need j + needMembers rest
end

mutual
/-- How deep arrays and objects are nested in the tree. -/
def nesting : JSON → Nat
  | JSON.array elems => 1 + nestingElems elems
  | JSON.object members => 1 + nestingMembers members
  | _ => 0
/-- The deepest nesting among the elements. -/
def nestingElems : List JSON → Nat
  | [] => 0
  | j :: rest => max (nesting j) (nestingElems rest)
/-- The deepest nesting among the member values. -/
def nestingMembers : List (List Char × JSON) → Nat
  | [] => 0
  | (_, j) :: rest => max (nesting j) (nestingMembers rest)
end

theorem foldl_lowerID_none (l : List job) (acc : Option job) :
    l.foldl lowerID acc = none → acc = none ∧ l = [] := by
  induction l generalizing acc with
  | nil => intro h; exact ⟨h, rfl⟩
  | cons a t ih =>
    intro h
    have h1 := (ih _ h).1
    cases acc with
    | none => simp [lowerID] at h1
    | some b =>
      simp only [lowerID] at h1
      split at h1 <;> simp at h1

theorem foldl_lowerID_some (l : List job) (acc : Option job) (r : job) :
    l.foldl lowerID acc = some r → acc = some r ∨ r ∈ l := by
  induction l generalizing acc with
  | nil => intro h; exact Or.inl h
  | cons a t ih =>
    intro h
    rcases ih _ h with h1 | h1
    · cases acc with
      | none =>
        simp only [lowerID, Option.some.injEq] at h1
        right; simp [h1]
      | some b =>
        simp only [lowerID] at h1
        split at h1
        · simp only [Option.some.injEq] at h1; right; simp [h1]
        · left; exact h1
    · right; exact List.mem_cons_of_mem _ h1

theorem First_ok {tbl : JobsTable} {cond : job → Bool} {r : job}
    (h : tbl.First cond = Except.ok r) : r ∈ tbl.rows ∧ cond r = true := by
  unfold JobsTable.First at h
  split at h
  · cases h
  · next r' hr =>
    cases h
    rcases foldl_lowerID_some _ _ _ hr with h1 | h1
    · cases h1
    · exact List.mem_filter.mp h1

theorem First_error {tbl : JobsTable} {cond : job → Bool} {e : StoreError}
    (h : tbl.First cond = Except.error e) : ∀ r ∈ tbl.rows, cond r = false := by
  unfold JobsTable.First at h
  split at h
  · next hn =>
    have := (foldl_lowerID_none _ _ hn).2
    intro r hr
    by_contra hc
    have : r ∈ tbl.rows.filter cond := List.mem_filter.mpr ⟨hr, by simpa using hc⟩
    simp_all
  · cases h

theorem byID_eq_some {tbl : JobsTable} {id : Nat} {r : job}
    (h : tbl.byID id = some r) : r ∈ tbl.rows ∧ r.ID = id := by
  unfold JobsTable.byID at h
  exact ⟨List.mem_of_find?_eq_some h, by simpa using List.find?_some h⟩

theorem find_of_nodup (l : List job) (r : job) (hn : (l.map job.ID).Nodup) (hr : r ∈ l) :
    l.find? (fun x => x.ID == r.ID) = some r := by
  induction l with
  | nil => cases hr
  | cons a t ih =>
    rw [List.map_cons, List.nodup_cons] at hn
    rcases List.mem_cons.mp hr with h | h
    · subst h; simp
    · have hne : a.ID ≠ r.ID := by
        intro he
        exact hn.1 (he ▸ List.mem_map_of_mem job.ID h)
      rw [List.find?_cons_of_neg _ (by simpa using hne)]
      exact ih hn.2 h

theorem byID_of_mem {tbl : JobsTable} (hwf : tbl.WF) {r : job} (hr : r ∈ tbl.rows) :
    tbl.byID r.ID = some r :=
  find_of_nodup _ _ hwf.1 hr

theorem byID_UpdateWhereID (tbl : JobsTable) (k i : Nat) (f : job → job)
    (hf : ∀ r, (f r).ID = r.ID) :
    (tbl.UpdateWhereID k f).byID i =
      (tbl.byID i).map (fun r => if r.ID = k then f r else r) := by
  unfold JobsTable.byID JobsTable.UpdateWhereID
  simp only [List.find?_map]
  have hp : ((fun r : job => r.ID == i) ∘ fun r => if r.ID = k then f r else r)
      = (fun r : job => r.ID == i) := by
    funext r
    simp only [Function.comp]
    split <;> simp [hf]
  rw [hp]

theorem UpdateWhereID_ids (tbl : JobsTable) (k : Nat) (f : job → job)
    (hf : ∀ r, (f r).ID = r.ID) :
    (tbl.UpdateWhereID k f).rows.map job.ID = tbl.rows.map job.ID := by
  unfold JobsTable.UpdateWhereID
  simp only [List.map_map]
  apply List.map_congr_left
  intro r _
  simp only [Function.comp]
  split <;> simp [hf]

theorem UpdateWhereID_WF {tbl : JobsTable} (hwf : tbl.WF) (k : Nat) (f : job → job)
    (hf : ∀ r, (f r).ID = r.ID) : (tbl.UpdateWhereID k f).WF := by
  refine ⟨by rw [UpdateWhereID_ids tbl k f hf]; exact hwf.1, ?_⟩
  intro r hr
  have : r.ID ∈ (tbl.UpdateWhereID k f).rows.map job.ID := List.mem_map_of_mem _ hr
  rw [UpdateWhereID_ids tbl k f hf] at this
  obtain ⟨r0, hr0, he⟩ := List.mem_map.mp this
  have := hwf.2 r0 hr0
  show r.ID < tbl.nextID
  omega

theorem Create_WF {tbl : JobsTable} (hwf : tbl.WF) (j : job) : (tbl.Create j).WF := by
  unfold JobsTable.Create
  refine ⟨?_, ?_⟩
  · simp only [List.map_append, List.map_cons, List.map_nil]
    rw [List.nodup_append]
    refine ⟨hwf.1, by simp, ?_⟩
    intro a ha hb
    simp only [List.mem_singleton] at hb
    obtain ⟨r0, hr0, he⟩ := List.mem_map.mp ha
    have := hwf.2 r0 hr0
    omega
  · intro r hr
    simp only [List.mem_append, List.mem_singleton] at hr
    rcases hr with h | h
    · have := hwf.2 r h; show r.ID < tbl.nextID + 1; omega
    · subst h; show tbl.nextID < tbl.nextID + 1; omega

theorem byID_Create_old (tbl : JobsTable) (j : job) {i : Nat} {r : job}
    (h : tbl.byID i = some r) : (tbl.Create j).byID i = some r := by
  unfold JobsTable.byID JobsTable.Create at *
  simp only [List.find?_append, h]
  rfl

theorem byID_Create_new {tbl : JobsTable} (hwf : tbl.WF) (j : job) :
    (tbl.Create j).byID tbl.nextID = some { j with ID := tbl.nextID } := by
  unfold JobsTable.byID JobsTable.Create
  simp only [List.find?_append]
  have : tbl.rows.find? (fun r => r.ID == tbl.nextID) = none := by
    rw [List.find?_eq_none]
    intro r hr
    have := hwf.2 r hr
    simp; omega
  simp [this]

/-! ## Enqueueing and the requeue tick -/

theorem delayDuration_small {d : Nat} (h : d ≤ 9223372036) :
    delayDuration d = (d : Int) * Second := by
  unfold delayDuration wrapInt64 Second
  norm_num
  omega

/-- C2 (amended): for a delay of at most 9223372036 seconds, `AddDelayedJob`
appends exactly one row to the table and leaves the existing rows as they are;
the new row carries the job name and payload, status `waiting`, `run_at` equal
to the clock reading taken for it plus the delay, and `last_visited` equal to
the clock reading of the row construction.  `AddJob` is `AddDelayedJob` with a
delay of zero. -/
theorem AddDelayedJob_inserts_row (tbl : JobsTable) (now67 now69 now76 : Time)
    (jobName payload : String) (delaySecs : Nat) (hd : delaySecs ≤ 9223372036) :
    AddDelayedJob tbl now67 now69 now76 jobName payload delaySecs =
        { rows := tbl.rows ++
            [{ ID := tbl.nextID
               JobName := jobName
               Payload := payload
               Status := statusWaiting
               RunAt := some ((if delaySecs > 0 then now69 else now67)
                          + (delaySecs : Int) * Second)
               LastVisited := now76 }]
          nextID := tbl.nextID + 1 } ∧
      AddJob tbl now67 now69 now76 jobName payload =
        AddDelayedJob tbl now67 now69 now76 jobName payload 0 := by
  refine ⟨?_, rfl⟩
  unfold AddDelayedJob JobsTable.Create
  rw [delayDuration_small hd]
  by_cases h0 : delaySecs > 0
  · simp [h0]
  · have : delaySecs = 0 := by omega
    subst this
    simp

theorem AddDelayedJob_inserts_row_witness :
    AddDelayedJob { rows := [], nextID := 1 } 100 101 102 "send_email" "a@b" 5 =
        { rows := [] ++
            [{ ID := 1
               JobName := "send_email"
               Payload := "a@b"
               Status := statusWaiting
               RunAt := some ((if 5 > 0 then 101 else 100) + ((5 : Nat) : Int) * Second)
               LastVisited := 102 }]
          nextID := 1 + 1 } ∧
      AddJob { rows := [], nextID := 1 } 100 101 102 "send_email" "a@b" =
        AddDelayedJob { rows := [], nextID := 1 } 100 101 102 "send_email" "a@b" 0 :=
  AddDelayedJob_inserts_row { rows := [], nextID := 1 } 100 101 102 "send_email" "a@b" 5
    (by decide)

/-- C2 as stated fails: with a delay of 9223372037 seconds the duration wraps
and the inserted row has a `run_at` that is not `now` plus the delay. -/
theorem AddDelayedJob_delay_overflow :
    AddDelayedJob { rows := [], nextID := 1 } 1700000000000000000 1700000000000000000
        1700000000000000000 "send_email" "a@b" 9223372037 =
      { rows := [{ ID := 1
                   JobName := "send_email"
                   Payload := "a@b"
                   Status := statusWaiting
                   RunAt := some (-7523372036709551616)
                   LastVisited := 1700000000000000000 }]
        nextID := 2 } ∧
    (-7523372036709551616 : Int) ≠ 1700000000000000000 + 9223372037 * Second := by
  decide

/-- C5: a requeue tick whose query reads the clock as `now118` and whose update
reads it as `now126` changes a row only if that row is `processing` with
`last_visited ≤ now118 - 15 min`; a changed row gets status `waiting` and
`last_visited = now126`, all other columns kept; with no such row the table is
unchanged.  The claim is the case `now118 = now126 = now`. -/
theorem requeueTick_changes_only_stalled (tbl : JobsTable) (hwf : tbl.WF)
    (now118 now126 : Time) :
    (requeueTick tbl now118 now126).2.nextID = tbl.nextID ∧
    List.Forall₂
      (fun r r' => r' = r ∨
        (r.Status = statusProcessing ∧
          r.LastVisited ≤ now118 - maxLastVisitedDuration ∧
          r' = { r with Status := statusWaiting, LastVisited := now126 }))
      tbl.rows (requeueTick tbl now118 now126).2.rows ∧
    ((∀ r ∈ tbl.rows, ¬ (r.Status = statusProcessing ∧
          r.LastVisited ≤ now118 - maxLastVisitedDuration)) →
      (requeueTick tbl now118 now126).2 = tbl) := by
  unfold requeueTick
  cases hf : tbl.First (stalled now118) with
  | error e =>
    refine ⟨rfl, ?_, fun _ => rfl⟩
    exact List.forall₂_same.mpr (fun r _ => Or.inl rfl)
  | ok res =>
    obtain ⟨hmem, hst⟩ := First_ok hf
    have hst2 : res.Status = statusProcessing ∧
        res.LastVisited ≤ now118 - maxLastVisitedDuration := by
      simp only [stalled, Bool.and_eq_true, decide_eq_true_eq] at hst
      obtain ⟨h1, h2⟩ := hst
      exact ⟨h1, by rw [Int.sub_eq_add_neg]; exact h2⟩
    refine ⟨rfl, ?_, ?_⟩
    · show List.Forall₂ _ tbl.rows (tbl.rows.map _)
      rw [List.forall₂_map_right_iff, List.forall₂_same]
      intro r hr
      by_cases hid : r.ID = res.ID
      · have : r = res := by
          have h1 := byID_of_mem hwf hr
          have h2 := byID_of_mem hwf hmem
          rw [hid, h2] at h1
          exact (Option.some.inj h1).symm
        subst this
        right
        simp [hst2.1, hst2.2]
      · left; simp [hid]
    · intro hno
      exact absurd hst2 (hno res hmem)

theorem requeueTick_changes_only_stalled_witness :
    (requeueTick
        { rows := [{ ID := 1, JobName := "a", Payload := "p", Status := statusProcessing,
                     RunAt := some 0, LastVisited := 0 }], nextID := 2 }
        (901 * Second) (902 * Second)).2.rows =
      [{ ID := 1, JobName := "a", Payload := "p", Status := statusWaiting,
         RunAt := some 0, LastVisited := 902 * Second }] ∧
    List.Forall₂
      (fun r r' => r' = r ∨
        (r.Status = statusProcessing ∧
          r.LastVisited ≤ 901 * Second - maxLastVisitedDuration ∧
          r' = { r with Status := statusWaiting, LastVisited := 902 * Second }))
      [{ ID := 1, JobName := "a", Payload := "p", Status := statusProcessing,
                     RunAt := some 0, LastVisited := 0 }]
      (requeueTick
        { rows := [{ ID := 1, JobName := "a", Payload := "p", Status := statusProcessing,
                     RunAt := some 0, LastVisited := 0 }], nextID := 2 }
        (901 * Second) (902 * Second)).2.rows :=
  ⟨by decide,
   (requeueTick_changes_only_stalled
      { rows := [{ ID := 1, JobName := "a", Payload := "p", Status := statusProcessing,
                     RunAt := some 0, LastVisited := 0 }], nextID := 2 }
      ⟨by decide, by decide⟩ (901 * Second) (902 * Second)).2.1⟩

/-! ## Shape of the atomic steps -/

theorem holds_iff (q : queueDB) (w id : Nat) :
    holds q w id ↔ ∃ j, q.busy w = some j ∧ j.ID = id := by
  unfold holds
  cases q.busy w <;> simp

theorem findJobToProcess_ok {tbl tbl' : JobsTable} {now192 now202 : Time} {j : job}
    (h : findJobToProcess tbl now192 now202 = (Except.ok j, tbl')) :
    j ∈ tbl.rows ∧ leasable now192 j = true ∧
      tbl' = tbl.UpdateWhereID j.ID
        (fun r => { r with Status := statusProcessing, LastVisited := now202 }) := by
  unfold findJobToProcess at h
  cases hf : tbl.First (leasable now192) with
  | error e => rw [hf] at h; cases h
  | ok res =>
    rw [hf] at h
    cases h
    exact ⟨(First_ok hf).1, (First_ok hf).2, rfl⟩

theorem findJobToProcess_error {tbl tbl' : JobsTable} {now192 now202 : Time}
    {e : StoreError} (h : findJobToProcess tbl now192 now202 = (Except.error e, tbl')) :
    tbl' = tbl ∧ ∀ r ∈ tbl.rows, leasable now192 r = false := by
  unfold findJobToProcess at h
  cases hf : tbl.First (leasable now192) with
  | error e2 => rw [hf] at h; cases h; exact ⟨rfl, First_error hf⟩
  | ok res => rw [hf] at h; cases h

theorem requeueTick_db (tbl : JobsTable) (now118 now126 : Time) :
    ((requeueTick tbl now118 now126).2 = tbl ∧
        ∀ r ∈ tbl.rows, stalled now118 r = false) ∨
      ∃ res, res ∈ tbl.rows ∧ stalled now118 res = true ∧
        (requeueTick tbl now118 now126).2 = tbl.UpdateWhereID res.ID
          (fun r => { r with Status := statusWaiting, LastVisited := now126 }) := by
  unfold requeueTick
  cases hf : tbl.First (stalled now118) with
  | error e => exact Or.inl ⟨rfl, First_error hf⟩
  | ok res => exact Or.inr ⟨res, (First_ok hf).1, (First_ok hf).2, rfl⟩

theorem leaseStep_cases (q : queueDB) (w : Nat) (now192 now202 : Time) :
    leaseStep q w now192 now202 = q ∨
      ∃ j, j ∈ q.db.rows ∧ leasable now192 j = true ∧ q.busy w = none ∧
        leaseStep q w now192 now202 =
          { q with
            db := q.db.UpdateWhereID j.ID
              (fun r => { r with Status := statusProcessing, LastVisited := now202 })
            busy := fun v => if v = w then some j else q.busy v
            calls :=
              match q.handlers w j.JobName with
              | some _ => q.calls ++ [{ worker := w, jobID := j.ID, jobName := j.JobName,
                                        payload := j.Payload }]
              | none => q.calls } := by
  unfold leaseStep
  cases hb : q.busy w with
  | some j0 => exact Or.inl rfl
  | none =>
    cases hf : findJobToProcess q.db now192 now202 with
    | mk res db =>
      cases res with
      | error e => exact Or.inl rfl
      | ok j =>
        obtain ⟨h1, h2, h3⟩ := findJobToProcess_ok hf
        subst h3
        exact Or.inr ⟨j, h1, h2, rfl, rfl⟩

theorem heartbeatStep_cases (q : queueDB) (w : Nat) (now : Time) :
    heartbeatStep q w now = q ∨
      ∃ j, q.busy w = some j ∧
        heartbeatStep q w now = { q with db := updateLastVisited q.db j.ID now } := by
  unfold heartbeatStep
  cases hb : q.busy w with
  | none => exact Or.inl rfl
  | some j =>
    dsimp only
    cases hh : q.handlers w j.JobName with
    | none => exact Or.inl rfl
    | some h => exact Or.inr ⟨j, rfl, rfl⟩

theorem finishStep_cases (q : queueDB) (w : Nat) :
    (q.busy w = none ∧ finishStep q w = q) ∨
      ∃ j s, q.busy w = some j ∧ (s = statusComplete ∨ s = statusWaiting) ∧
        finishStep q w =
          { q with
            db := updateJobStatus q.db j.ID s
            busy := fun v => if v = w then none else q.busy v } := by
  unfold finishStep
  cases hb : q.busy w with
  | none => exact Or.inl ⟨rfl, rfl⟩
  | some j =>
    right
    dsimp only
    cases hh : q.handlers w j.JobName with
    | none => exact ⟨j, statusWaiting, rfl, Or.inr rfl, rfl⟩
    | some h =>
      dsimp only
      cases hr : h j.JobName j.Payload with
      | none => exact ⟨j, statusComplete, rfl, Or.inl rfl, rfl⟩
      | some e => exact ⟨j, statusWaiting, rfl, Or.inr rfl, rfl⟩

theorem step_WF {q : queueDB} (hq : q.WF) (e : Event) : (step q e).WF := by
  obtain ⟨hdb, hbusy⟩ := hq
  cases e with
  | enqueue jobName payload delaySecs now67 now69 now76 =>
    refine ⟨Create_WF hdb _, ?_⟩
    intro w j hj
    have := hbusy w j hj
    show j.ID < q.db.nextID + 1
    omega
  | lease w now192 now202 =>
    rcases leaseStep_cases q w now192 now202 with h | ⟨j, hj, _, _, h⟩
    · show (leaseStep q w now192 now202).WF
      rw [h]; exact ⟨hdb, hbusy⟩
    · show (leaseStep q w now192 now202).WF
      rw [h]
      refine ⟨UpdateWhereID_WF hdb _ _ (fun _ => rfl), ?_⟩
      intro v j' hj'
      show j'.ID < q.db.nextID
      simp only at hj'
      split at hj'
      · cases hj'; exact hdb.2 j hj
      · exact hbusy v j' hj'
  | heartbeat w now =>
    rcases heartbeatStep_cases q w now with h | ⟨j, _, h⟩
    · show (heartbeatStep q w now).WF
      rw [h]; exact ⟨hdb, hbusy⟩
    · show (heartbeatStep q w now).WF
      rw [h]
      exact ⟨UpdateWhereID_WF hdb _ _ (fun _ => rfl), hbusy⟩
  | finish w =>
    rcases finishStep_cases q w with ⟨_, h⟩ | ⟨j, s, _, _, h⟩
    · show (finishStep q w).WF
      rw [h]; exact ⟨hdb, hbusy⟩
    · show (finishStep q w).WF
      rw [h]
      refine ⟨UpdateWhereID_WF hdb _ _ (fun _ => rfl), ?_⟩
      intro v j' hj'
      simp only at hj'
      split at hj'
      · cases hj'
      · exact hbusy v j' hj'
  | requeue now118 now126 =>
    rcases requeueTick_db q.db now118 now126 with ⟨h, _⟩ | ⟨res, _, _, h⟩
    · refine ⟨?_, ?_⟩
      · show (requeueTick q.db now118 now126).2.WF
        rw [h]; exact hdb
      · intro v j' hj'
        show j'.ID < (requeueTick q.db now118 now126).2.nextID
        rw [h]; exact hbusy v j' hj'
    · refine ⟨?_, ?_⟩
      · show (requeueTick q.db now118 now126).2.WF
        rw [h]; exact UpdateWhereID_WF hdb _ _ (fun _ => rfl)
      · intro v j' hj'
        show j'.ID < (requeueTick q.db now118 now126).2.nextID
        rw [h]; exact hbusy v j' hj'

/-! ## Delayed delivery -/

theorem status_ne : statusWaiting ≠ statusProcessing ∧ statusComplete ≠ statusProcessing ∧
    statusWaiting ≠ statusComplete := by decide

theorem byID_touch (tbl : JobsTable) (k i : Nat) (s : job → String) (v : job → Time) :
    (tbl.UpdateWhereID k (fun r => { r with Status := s r, LastVisited := v r })).byID i =
      (tbl.byID i).map
        (fun r => if r.ID = k then { r with Status := s r, LastVisited := v r } else r) :=
  byID_UpdateWhereID tbl k i _ (fun _ => rfl)

theorem byID_touch_some {tbl : JobsTable} {i : Nat} {r : job} (h : tbl.byID i = some r)
    (k : Nat) (s : job → String) (v : job → Time) :
    (tbl.UpdateWhereID k (fun r => { r with Status := s r, LastVisited := v r })).byID i =
      some (if r.ID = k then { r with Status := s r, LastVisited := v r } else r) := by
  rw [byID_touch, h]
  rfl

theorem Dormant_step {q : queueDB} (hq : q.WF) {id : Nat} {R : Time} {name payload : String}
    (hd : Dormant q id R name payload) (e : Event) (he : leaseBefore R e) :
    Dormant (step q e) id R name payload ∧
      ∃ added, (step q e).calls = q.calls ++ added ∧ ∀ c ∈ added, c.jobID ≠ id := by
  obtain ⟨⟨r, hr, hR, hS, hN, hP⟩, hfree⟩ := hd
  have hrid : r.ID = id := (byID_eq_some hr).2
  cases e with
  | enqueue jobName pl delaySecs now67 now69 now76 =>
    refine ⟨⟨⟨r, byID_Create_old _ _ hr, hR, hS, hN, hP⟩, hfree⟩, [], by simp [step], by simp⟩
  | lease w now192 now202 =>
    show Dormant (leaseStep q w now192 now202) id R name payload ∧
      ∃ added, (leaseStep q w now192 now202).calls = q.calls ++ added ∧ _
    rcases leaseStep_cases q w now192 now202 with h | ⟨j, hj, hl, hb, h⟩
    · rw [h]
      exact ⟨⟨⟨r, hr, hR, hS, hN, hP⟩, hfree⟩, [], by simp, by simp⟩
    · have hne : j.ID ≠ id := by
        intro hji
        have h1 := byID_of_mem hq.1 hj
        rw [hji, hr] at h1
        cases h1
        simp only [leasable, hR, Bool.and_eq_true, decide_eq_true_eq] at hl
        have h2 : now192 < R := he
        exact absurd hl.2 (not_le.mpr h2)
      rw [h]
      refine ⟨⟨⟨r, ?_, hR, hS, hN, hP⟩, ?_⟩, ?_⟩
      · show (q.db.UpdateWhereID j.ID _).byID id = some r
        rw [byID_touch, hr]
        have : ¬ r.ID = j.ID := by omega
        simp [this]
      · intro v hv
        rw [holds_iff] at hv
        obtain ⟨j', hj', hid⟩ := hv
        simp only at hj'
        split at hj'
        · cases hj'; exact hne hid
        · exact hfree v ((holds_iff _ _ _).mpr ⟨j', hj', hid⟩)
      · cases hh : q.handlers w j.JobName with
        | none => exact ⟨[], by simp [hh], by simp⟩
        | some f =>
          refine ⟨[{ worker := w, jobID := j.ID, jobName := j.JobName,
                     payload := j.Payload }], by simp [hh], ?_⟩
          intro c hc
          simp only [List.mem_singleton] at hc
          subst hc
          exact hne
  | heartbeat w now =>
    show Dormant (heartbeatStep q w now) id R name payload ∧
      ∃ added, (heartbeatStep q w now).calls = q.calls ++ added ∧ _
    rcases heartbeatStep_cases q w now with h | ⟨j, hb, h⟩
    · rw [h]
      exact ⟨⟨⟨r, hr, hR, hS, hN, hP⟩, hfree⟩, [], by simp, by simp⟩
    · rw [h]
      refine ⟨⟨⟨_, byID_touch_some hr j.ID _ _, ?_, ?_, ?_, ?_⟩, hfree⟩, [], by simp, by simp⟩
      all_goals (split <;> assumption)
  | finish w =>
    show Dormant (finishStep q w) id R name payload ∧
      ∃ added, (finishStep q w).calls = q.calls ++ added ∧ _
    rcases finishStep_cases q w with ⟨_, h⟩ | ⟨j, s, hb, hs, h⟩
    · rw [h]
      exact ⟨⟨⟨r, hr, hR, hS, hN, hP⟩, hfree⟩, [], by simp, by simp⟩
    · have hne : j.ID ≠ id := fun hji => hfree w ((holds_iff _ _ _).mpr ⟨j, hb, hji⟩)
      rw [h]
      refine ⟨⟨⟨r, ?_, hR, hS, hN, hP⟩, ?_⟩, [], by simp, by simp⟩
      · show (q.db.UpdateWhereID j.ID _).byID id = some r
        rw [byID_touch, hr]
        have : ¬ r.ID = j.ID := by omega
        simp [this]
      · intro v hv
        rw [holds_iff] at hv
        obtain ⟨j', hj', hid⟩ := hv
        simp only at hj'
        split at hj'
        · cases hj'
        · exact hfree v ((holds_iff _ _ _).mpr ⟨j', hj', hid⟩)
  | requeue now118 now126 =>
    show Dormant { q with db := (requeueTick q.db now118 now126).2 } id R name payload ∧
      ∃ added, q.calls = q.calls ++ added ∧ _
    rcases requeueTick_db q.db now118 now126 with ⟨h, _⟩ | ⟨res, _, _, h⟩
    · rw [h]
      exact ⟨⟨⟨r, hr, hR, hS, hN, hP⟩, hfree⟩, [], by simp, by simp⟩
    · rw [h]
      refine ⟨⟨⟨_, byID_touch_some hr res.ID _ _, ?_, ?_, ?_, ?_⟩, hfree⟩, [], by simp, by simp⟩
      · split <;> assumption
      · split
        · exact status_ne.1
        · assumption
      · split <;> assumption
      · split <;> assumption

theorem run_WF {q : queueDB} (hq : q.WF) (evs : List Event) : (run q evs).WF := by
  induction evs generalizing q with
  | nil => exact hq
  | cons e es ih => exact ih (step_WF hq e)

theorem Dormant_run {id : Nat} {R : Time} {name payload : String} (evs : List Event) :
    ∀ {q : queueDB}, q.WF → Dormant q id R name payload →
      (∀ e ∈ evs, leaseBefore R e) →
      Dormant (run q evs) id R name payload ∧
        ∃ added, (run q evs).calls = q.calls ++ added ∧ ∀ c ∈ added, c.jobID ≠ id := by
  induction evs with
  | nil =>
    intro q _ hd _
    exact ⟨hd, [], by simp [run], by simp⟩
  | cons e es ih =>
    intro q hq hd hev
    obtain ⟨hd1, a1, hc1, hn1⟩ := Dormant_step hq hd e (hev e (List.mem_cons_self _ _))
    obtain ⟨hd2, a2, hc2, hn2⟩ := ih (step_WF hq e) hd1
      (fun x hx => hev x (List.mem_cons_of_mem _ hx))
    refine ⟨hd2, a1 ++ a2, ?_, ?_⟩
    · show (run (step q e) es).calls = _
      rw [hc2, hc1, List.append_assoc]
    · intro c hc
      rcases List.mem_append.mp hc with h | h
      · exact hn1 c h
      · exact hn2 c h

theorem leaseBefore_mono {a b : Time} (hab : a ≤ b) (e : Event) (h : leaseBefore a e) :
    leaseBefore b e := by
  cases e with
  | lease w now192 now202 =>
    have h1 : now192 < a := h
    exact lt_of_lt_of_le h1 hab
  | _ => trivial

theorem exampleQueue_WF : exampleQueue.WF :=
  ⟨⟨List.nodup_nil, fun _ h => nomatch h⟩, fun _ _ h => nomatch h⟩

/-- C1 (amended): a job enqueued at or after `t0` with a delay of `D` seconds,
`D ≤ 9223372036` so that the delay fits a 64-bit nanosecond duration, is not
returned by any lease whose query reads the clock before `t0 + D` seconds: after
any interleaving of such leases with arbitrary other steps its row is not
`processing`, no worker holds it and no handler has been invoked for it. -/
theorem delayed_job_not_leased_early (q : queueDB) (hq : q.WF)
    (t0 now67 now69 now76 : Time) (jobName payload : String) (D : Nat)
    (hD : D ≤ 9223372036) (h67 : t0 ≤ now67) (h69 : t0 ≤ now69) (evs : List Event)
    (hev : ∀ e ∈ evs, leaseBefore (t0 + (D : Int) * Second) e) :
    (∃ r, (run (step q (Event.enqueue jobName payload D now67 now69 now76)) evs).db.byID
          q.db.nextID = some r ∧
        r.JobName = jobName ∧ r.Payload = payload ∧ r.Status ≠ statusProcessing) ∧
      (∀ w, ¬ holds (run (step q (Event.enqueue jobName payload D now67 now69 now76)) evs)
          w q.db.nextID) ∧
      ∃ added,
        (run (step q (Event.enqueue jobName payload D now67 now69 now76)) evs).calls =
            q.calls ++ added ∧
          ∀ c ∈ added, c.jobID ≠ q.db.nextID := by
  have hR : t0 + (D : Int) * Second ≤
      (if D > 0 then now69 + delayDuration D else now67) := by
    rw [delayDuration_small hD]
    by_cases h0 : D > 0
    · simp only [h0, if_true]
      exact add_le_add_right h69 _
    · have : D = 0 := by omega
      subst this
      simpa using h67
  have hdorm : Dormant (step q (Event.enqueue jobName payload D now67 now69 now76))
      q.db.nextID (if D > 0 then now69 + delayDuration D else now67) jobName payload := by
    refine ⟨⟨_, byID_Create_new hq.1 _, rfl, status_ne.1, rfl, rfl⟩, ?_⟩
    intro w hw
    obtain ⟨j, hj, hid⟩ := (holds_iff _ _ _).mp hw
    have := hq.2 w j hj
    omega
  obtain ⟨⟨⟨r, h1, _, h3, h4, h5⟩, hfree⟩, added, hc, hn⟩ :=
    Dormant_run evs (step_WF hq _) hdorm (fun e he => leaseBefore_mono hR e (hev e he))
  exact ⟨⟨r, h1, h4, h5, h3⟩, hfree, added, hc, hn⟩

theorem delayed_job_not_leased_early_witness :
    (∃ r, (run (step exampleQueue (Event.enqueue "send_email" "a@b" 5 0 0 0))
          [Event.lease 1 (3 * Second) (3 * Second)]).db.byID 1 = some r ∧
        r.JobName = "send_email" ∧ r.Payload = "a@b" ∧ r.Status ≠ statusProcessing) ∧
      (∀ w, ¬ holds (run (step exampleQueue (Event.enqueue "send_email" "a@b" 5 0 0 0))
          [Event.lease 1 (3 * Second) (3 * Second)]) w 1) ∧
      ∃ added,
        (run (step exampleQueue (Event.enqueue "send_email" "a@b" 5 0 0 0))
            [Event.lease 1 (3 * Second) (3 * Second)]).calls = [] ++ added ∧
          ∀ c ∈ added, c.jobID ≠ 1 :=
  delayed_job_not_leased_early exampleQueue exampleQueue_WF 0 0 0 0 "send_email" "a@b" 5
    (by decide) (by decide) (by decide) [Event.lease 1 (3 * Second) (3 * Second)]
    (by decide)

/-- C1 as stated fails: with a delay of 9223372037 seconds the product
`time.Second * time.Duration(delaySecs)` wraps to a negative duration, so a
lease at the very instant of the enqueue returns the job. -/
theorem delayed_job_leased_early_on_overflow :
    (1700000000000000000 : Int) < 1700000000000000000 + 9223372037 * Second ∧
    holds (run exampleQueue
      [Event.enqueue "send_email" "a@b" 9223372037 1700000000000000000
          1700000000000000000 1700000000000000000,
        Event.lease 1 1700000000000000000 1700000000000000000]) 1 1 ∧
    statusOf (run exampleQueue
      [Event.enqueue "send_email" "a@b" 9223372037 1700000000000000000
          1700000000000000000 1700000000000000000,
        Event.lease 1 1700000000000000000 1700000000000000000]).db 1
      = some statusProcessing := by
  decide

/-! ## Lease exclusivity -/

theorem statusOf_eq_some {tbl : JobsTable} {i : Nat} {s : String}
    (h : statusOf tbl i = some s) : ∃ r, tbl.byID i = some r ∧ r.Status = s := by
  unfold statusOf at h
  cases hb : tbl.byID i with
  | none => rw [hb] at h; cases h
  | some r => rw [hb] at h; exact ⟨r, rfl, by simpa using h⟩

theorem statusOf_touch {tbl : JobsTable} {i : Nat} {r : job} (h : tbl.byID i = some r)
    (k : Nat) (s : job → String) (v : job → Time) :
    statusOf (tbl.UpdateWhereID k
        (fun r => { r with Status := s r, LastVisited := v r })) i =
      some (if r.ID = k then s r else r.Status) := by
  unfold statusOf
  rw [byID_touch_some h]
  by_cases hk : r.ID = k <;> simp [hk]

theorem step_db_WF {q : queueDB} (hdb : q.db.WF) (e : Event) : (step q e).db.WF := by
  cases e with
  | enqueue jobName payload delaySecs now67 now69 now76 => exact Create_WF hdb _
  | lease w now192 now202 =>
    show (leaseStep q w now192 now202).db.WF
    rcases leaseStep_cases q w now192 now202 with h | ⟨j, _, _, _, h⟩
    · rw [h]; exact hdb
    · rw [h]; exact UpdateWhereID_WF hdb _ _ (fun _ => rfl)
  | heartbeat w now =>
    show (heartbeatStep q w now).db.WF
    rcases heartbeatStep_cases q w now with h | ⟨j, _, h⟩
    · rw [h]; exact hdb
    · rw [h]; exact UpdateWhereID_WF hdb _ _ (fun _ => rfl)
  | finish w =>
    show (finishStep q w).db.WF
    rcases finishStep_cases q w with ⟨_, h⟩ | ⟨j, s, _, _, h⟩
    · rw [h]; exact hdb
    · rw [h]; exact UpdateWhereID_WF hdb _ _ (fun _ => rfl)
  | requeue now118 now126 =>
    show (requeueTick q.db now118 now126).2.WF
    rcases requeueTick_db q.db now118 now126 with ⟨h, _⟩ | ⟨res, _, _, h⟩
    · rw [h]; exact hdb
    · rw [h]; exact UpdateWhereID_WF hdb _ _ (fun _ => rfl)

theorem LeaseInv_step {q : queueDB} (hq : LeaseInv q) (e : Event)
    (ht : match e with
      | Event.requeue now118 _ => noStalledHolder q now118
      | _ => True) :
    LeaseInv (step q e) := by
  obtain ⟨hdb, hproc, huniq⟩ := hq
  refine ⟨step_db_WF hdb e, ?_⟩
  cases e with
  | enqueue jobName payload delaySecs now67 now69 now76 =>
    refine ⟨?_, huniq⟩
    intro w j hj
    obtain ⟨r, hr, hs⟩ := statusOf_eq_some (hproc w j hj)
    show statusOf (q.db.Create _) j.ID = _
    unfold statusOf
    rw [byID_Create_old _ _ hr, ← hs]
    rfl
  | lease w now192 now202 =>
    show (∀ v j, (leaseStep q w now192 now202).busy v = some j →
        statusOf (leaseStep q w now192 now202).db j.ID = some statusProcessing) ∧
      ∀ w1 w2 id, holds (leaseStep q w now192 now202) w1 id →
        holds (leaseStep q w now192 now202) w2 id → w1 = w2
    rcases leaseStep_cases q w now192 now202 with h | ⟨j, hj, hl, hb, h⟩
    · rw [h]; exact ⟨hproc, huniq⟩
    · have hjrow := byID_of_mem hdb hj
      have hjwait : j.Status = statusWaiting := by
        simp only [leasable, Bool.and_eq_true, decide_eq_true_eq] at hl
        exact hl.1
      have hfree : ∀ v j', q.busy v = some j' → j'.ID ≠ j.ID := by
        intro v j' hj' hid
        have h1 := hproc v j' hj'
        rw [hid] at h1
        unfold statusOf at h1
        rw [hjrow] at h1
        simp only [Option.map_some', Option.some.injEq] at h1
        rw [hjwait] at h1
        exact status_ne.1 h1
      rw [h]
      refine ⟨?_, ?_⟩
      · intro v j' hj'
        simp only at hj'
        split at hj'
        · cases hj'
          show statusOf (q.db.UpdateWhereID j.ID _) j.ID = _
          rw [statusOf_touch hjrow]
          simp
        · obtain ⟨r, hr, hs⟩ := statusOf_eq_some (hproc v j' hj')
          show statusOf (q.db.UpdateWhereID j.ID _) j'.ID = _
          rw [statusOf_touch hr]
          split
          · rfl
          · rw [hs]
      · intro w1 w2 id h1 h2
        obtain ⟨j1, hj1, hid1⟩ := (holds_iff _ _ _).mp h1
        obtain ⟨j2, hj2, hid2⟩ := (holds_iff _ _ _).mp h2
        simp only at hj1 hj2
        by_cases hw1 : w1 = w <;> by_cases hw2 : w2 = w
        · rw [hw1, hw2]
        · rw [if_pos hw1] at hj1
          rw [if_neg hw2] at hj2
          cases hj1
          exact absurd (hid2.trans hid1.symm) (hfree w2 j2 hj2)
        · rw [if_neg hw1] at hj1
          rw [if_pos hw2] at hj2
          cases hj2
          exact absurd (hid1.trans hid2.symm) (hfree w1 j1 hj1)
        · rw [if_neg hw1] at hj1
          rw [if_neg hw2] at hj2
          exact huniq w1 w2 id ((holds_iff _ _ _).mpr ⟨j1, hj1, hid1⟩)
            ((holds_iff _ _ _).mpr ⟨j2, hj2, hid2⟩)
  | heartbeat w now =>
    show (∀ v j, (heartbeatStep q w now).busy v = some j →
        statusOf (heartbeatStep q w now).db j.ID = some statusProcessing) ∧
      ∀ w1 w2 id, holds (heartbeatStep q w now) w1 id →
        holds (heartbeatStep q w now) w2 id → w1 = w2
    rcases heartbeatStep_cases q w now with h | ⟨j, hb, h⟩
    · rw [h]; exact ⟨hproc, huniq⟩
    · rw [h]
      refine ⟨?_, huniq⟩
      intro v j' hj'
      obtain ⟨r, hr, hs⟩ := statusOf_eq_some (hproc v j' hj')
      show statusOf (q.db.UpdateWhereID j.ID _) j'.ID = _
      rw [statusOf_touch hr]
      split <;> exact congrArg some hs
  | finish w =>
    show (∀ v j, (finishStep q w).busy v = some j →
        statusOf (finishStep q w).db j.ID = some statusProcessing) ∧
      ∀ w1 w2 id, holds (finishStep q w) w1 id →
        holds (finishStep q w) w2 id → w1 = w2
    rcases finishStep_cases q w with ⟨_, h⟩ | ⟨j, s, hb, hs, h⟩
    · rw [h]; exact ⟨hproc, huniq⟩
    · rw [h]
      refine ⟨?_, ?_⟩
      · intro v j' hj'
        simp only at hj'
        split at hj'
        · cases hj'
        · next hv =>
          have hne : j'.ID ≠ j.ID := by
            intro hid
            exact hv (huniq v w j.ID ((holds_iff _ _ _).mpr ⟨j', hj', hid⟩)
              ((holds_iff _ _ _).mpr ⟨j, hb, rfl⟩))
          obtain ⟨r, hr, hst⟩ := statusOf_eq_some (hproc v j' hj')
          show statusOf (q.db.UpdateWhereID j.ID _) j'.ID = _
          rw [statusOf_touch hr]
          have : ¬ r.ID = j.ID := by rw [(byID_eq_some hr).2]; exact hne
          rw [if_neg this, hst]
      · intro w1 w2 id h1 h2
        obtain ⟨j1, hj1, hid1⟩ := (holds_iff _ _ _).mp h1
        obtain ⟨j2, hj2, hid2⟩ := (holds_iff _ _ _).mp h2
        simp only at hj1 hj2
        split at hj1
        · cases hj1
        · split at hj2
          · cases hj2
          · exact huniq w1 w2 id ((holds_iff _ _ _).mpr ⟨j1, hj1, hid1⟩)
              ((holds_iff _ _ _).mpr ⟨j2, hj2, hid2⟩)
  | requeue now118 now126 =>
    show (∀ v j, q.busy v = some j →
        statusOf (requeueTick q.db now118 now126).2 j.ID = some statusProcessing) ∧
      ∀ w1 w2 id, holds { q with db := (requeueTick q.db now118 now126).2 } w1 id →
        holds { q with db := (requeueTick q.db now118 now126).2 } w2 id → w1 = w2
    refine ⟨?_, huniq⟩
    rcases requeueTick_db q.db now118 now126 with ⟨h, _⟩ | ⟨res, hres, hst, h⟩
    · rw [h]; exact hproc
    · rw [h]
      intro v j' hj'
      have hne : j'.ID ≠ res.ID := by
        intro hid
        exact ht res hres hst v ((holds_iff _ _ _).mpr ⟨j', hj', hid⟩)
      obtain ⟨r, hr, hs⟩ := statusOf_eq_some (hproc v j' hj')
      rw [statusOf_touch hr]
      have : ¬ r.ID = res.ID := by rw [(byID_eq_some hr).2]; exact hne
      rw [if_neg this, hs]

theorem LeaseInv_run (evs : List Event) :
    ∀ {q : queueDB}, LeaseInv q → Timely q evs → LeaseInv (run q evs) := by
  induction evs with
  | nil => intro q hq _; exact hq
  | cons e es ih =>
    intro q hq ht
    exact ih (LeaseInv_step hq e ht.1) ht.2

/-- C3 (amended): in every interleaving of enqueue, lease, heartbeat,
handler-completion and requeue steps of any number of workers in which no
requeue tick runs while a held row is stalled (`last_visited` at least 15
minutes behind the tick), no two workers hold the same job id in state
`processing`: every held row is `processing` and has exactly one holder. -/
theorem exclusive_of_timely (q : queueDB) (hq : LeaseInv q) (evs : List Event)
    (ht : Timely q evs) :
    Exclusive (run q evs) ∧
      ∀ w1 w2 id, holds (run q evs) w1 id → holds (run q evs) w2 id → w1 = w2 := by
  have h := LeaseInv_run evs hq ht
  exact ⟨fun w1 w2 id h1 h2 _ => h.2.2 w1 w2 id h1 h2, h.2.2⟩

/-- C3 as stated fails: worker 1 leases job 1 at second 1 and sends no
heartbeat; the requeue tick of second 901 finds the row stalled and returns it
to `waiting`; worker 2 leases it at second 902.  Both workers now hold job 1,
whose row is `processing`. -/
theorem two_holders_after_requeue :
    holds (run exampleQueue
      [Event.enqueue "send_email" "a@b" 0 0 0 0,
        Event.lease 1 (1 * Second) (1 * Second),
        Event.requeue (901 * Second) (901 * Second),
        Event.lease 2 (902 * Second) (902 * Second)]) 1 1 ∧
    holds (run exampleQueue
      [Event.enqueue "send_email" "a@b" 0 0 0 0,
        Event.lease 1 (1 * Second) (1 * Second),
        Event.requeue (901 * Second) (901 * Second),
        Event.lease 2 (902 * Second) (902 * Second)]) 2 1 ∧
    statusOf (run exampleQueue
      [Event.enqueue "send_email" "a@b" 0 0 0 0,
        Event.lease 1 (1 * Second) (1 * Second),
        Event.requeue (901 * Second) (901 * Second),
        Event.lease 2 (902 * Second) (902 * Second)]).db 1 = some statusProcessing ∧
    ¬ Exclusive (run exampleQueue
      [Event.enqueue "send_email" "a@b" 0 0 0 0,
        Event.lease 1 (1 * Second) (1 * Second),
        Event.requeue (901 * Second) (901 * Second),
        Event.lease 2 (902 * Second) (902 * Second)]) := by
  refine ⟨by decide, by decide, by decide, ?_⟩
  intro h
  exact absurd (h 1 2 1 (by decide) (by decide) (by decide)) (by decide)

theorem exampleQueue_LeaseInv : LeaseInv exampleQueue := by
  refine ⟨exampleQueue_WF.1, fun w j h => (nomatch h), ?_⟩
  intro w1 w2 id h1 _
  obtain ⟨j, hj, _⟩ := (holds_iff _ _ _).mp h1
  exact nomatch hj

theorem exclusive_of_timely_witness :
    Exclusive (run exampleQueue
      [Event.enqueue "send_email" "a@b" 0 0 0 0,
        Event.lease 1 (1 * Second) (1 * Second),
        Event.heartbeat 1 (11 * Second),
        Event.requeue (12 * Second) (12 * Second),
        Event.lease 2 (13 * Second) (13 * Second)]) :=
  (exclusive_of_timely exampleQueue exampleQueue_LeaseInv
      [Event.enqueue "send_email" "a@b" 0 0 0 0,
        Event.lease 1 (1 * Second) (1 * Second),
        Event.heartbeat 1 (11 * Second),
        Event.requeue (12 * Second) (12 * Second),
        Event.lease 2 (13 * Second) (13 * Second)]
      ⟨trivial, trivial, trivial,
        (by
          intro r hr hs
          have hrows : (step (step (step exampleQueue
              (Event.enqueue "send_email" "a@b" 0 0 0 0))
              (Event.lease 1 (1 * Second) (1 * Second)))
              (Event.heartbeat 1 (11 * Second))).db.rows =
              [{ ID := 1, JobName := "send_email", Payload := "a@b",
                 Status := statusProcessing, RunAt := some 0,
                 LastVisited := 11 * Second }] := by decide
          rw [hrows, List.mem_singleton] at hr
          subst hr
          exact absurd hs (by decide)),
        trivial, trivial⟩).1

/-! ## The worker loop -/

theorem step_handlers (q : queueDB) (e : Event) : (step q e).handlers = q.handlers := by
  cases e with
  | enqueue jobName payload delaySecs now67 now69 now76 => rfl
  | lease w now192 now202 =>
    show (leaseStep q w now192 now202).handlers = _
    rcases leaseStep_cases q w now192 now202 with h | ⟨j, _, _, _, h⟩ <;> rw [h]
  | heartbeat w now =>
    show (heartbeatStep q w now).handlers = _
    rcases heartbeatStep_cases q w now with h | ⟨j, _, h⟩ <;> rw [h]
  | finish w =>
    show (finishStep q w).handlers = _
    rcases finishStep_cases q w with ⟨_, h⟩ | ⟨j, s, _, _, h⟩ <;> rw [h]
  | requeue now118 now126 => rfl

theorem step_busy_other (q : queueDB) (w : Nat) (e : Event) (he : Event.ofLoop w e = false) :
    (step q e).busy w = q.busy w := by
  cases e with
  | enqueue jobName payload delaySecs now67 now69 now76 => rfl
  | lease v now192 now202 =>
    have hv : ¬ w = v := by
      simp only [Event.ofLoop, decide_eq_false_iff_not] at he
      exact fun h => he h.symm
    show (leaseStep q v now192 now202).busy w = _
    rcases leaseStep_cases q v now192 now202 with h | ⟨j, _, _, _, h⟩
    · rw [h]
    · rw [h]; simp [hv]
  | heartbeat v now =>
    show (heartbeatStep q v now).busy w = _
    rcases heartbeatStep_cases q v now with h | ⟨j, _, h⟩ <;> rw [h]
  | finish v =>
    have hv : ¬ w = v := by
      simp only [Event.ofLoop, decide_eq_false_iff_not] at he
      exact fun h => he h.symm
    show (finishStep q v).busy w = _
    rcases finishStep_cases q v with ⟨_, h⟩ | ⟨j, s, _, _, h⟩
    · rw [h]
    · rw [h]; simp [hv]
  | requeue now118 now126 => rfl

theorem step_calls_other (q : queueDB) (w : Nat) (e : Event) (he : Event.ofLoop w e = false) :
    (step q e).calls.filter (fun c => c.worker == w) =
      q.calls.filter (fun c => c.worker == w) := by
  cases e with
  | enqueue jobName payload delaySecs now67 now69 now76 => rfl
  | lease v now192 now202 =>
    have hv : ¬ v = w := by
      simpa only [Event.ofLoop, decide_eq_false_iff_not] using he
    show (leaseStep q v now192 now202).calls.filter _ = _
    rcases leaseStep_cases q v now192 now202 with h | ⟨j, _, _, _, h⟩
    · rw [h]
    · rw [h]
      cases hh : q.handlers v j.JobName with
      | none => simp
      | some f => simp [hv]
  | heartbeat v now =>
    show (heartbeatStep q v now).calls.filter _ = _
    rcases heartbeatStep_cases q v now with h | ⟨j, _, h⟩ <;> rw [h]
  | finish v =>
    show (finishStep q v).calls.filter _ = _
    rcases finishStep_cases q v with ⟨_, h⟩ | ⟨j, s, _, _, h⟩ <;> rw [h]
  | requeue now118 now126 => rfl

theorem byID_isSome_touch {tbl : JobsTable} {i : Nat} (h : (tbl.byID i).isSome = true)
    (k : Nat) (s : job → String) (v : job → Time) :
    ((tbl.UpdateWhereID k
        (fun r => { r with Status := s r, LastVisited := v r })).byID i).isSome = true := by
  obtain ⟨r, hr⟩ := Option.isSome_iff_exists.mp h
  rw [byID_touch_some hr]
  rfl

theorem step_byID_isSome (q : queueDB) (e : Event) {i : Nat}
    (h : (q.db.byID i).isSome = true) : ((step q e).db.byID i).isSome = true := by
  cases e with
  | enqueue jobName payload delaySecs now67 now69 now76 =>
    obtain ⟨r, hr⟩ := Option.isSome_iff_exists.mp h
    show ((q.db.Create _).byID i).isSome = true
    rw [byID_Create_old _ _ hr]
    rfl
  | lease w now192 now202 =>
    show ((leaseStep q w now192 now202).db.byID i).isSome = true
    rcases leaseStep_cases q w now192 now202 with h1 | ⟨j, _, _, _, h1⟩
    · rw [h1]; exact h
    · rw [h1]; exact byID_isSome_touch h _ _ _
  | heartbeat w now =>
    show ((heartbeatStep q w now).db.byID i).isSome = true
    rcases heartbeatStep_cases q w now with h1 | ⟨j, _, h1⟩
    · rw [h1]; exact h
    · rw [h1]; exact byID_isSome_touch h _ _ _
  | finish w =>
    show ((finishStep q w).db.byID i).isSome = true
    rcases finishStep_cases q w with ⟨_, h1⟩ | ⟨j, s, _, _, h1⟩
    · rw [h1]; exact h
    · rw [h1]; exact byID_isSome_touch h _ _ _
  | requeue now118 now126 =>
    show ((requeueTick q.db now118 now126).2.byID i).isSome = true
    rcases requeueTick_db q.db now118 now126 with ⟨h1, _⟩ | ⟨res, _, _, h1⟩
    · rw [h1]; exact h
    · rw [h1]; exact byID_isSome_touch h _ _ _

theorem run_frame (w : Nat) {i : Nat} (evs : List Event) :
    ∀ (q : queueDB), (∀ e ∈ evs, Event.ofLoop w e = false) →
      (q.db.byID i).isSome = true →
      (run q evs).handlers = q.handlers ∧ (run q evs).busy w = q.busy w ∧
        (run q evs).calls.filter (fun c => c.worker == w) =
          q.calls.filter (fun c => c.worker == w) ∧
        ((run q evs).db.byID i).isSome = true := by
  induction evs with
  | nil => intro q _ h; exact ⟨rfl, rfl, rfl, h⟩
  | cons e es ih =>
    intro q hev h
    have he := hev e (List.mem_cons_self _ _)
    obtain ⟨h1, h2, h3, h4⟩ := ih (step q e) (fun x hx => hev x (List.mem_cons_of_mem _ hx))
      (step_byID_isSome q e h)
    refine ⟨?_, ?_, ?_, h4⟩
    · show (run (step q e) es).handlers = _
      rw [h1, step_handlers]
    · show (run (step q e) es).busy w = _
      rw [h2, step_busy_other q w e he]
    · show (run (step q e) es).calls.filter _ = _
      rw [h3, step_calls_other q w e he]

theorem mem_byID_isSome {tbl : JobsTable} {r : job} (hr : r ∈ tbl.rows) :
    (tbl.byID r.ID).isSome = true := by
  unfold JobsTable.byID
  rw [List.find?_isSome]
  exact ⟨r, hr, by simp⟩

theorem statusOf_updateJobStatus {tbl : JobsTable} {i : Nat}
    (h : (tbl.byID i).isSome = true) (s : String) :
    statusOf (updateJobStatus tbl i s) i = some s := by
  obtain ⟨r, hr⟩ := Option.isSome_iff_exists.mp h
  show statusOf (tbl.UpdateWhereID i _) i = some s
  rw [statusOf_touch hr, if_pos (byID_eq_some hr).2]

/-- C4: for every row `j` that worker `w` leases, whatever the other workers,
the requeue loop, producers and the visitor of `w` do while the handler runs:
if a handler is registered for `j.JobName`, worker `w` makes exactly one
handler call, with the job name and payload of `j`, and right after the final
write the row is `complete` when the handler returned no error and `waiting`
when it returned one; if none is registered, `w` makes no call and the row is
`waiting`. -/
theorem worker_iteration_outcome (q : queueDB) (w : Nat) (now192 now202 : Time)
    (during : List Event) (j : job) (db : JobsTable)
    (hidle : q.busy w = none)
    (hlease : findJobToProcess q.db now192 now202 = (Except.ok j, db))
    (hduring : ∀ e ∈ during, Event.ofLoop w e = false) :
    (∀ handler, q.handlers w j.JobName = some handler →
        (workerIteration q w now192 now202 during).calls.filter (fun c => c.worker == w) =
            q.calls.filter (fun c => c.worker == w) ++
              [{ worker := w, jobID := j.ID, jobName := j.JobName, payload := j.Payload }] ∧
          (handler j.JobName j.Payload = none →
            statusOf (workerIteration q w now192 now202 during).db j.ID =
              some statusComplete) ∧
          (∀ err, handler j.JobName j.Payload = some err →
            statusOf (workerIteration q w now192 now202 during).db j.ID =
              some statusWaiting)) ∧
      (q.handlers w j.JobName = none →
        (workerIteration q w now192 now202 during).calls.filter (fun c => c.worker == w) =
            q.calls.filter (fun c => c.worker == w) ∧
          statusOf (workerIteration q w now192 now202 during).db j.ID =
            some statusWaiting) := by
  obtain ⟨hj, _, hdb⟩ := findJobToProcess_ok hlease
  have hL : leaseStep q w now192 now202 =
      { q with
        db := db
        busy := fun v => if v = w then some j else q.busy v
        calls :=
          match q.handlers w j.JobName with
          | some _ => q.calls ++ [{ worker := w, jobID := j.ID, jobName := j.JobName,
                                    payload := j.Payload }]
          | none => q.calls } := by
    unfold leaseStep
    rw [hidle]
    simp only [hlease]
  have hsome : ((leaseStep q w now192 now202).db.byID j.ID).isSome = true := by
    rw [hL, hdb]
    exact byID_isSome_touch (mem_byID_isSome hj) _ _ _
  obtain ⟨h1, h2, h3, h4⟩ := run_frame w during (leaseStep q w now192 now202) hduring hsome
  have hbusy : (run (leaseStep q w now192 now202) during).busy w = some j := by
    rw [h2, hL]; simp
  have hhand : (run (leaseStep q w now192 now202) during).handlers = q.handlers := by
    rw [h1, hL]
  have hcalls : (workerIteration q w now192 now202 during).calls =
      (run (leaseStep q w now192 now202) during).calls := by
    unfold workerIteration
    rcases finishStep_cases (run (leaseStep q w now192 now202) during) w with
      ⟨_, h⟩ | ⟨_, _, _, _, h⟩ <;> rw [h]
  refine ⟨?_, ?_⟩
  · intro handler hh
    refine ⟨?_, ?_, ?_⟩
    · rw [hcalls, h3, hL]
      simp [hh]
    · intro hr
      have : (workerIteration q w now192 now202 during).db =
          updateJobStatus (run (leaseStep q w now192 now202) during).db j.ID
            statusComplete := by
        unfold workerIteration finishStep
        rw [hbusy]
        simp only [hhand, hh, hr]
      rw [this]
      exact statusOf_updateJobStatus h4 _
    · intro err hr
      have : (workerIteration q w now192 now202 during).db =
          updateJobStatus (run (leaseStep q w now192 now202) during).db j.ID
            statusWaiting := by
        unfold workerIteration finishStep
        rw [hbusy]
        simp only [hhand, hh, hr]
      rw [this]
      exact statusOf_updateJobStatus h4 _
  · intro hh
    refine ⟨?_, ?_⟩
    · rw [hcalls, h3, hL]
      simp [hh]
    · have : (workerIteration q w now192 now202 during).db =
          updateJobStatus (run (leaseStep q w now192 now202) during).db j.ID
            statusWaiting := by
        unfold workerIteration finishStep
        rw [hbusy]
        simp only [hhand, hh]
      rw [this]
      exact statusOf_updateJobStatus h4 _

/-! ## A long-running handler under heartbeat -/

theorem interval_lt_stall : visitingInterval < maxLastVisitedDuration := by decide

theorem HeldFresh_step {q : queueDB} {w : Nat} {j : job} {last : Time}
    (h : HeldFresh q w j last) (hh : (q.handlers w j.JobName).isSome = true) (e : Event)
    (hloop : Event.ofLoop w e = false)
    (hreq : requeueBy (last + visitingInterval) e = true) :
    HeldFresh (step q e) w j (visitAfter w last e) ∧
      (step q e).calls.filter (fun c => c.jobID == j.ID) =
        q.calls.filter (fun c => c.jobID == j.ID) := by
  obtain ⟨hwf, hbusy, honly, r, hr, hproc, hlast⟩ := h
  have hrid : r.ID = j.ID := (byID_eq_some hr).2
  refine ⟨⟨step_db_WF hwf e, ?_⟩, ?_⟩
  · rw [step_busy_other q w e hloop]
    refine ⟨hbusy, ?_⟩
    cases e with
    | enqueue jobName payload delaySecs now67 now69 now76 =>
      exact ⟨honly, r, byID_Create_old _ _ hr, hproc, hlast⟩
    | lease v now192 now202 =>
      show (∀ x, holds (leaseStep q v now192 now202) x j.ID → x = w) ∧
        ∃ r, (leaseStep q v now192 now202).db.byID j.ID = some r ∧ _
      rcases leaseStep_cases q v now192 now202 with h1 | ⟨j', hj', hl, hb, h1⟩
      · rw [h1]; exact ⟨honly, r, hr, hproc, hlast⟩
      · have hne : j'.ID ≠ j.ID := by
          intro hid
          have h2 := byID_of_mem hwf hj'
          rw [hid, hr] at h2
          cases h2
          simp only [leasable, Bool.and_eq_true, decide_eq_true_eq] at hl
          exact status_ne.1 (hl.1.symm.trans hproc)
        rw [h1]
        refine ⟨?_, r, ?_, hproc, hlast⟩
        · intro x hx
          obtain ⟨jx, hjx, hidx⟩ := (holds_iff _ _ _).mp hx
          simp only at hjx
          split at hjx
          · cases hjx; exact absurd hidx hne
          · exact honly x ((holds_iff _ _ _).mpr ⟨jx, hjx, hidx⟩)
        · show (q.db.UpdateWhereID j'.ID _).byID j.ID = some r
          rw [byID_touch_some hr]
          have : ¬ r.ID = j'.ID := by rw [hrid]; exact fun h => hne h.symm
          rw [if_neg this]
    | heartbeat v now =>
      by_cases hv : v = w
      · subst hv
        obtain ⟨f, hf⟩ := Option.isSome_iff_exists.mp hh
        have h1 : heartbeatStep q v now =
            { q with db := updateLastVisited q.db j.ID now } := by
          unfold heartbeatStep
          rw [hbusy]
          simp only [hf]
        show (∀ x, holds (heartbeatStep q v now) x j.ID → x = v) ∧
          ∃ r, (heartbeatStep q v now).db.byID j.ID = some r ∧ _
        rw [h1]
        refine ⟨honly, _, byID_touch_some hr j.ID _ _, ?_, ?_⟩
        · rw [if_pos hrid]; exact hproc
        · rw [if_pos hrid]
          show (if v = v then now else last) ≤ now
          rw [if_pos rfl]
      · have hva : visitAfter w last (Event.heartbeat v now) = last := by
          show (if v = w then now else last) = last
          rw [if_neg hv]
        rw [hva]
        show (∀ x, holds (heartbeatStep q v now) x j.ID → x = w) ∧
          ∃ r, (heartbeatStep q v now).db.byID j.ID = some r ∧ _
        rcases heartbeatStep_cases q v now with h1 | ⟨j', hb, h1⟩
        · rw [h1]; exact ⟨honly, r, hr, hproc, hlast⟩
        · have hne : j'.ID ≠ j.ID :=
            fun hid => hv (honly v ((holds_iff _ _ _).mpr ⟨j', hb, hid⟩))
          rw [h1]
          refine ⟨honly, r, ?_, hproc, hlast⟩
          show (q.db.UpdateWhereID j'.ID _).byID j.ID = some r
          rw [byID_touch_some hr]
          have : ¬ r.ID = j'.ID := by rw [hrid]; exact fun h => hne h.symm
          rw [if_neg this]
    | finish v =>
      have hv : ¬ v = w := by
        simpa only [Event.ofLoop, decide_eq_false_iff_not] using hloop
      show (∀ x, holds (finishStep q v) x j.ID → x = w) ∧
        ∃ r, (finishStep q v).db.byID j.ID = some r ∧ _
      rcases finishStep_cases q v with ⟨_, h1⟩ | ⟨j', s, hb, _, h1⟩
      · rw [h1]; exact ⟨honly, r, hr, hproc, hlast⟩
      · have hne : j'.ID ≠ j.ID :=
          fun hid => hv (honly v ((holds_iff _ _ _).mpr ⟨j', hb, hid⟩))
        rw [h1]
        refine ⟨?_, r, ?_, hproc, hlast⟩
        · intro x hx
          obtain ⟨jx, hjx, hidx⟩ := (holds_iff _ _ _).mp hx
          simp only at hjx
          split at hjx
          · cases hjx
          · exact honly x ((holds_iff _ _ _).mpr ⟨jx, hjx, hidx⟩)
        · show (q.db.UpdateWhereID j'.ID _).byID j.ID = some r
          rw [byID_touch_some hr]
          have : ¬ r.ID = j'.ID := by rw [hrid]; exact fun h => hne h.symm
          rw [if_neg this]
    | requeue now118 now126 =>
      show (∀ x, holds { q with db := (requeueTick q.db now118 now126).2 } x j.ID → x = w) ∧
        ∃ r, (requeueTick q.db now118 now126).2.byID j.ID = some r ∧ _
      refine ⟨honly, ?_⟩
      rcases requeueTick_db q.db now118 now126 with ⟨h1, _⟩ | ⟨res, hres, hst, h1⟩
      · rw [h1]; exact ⟨r, hr, hproc, hlast⟩
      · have hne : res.ID ≠ j.ID := by
          intro hid
          have h2 := byID_of_mem hwf hres
          rw [hid, hr] at h2
          cases h2
          simp only [stalled, Bool.and_eq_true, decide_eq_true_eq] at hst
          have h3 := hst.2
          have h4 : now118 ≤ last + visitingInterval := by
            simpa only [requeueBy, decide_eq_true_eq] using hreq
          have h5 := interval_lt_stall
          linarith
        rw [h1]
        refine ⟨r, ?_, hproc, hlast⟩
        rw [byID_touch_some hr]
        have : ¬ r.ID = res.ID := by rw [hrid]; exact fun h => hne h.symm
        rw [if_neg this]
  · cases e with
    | enqueue jobName payload delaySecs now67 now69 now76 => rfl
    | lease v now192 now202 =>
      show (leaseStep q v now192 now202).calls.filter _ = _
      rcases leaseStep_cases q v now192 now202 with h1 | ⟨j', hj', hl, hb, h1⟩
      · rw [h1]
      · have hne : j'.ID ≠ j.ID := by
          intro hid
          have h2 := byID_of_mem hwf hj'
          rw [hid, hr] at h2
          cases h2
          simp only [leasable, Bool.and_eq_true, decide_eq_true_eq] at hl
          exact status_ne.1 (hl.1.symm.trans hproc)
        rw [h1]
        cases hq : q.handlers v j'.JobName with
        | none => simp
        | some f => simp [hne]
    | heartbeat v now =>
      show (heartbeatStep q v now).calls.filter _ = _
      rcases heartbeatStep_cases q v now with h1 | ⟨j', _, h1⟩ <;> rw [h1]
    | finish v =>
      show (finishStep q v).calls.filter _ = _
      rcases finishStep_cases q v with ⟨_, h1⟩ | ⟨j', s, _, _, h1⟩ <;> rw [h1]
    | requeue now118 now126 => rfl

theorem HeldFresh_run {w : Nat} {j : job} (evs : List Event) :
    ∀ {q : queueDB} {last : Time}, HeldFresh q w j last →
      (q.handlers w j.JobName).isSome = true → paced w last evs = true →
      (∃ last', HeldFresh (run q evs) w j last') ∧
        (run q evs).calls.filter (fun c => c.jobID == j.ID) =
          q.calls.filter (fun c => c.jobID == j.ID) := by
  induction evs with
  | nil => intro q last h _ _; exact ⟨⟨last, h⟩, rfl⟩
  | cons e es ih =>
    intro q last h hh hp
    simp only [paced, Bool.and_eq_true, Bool.not_eq_true'] at hp
    obtain ⟨⟨hloop, hreq⟩, hrest⟩ := hp
    obtain ⟨h1, h2⟩ := HeldFresh_step h hh e hloop hreq
    have hh' : ((step q e).handlers w j.JobName).isSome = true := by
      rw [step_handlers]; exact hh
    obtain ⟨h3, h4⟩ := ih h1 hh' hrest
    exact ⟨h3, by show (run (step q e) es).calls.filter _ = _; rw [h4, h2]⟩

theorem worker_iteration_outcome_witness :
    (workerIteration (step exampleQueue (Event.enqueue "send_email" "a@b" 0 0 0 0)) 1
        (1 * Second) (1 * Second)
        [Event.heartbeat 1 (11 * Second),
          Event.lease 2 (12 * Second) (12 * Second)]).calls.filter
          (fun c => c.worker == 1) =
        [] ++ [{ worker := 1, jobID := 1, jobName := "send_email", payload := "a@b" }] ∧
      statusOf (workerIteration (step exampleQueue (Event.enqueue "send_email" "a@b" 0 0 0 0))
        1 (1 * Second) (1 * Second)
        [Event.heartbeat 1 (11 * Second),
          Event.lease 2 (12 * Second) (12 * Second)]).db 1 = some statusComplete :=
  ⟨((worker_iteration_outcome
      (step exampleQueue (Event.enqueue "send_email" "a@b" 0 0 0 0)) 1
      (1 * Second) (1 * Second)
      [Event.heartbeat 1 (11 * Second), Event.lease 2 (12 * Second) (12 * Second)]
      { ID := 1, JobName := "send_email", Payload := "a@b", Status := statusWaiting,
        RunAt := some 0, LastVisited := 0 }
      { rows := [{ ID := 1, JobName := "send_email", Payload := "a@b",
                   Status := statusProcessing, RunAt := some 0,
                   LastVisited := 1 * Second }], nextID := 2 }
      rfl rfl (by decide)).1 okHandler rfl).1,
   ((worker_iteration_outcome
      (step exampleQueue (Event.enqueue "send_email" "a@b" 0 0 0 0)) 1
      (1 * Second) (1 * Second)
      [Event.heartbeat 1 (11 * Second), Event.lease 2 (12 * Second) (12 * Second)]
      { ID := 1, JobName := "send_email", Payload := "a@b", Status := statusWaiting,
        RunAt := some 0, LastVisited := 0 }
      { rows := [{ ID := 1, JobName := "send_email", Payload := "a@b",
                   Status := statusProcessing, RunAt := some 0,
                   LastVisited := 1 * Second }], nextID := 2 }
      rfl rfl (by decide)).1 okHandler rfl).2.1 rfl⟩

theorem HeldFresh_lease {q : queueDB} {w : Nat} {now192 now202 : Time} {j : job}
    {db : JobsTable} (hwf : q.db.WF) (hidle : q.busy w = none)
    (hfree : ∀ v, ¬ holds q v j.ID)
    (hlease : findJobToProcess q.db now192 now202 = (Except.ok j, db)) :
    HeldFresh (leaseStep q w now192 now202) w j now202 ∧
      (leaseStep q w now192 now202).handlers = q.handlers ∧
      (leaseStep q w now192 now202).calls =
        match q.handlers w j.JobName with
        | some _ => q.calls ++ [{ worker := w, jobID := j.ID, jobName := j.JobName,
                                  payload := j.Payload }]
        | none => q.calls := by
  obtain ⟨hj, _, hdb⟩ := findJobToProcess_ok hlease
  have hL : leaseStep q w now192 now202 =
      { q with
        db := db
        busy := fun v => if v = w then some j else q.busy v
        calls :=
          match q.handlers w j.JobName with
          | some _ => q.calls ++ [{ worker := w, jobID := j.ID, jobName := j.JobName,
                                    payload := j.Payload }]
          | none => q.calls } := by
    unfold leaseStep
    rw [hidle]
    simp only [hlease]
  rw [hL]
  refine ⟨⟨?_, ?_, ?_, ?_⟩, rfl, rfl⟩
  · rw [hdb]; exact UpdateWhereID_WF hwf _ _ (fun _ => rfl)
  · simp
  · intro v hv
    obtain ⟨jv, hjv, hid⟩ := (holds_iff _ _ _).mp hv
    simp only at hjv
    by_contra hne
    rw [if_neg hne] at hjv
    exact hfree v ((holds_iff _ _ _).mpr ⟨jv, hjv, hid⟩)
  · rw [hdb]
    refine ⟨_, byID_touch_some (byID_of_mem hwf hj) j.ID _ _, ?_, ?_⟩
    · rw [if_pos rfl]
    · rw [if_pos rfl]

/-- C6 (amended): when a leased job's handler runs, for 20 minutes or any other
time, and the visitor of its worker updates `last_visited` every 10 seconds,
the row is never eligible for reclaim: whatever the requeue loop and the other
workers do meanwhile, the row stays `processing`, its worker stays its only
holder, and when the handler returns success the handler has been invoked
exactly once for that job and the row is `complete`. -/
theorem handler_under_heartbeat_runs_once (q : queueDB) (w : Nat)
    (now192 now202 : Time) (during : List Event) (j : job) (db : JobsTable)
    (handler : JobHandler)
    (hwf : q.db.WF) (hidle : q.busy w = none) (hfree : ∀ v, ¬ holds q v j.ID)
    (hlease : findJobToProcess q.db now192 now202 = (Except.ok j, db))
    (hh : q.handlers w j.JobName = some handler)
    (hok : handler j.JobName j.Payload = none)
    (hp : paced w now202 during = true) :
    statusOf (run (leaseStep q w now192 now202) during).db j.ID = some statusProcessing ∧
      (∀ v, holds (run (leaseStep q w now192 now202) during) v j.ID → v = w) ∧
      (workerIteration q w now192 now202 during).calls.filter (fun c => c.jobID == j.ID) =
        q.calls.filter (fun c => c.jobID == j.ID) ++
          [{ worker := w, jobID := j.ID, jobName := j.JobName, payload := j.Payload }] ∧
      statusOf (workerIteration q w now192 now202 during).db j.ID = some statusComplete := by
  obtain ⟨hfresh, hhand, hcalls⟩ := HeldFresh_lease hwf hidle hfree hlease
  have hh0 : ((leaseStep q w now192 now202).handlers w j.JobName).isSome = true := by
    rw [hhand, hh]; rfl
  obtain ⟨⟨last, _, hbusy, honly, r, hr, hproc, _⟩, hfilter⟩ :=
    HeldFresh_run during hfresh hh0 hp
  have hhand2 : (run (leaseStep q w now192 now202) during).handlers = q.handlers := by
    have : ∀ (evs : List Event) (s : queueDB), (run s evs).handlers = s.handlers := by
      intro evs
      induction evs with
      | nil => intro s; rfl
      | cons e es ih => intro s; show (run (step s e) es).handlers = _; rw [ih, step_handlers]
    rw [this, hhand]
  have hfin : workerIteration q w now192 now202 during =
      { run (leaseStep q w now192 now202) during with
        db := updateJobStatus (run (leaseStep q w now192 now202) during).db j.ID
          statusComplete
        busy := fun v => if v = w then none
          else (run (leaseStep q w now192 now202) during).busy v } := by
    unfold workerIteration finishStep
    rw [hbusy]
    simp only [hhand2, hh, hok]
  refine ⟨?_, honly, ?_, ?_⟩
  · unfold statusOf; rw [hr, ← hproc]; rfl
  · rw [hfin]
    show (run (leaseStep q w now192 now202) during).calls.filter _ = _
    rw [hfilter, hcalls, hh]
    simp
  · rw [hfin]
    exact statusOf_updateJobStatus (by rw [hr]; rfl) _

theorem handler_under_heartbeat_runs_once_witness :
    statusOf (run (leaseStep (step exampleQueue (Event.enqueue "send_email" "a@b" 0 0 0 0))
        1 (1 * Second) (1 * Second)) (stallDuring 3 (1 * Second))).db 1 =
          some statusProcessing ∧
      statusOf (workerIteration (step exampleQueue (Event.enqueue "send_email" "a@b" 0 0 0 0))
        1 (1 * Second) (1 * Second) (stallDuring 3 (1 * Second))).db 1 =
          some statusComplete :=
  ⟨(handler_under_heartbeat_runs_once
      (step exampleQueue (Event.enqueue "send_email" "a@b" 0 0 0 0)) 1
      (1 * Second) (1 * Second) (stallDuring 3 (1 * Second))
      { ID := 1, JobName := "send_email", Payload := "a@b", Status := statusWaiting,
        RunAt := some 0, LastVisited := 0 }
      { rows := [{ ID := 1, JobName := "send_email", Payload := "a@b",
                   Status := statusProcessing, RunAt := some 0,
                   LastVisited := 1 * Second }], nextID := 2 }
      okHandler ⟨by decide, by decide⟩ rfl
      (fun v hv => by
        obtain ⟨jv, hjv, _⟩ := (holds_iff _ _ _).mp hv
        exact nomatch hjv)
      rfl rfl rfl (by decide)).1,
   (handler_under_heartbeat_runs_once
      (step exampleQueue (Event.enqueue "send_email" "a@b" 0 0 0 0)) 1
      (1 * Second) (1 * Second) (stallDuring 3 (1 * Second))
      { ID := 1, JobName := "send_email", Payload := "a@b", Status := statusWaiting,
        RunAt := some 0, LastVisited := 0 }
      { rows := [{ ID := 1, JobName := "send_email", Payload := "a@b",
                   Status := statusProcessing, RunAt := some 0,
                   LastVisited := 1 * Second }], nextID := 2 }
      okHandler ⟨by decide, by decide⟩ rfl
      (fun v hv => by
        obtain ⟨jv, hjv, _⟩ := (holds_iff _ _ _).mp hv
        exact nomatch hjv)
      rfl rfl rfl (by decide)).2.2.2⟩

set_option maxRecDepth 100000 in
/-- C6 as stated fails.  Scenario S2: job 1 is enqueued, worker 1 leases it at
second 1 and its handler runs for 20 minutes, returning success at second
1201; the visitor of worker 1 ticks every 10 seconds; at the end of every
10-second period the requeue loop ticks and worker 2 tries to lease.  At
second 911, more than 15 minutes into the run, the row is still `processing`
and worker 2 holds nothing; over the whole run the handler is invoked once,
not twice, and the row ends `complete`. -/
theorem stall_scenario_single_invocation :
    paced 1 (1 * Second) (stallDuring 120 (1 * Second)) = true ∧
    statusOf (run (leaseStep (step exampleQueue (Event.enqueue "send_email" "a@b" 0 0 0 0))
        1 (1 * Second) (1 * Second)) (stallDuring 91 (1 * Second))).db 1 =
          some statusProcessing ∧
    (run (leaseStep (step exampleQueue (Event.enqueue "send_email" "a@b" 0 0 0 0))
        1 (1 * Second) (1 * Second)) (stallDuring 91 (1 * Second))).busy 2 = none ∧
    (workerIteration (step exampleQueue (Event.enqueue "send_email" "a@b" 0 0 0 0))
        1 (1 * Second) (1 * Second) (stallDuring 120 (1 * Second))).calls =
      [{ worker := 1, jobID := 1, jobName := "send_email", payload := "a@b" }] ∧
    statusOf (workerIteration (step exampleQueue (Event.enqueue "send_email" "a@b" 0 0 0 0))
        1 (1 * Second) (1 * Second) (stallDuring 120 (1 * Second))).db 1 =
      some statusComplete := by
  refine ⟨by decide, by decide, by decide, by decide, by decide⟩

/-! ## Scheduler -/

theorem Sprintf_cons_ne (c : Char) (hc : c ≠ '%') (rest : List Char) (args : List String) :
    Sprintf (c :: rest) args = c :: Sprintf rest args := by
  rw [Sprintf]
  · intro r a as h
    exact absurd h hc
  · intro r h
    exact absurd h hc

theorem Sprintf_plain (l rest : List Char) (args : List String) (hl : ∀ c ∈ l, c ≠ '%') :
    Sprintf (l ++ rest) args = l ++ Sprintf rest args := by
  induction l with
  | nil => rfl
  | cons c cs ih =>
    rw [List.cons_append, Sprintf_cons_ne c (hl c (List.mem_cons_self _ _)),
      ih (fun x hx => hl x (List.mem_cons_of_mem _ hx)), List.cons_append]

theorem Sprintf_two (pre mid : List Char) (a b : String)
    (hpre : ∀ c ∈ pre, c ≠ '%') (hmid : ∀ c ∈ mid, c ≠ '%') :
    Sprintf (pre ++ '%' :: 's' :: (mid ++ ['%', 's'])) [a, b] =
      pre ++ a.data ++ mid ++ b.data := by
  rw [Sprintf_plain pre _ _ hpre]
  simp only [Sprintf]
  rw [Sprintf_plain mid _ _ hmid]
  simp [Sprintf]

/-- C10: `getSchedulerKey` returns `"scheduler:" + job_name + "-" +
base64url(cron_spec)` and `getMutexKey` returns `"handlerMutex:" + job_name +
"-" + base64url(cron_spec)`, where `base64url` is the padded URL-safe base64
encoding of the bytes of `cron_spec`. -/
theorem scheduler_keys_format (jobName cronSpec : String) :
    getSchedulerKey jobName cronSpec =
        "scheduler:" ++ jobName ++ "-" ++ base64URL cronSpec ∧
      getMutexKey jobName cronSpec =
        "handlerMutex:" ++ jobName ++ "-" ++ base64URL cronSpec := by
  constructor
  · unfold getSchedulerKey
    have := Sprintf_two "scheduler:".data "-".data jobName (base64URL cronSpec)
      (by decide) (by decide)
    apply String.ext
    simp only [String.data_append]
    exact this
  · unfold getMutexKey
    have := Sprintf_two "handlerMutex:".data "-".data jobName (base64URL cronSpec)
      (by decide) (by decide)
    apply String.ext
    simp only [String.data_append]
    exact this

theorem base64URL_vectors :
    base64URL "" = "" ∧ base64URL "f" = "Zg==" ∧ base64URL "fo" = "Zm8=" ∧
      base64URL "foo" = "Zm9v" ∧ base64URL "foob" = "Zm9vYg==" ∧
      base64URL "fooba" = "Zm9vYmE=" ∧ base64URL "foobar" = "Zm9vYmFy" ∧
      base64URL "0 * * * *" = "MCAqICogKiAq" ∧ base64URL "ÿþ>?" = "w7_Dvj4_" := by
  decide

/-- C7: `ScheduleJob` returns an error and leaves the scheduler as it was (no
entry, no handler) when the scheduler is running or when the cron spec does
not parse; in every other case it appends exactly one entry, for
`(jobName, cronSpec)`, and registers the handler under `jobName`, leaving the
other handlers as they were. -/
theorem ScheduleJob_guards (ParseStandard : String → Except String Schedule)
    (s : ScheduleSafeImpl) (now97 now186 : Int) (jobName cronSpec : String)
    (handler : ScheduleHandler) :
    ((s.running = true ∨ ∃ err, ParseStandard cronSpec = Except.error err) →
        (∃ err, (ScheduleJob ParseStandard s now97 now186 jobName cronSpec handler).1 =
            Except.error err) ∧
          (ScheduleJob ParseStandard s now97 now186 jobName cronSpec handler).2 = s) ∧
      (¬ (s.running = true ∨ ∃ err, ParseStandard cronSpec = Except.error err) →
        (∃ entry,
            (ScheduleJob ParseStandard s now97 now186 jobName cronSpec handler).2.scheduleEntries =
                s.scheduleEntries ++ [entry] ∧
              entry.jobName = jobName ∧ entry.cronSpec = cronSpec) ∧
          (ScheduleJob ParseStandard s now97 now186 jobName cronSpec handler).2.handlers jobName =
            some handler ∧
          ∀ n, n ≠ jobName →
            (ScheduleJob ParseStandard s now97 now186 jobName cronSpec handler).2.handlers n =
              s.handlers n) := by
  constructor
  · intro h
    unfold ScheduleJob
    by_cases hr : s.running = true
    · rw [if_pos hr]; exact ⟨⟨_, rfl⟩, rfl⟩
    · rw [if_neg hr]
      rcases h with h | ⟨err, herr⟩
      · exact absurd h hr
      · rw [herr]; exact ⟨⟨_, rfl⟩, rfl⟩
  · intro h
    have hr : ¬ s.running = true := fun hr => h (Or.inl hr)
    unfold ScheduleJob
    rw [if_neg hr]
    cases hp : ParseStandard cronSpec with
    | error err => exact absurd (Or.inr ⟨err, hp⟩) h
    | ok schedule =>
      dsimp only
      cases hret : retrieveNextExecutionTime s jobName cronSpec with
      | ok nextExec =>
        refine ⟨⟨_, rfl, rfl, rfl⟩, ?_, ?_⟩
        · simp
        · intro n hn; simp [hn]
      | error e =>
        refine ⟨⟨_, rfl, rfl, rfl⟩, ?_, ?_⟩
        · simp [updateNextExecutionTime]
        · intro n hn; simp [updateNextExecutionTime, hn]

theorem ScheduleJob_guards_witness :
    (∃ err, (ScheduleJob exampleParse (freshScheduler fleetStore) 3000 3000 "daily"
        "not a cron spec" exampleHandler).1 = Except.error err) ∧
      (ScheduleJob exampleParse (freshScheduler fleetStore) 3000 3000 "hourly"
        "0 * * * *" exampleHandler).2.handlers "hourly" = some exampleHandler :=
  ⟨((ScheduleJob_guards exampleParse (freshScheduler fleetStore) 3000 3000 "daily"
      "not a cron spec" exampleHandler).1 (Or.inr ⟨"bad cron spec", rfl⟩)).1,
   ((ScheduleJob_guards exampleParse (freshScheduler fleetStore) 3000 3000 "hourly"
      "0 * * * *" exampleHandler).2
      (fun h => h.elim (fun hr => Bool.noConfusion hr)
        (fun ⟨_, he⟩ => Except.noConfusion he))).2.1⟩

/-- C14: `validateOutgoingPacket` holds exactly when id, sender, receiver and
event name are all non-empty; `validateIncomingPacket` holds exactly when id
and event name are non-empty, whatever the receiver and the data. -/
theorem packet_validation {Data : Type} (p : OutPacket Data) (m : Packet Data) :
    (validateOutgoingPacket p = true ↔
        p.ID ≠ "" ∧ p.SenderID ≠ "" ∧ p.ReceiverID ≠ "" ∧ p.EventName ≠ "") ∧
      (validateIncomingPacket m = true ↔ m.ID ≠ "" ∧ m.EventName ≠ "") ∧
      (∀ (receiver : String) (data : Data),
        validateIncomingPacket { m with ReceiverID := receiver, Data := data } =
          validateIncomingPacket m) := by
  refine ⟨?_, ?_, fun _ _ => rfl⟩
  · simp only [validateOutgoingPacket, Bool.and_eq_true, decide_eq_true_eq, and_assoc]
  · simp only [validateIncomingPacket, Bool.and_eq_true, decide_eq_true_eq]

theorem filter_ne_key (k : String) (l : List (String × connection))
    (h : ∀ e ∈ l, e.1 ≠ k) : l.filter (fun e => e.1 != k) = l := by
  rw [List.filter_eq_self]
  intro e he
  simpa using h e he

theorem popLoop_self (l : List (String × connection))
    (hn : (l.map (fun e => e.1)).Nodup) : popLoop l l = ([], l) := by
  induction l with
  | nil => rfl
  | cons a t ih =>
    obtain ⟨k, v⟩ := a
    rw [List.map_cons, List.nodup_cons] at hn
    have hne : ∀ e ∈ t, e.1 ≠ k := by
      intro e he hk
      exact hn.1 (hk ▸ List.mem_map_of_mem (fun e => e.1) he)
    have hfil : List.filter (fun e => e.1 != k) ((k, v) :: t) = t := by
      rw [List.filter_cons_of_neg (by simp), filter_ne_key k t hne]
    unfold popLoop
    rw [if_pos (by simp), hfil, ih hn.2]

/-- C15: for every state of the local connection table (a Go map, so with
pairwise distinct keys), `IterateAndPop` invokes the callback exactly once for
each entry that was in the table, with its key and value, and leaves the table
empty. -/
theorem IterateAndPop_drains (l : localConnections)
    (hkeys : (l.connections.map (fun e => e.1)).Nodup) :
    l.IterateAndPop.1 = { connections := [] } ∧
      l.IterateAndPop.2 = l.connections ∧
      l.IterateAndPop.2.Nodup := by
  unfold localConnections.IterateAndPop
  rw [popLoop_self _ hkeys]
  exact ⟨rfl, rfl, (List.Nodup.of_map _ hkeys)⟩

theorem IterateAndPop_drains_witness :
    (localConnections.IterateAndPop
        { connections := [("alice", { socket := 7, clientID := "alice" }),
                          ("bob", { socket := 8, clientID := "bob" })] }).1 =
        { connections := [] } ∧
      (localConnections.IterateAndPop
        { connections := [("alice", { socket := 7, clientID := "alice" }),
                          ("bob", { socket := 8, clientID := "bob" })] }).2 =
        [("alice", { socket := 7, clientID := "alice" }),
         ("bob", { socket := 8, clientID := "bob" })] :=
  ⟨(IterateAndPop_drains
      { connections := [("alice", { socket := 7, clientID := "alice" }),
                        ("bob", { socket := 8, clientID := "bob" })] } (by decide)).1,
   (IterateAndPop_drains
      { connections := [("alice", { socket := 7, clientID := "alice" }),
                        ("bob", { socket := 8, clientID := "bob" })] } (by decide)).2.1⟩

/-- C11 (amended): `Send(p)` does exactly one of the following.  If `p` fails
outgoing validation: nothing.  If the receiver is in the local connection
table: one write of `json.Marshal(p)` to the receiver's socket when the
encoding succeeds, nothing when it fails; no lookup and no publish either
way.  Otherwise one directory lookup, and, if the directory has an entry, one
publish of `json.Marshal(p)` on the topic named by the entry's `serverID`
when the encoding succeeds; nothing more when it fails or on a directory
miss. -/
theorem Send_routing {Data : Type} (Marshal : OutPacket Data → Except String String)
    (m : messengerImpl) (store : HashStore) (p : OutPacket Data) :
    (validateOutgoingPacket p = false → Send Marshal m store p = []) ∧
      (validateOutgoingPacket p = true →
        ∀ receiver, m.localConnections.Get p.ReceiverID = some receiver →
          (∀ data, Marshal p = Except.ok data →
            Send Marshal m store p = [Effect.write receiver.socket data]) ∧
          (∀ err, Marshal p = Except.error err → Send Marshal m store p = [])) ∧
      (validateOutgoingPacket p = true → m.localConnections.Get p.ReceiverID = none →
        ∀ info, globalConnectionInfoGet store p.ReceiverID = Except.ok info →
          (∀ data, Marshal p = Except.ok data →
            Send Marshal m store p =
              [Effect.lookup p.ReceiverID, Effect.publish info.serverID data]) ∧
          (∀ err, Marshal p = Except.error err →
            Send Marshal m store p = [Effect.lookup p.ReceiverID])) ∧
      (validateOutgoingPacket p = true → m.localConnections.Get p.ReceiverID = none →
        ∀ err, globalConnectionInfoGet store p.ReceiverID = Except.error err →
          Send Marshal m store p = [Effect.lookup p.ReceiverID]) := by
  refine ⟨?_, ?_, ?_, ?_⟩
  · intro hv
    simp [Send, sendMessageImpl, hv]
  · intro hv receiver hget
    constructor
    · intro data hm
      simp [Send, sendMessageImpl, hv, hget, pushMessage, hm]
    · intro err hm
      simp [Send, sendMessageImpl, hv, hget, pushMessage, hm]
  · intro hv hget info hgd
    constructor
    · intro data hm
      simp [Send, sendMessageImpl, hv, hget, hgd, hm]
    · intro err hm
      simp [Send, sendMessageImpl, hv, hget, hgd, hm]
  · intro hv hget err hgd
    simp [Send, sendMessageImpl, hv, hget, hgd]

theorem Send_routing_witness :
    Send exampleMarshal (newMessenger "R2")
        (AddClient (newMessenger "R1") emptyHashes "alice" 7).2 chatPacket =
      [Effect.lookup "alice", Effect.publish "R1" chatPayload] :=
  ((Send_routing exampleMarshal (newMessenger "R2")
      (AddClient (newMessenger "R1") emptyHashes "alice" 7).2 chatPacket).2.2.1
    (by decide) (by decide) { clientID := "alice", serverID := "R1" } rfl).1
      chatPayload rfl

/-- C11 as stated fails: `alice` is attached on this replica and the packet is
valid, but its data is a channel, which `json.Marshal` rejects; `pushMessage`
returns on the error and nothing is written. -/
theorem Send_local_unencodable_writes_nothing :
    validateOutgoingPacket channelPacket = true ∧
      (AddClient (newMessenger "R1") emptyHashes "alice" 7).1.localConnections.Get
          channelPacket.ReceiverID = some { socket := 7, clientID := "alice" } ∧
      Send exampleMarshal (AddClient (newMessenger "R1") emptyHashes "alice" 7).1
          (AddClient (newMessenger "R1") emptyHashes "alice" 7).2 channelPacket = [] := by
  decide

/-- C12 (amended): for every valid `OutPacket` `p` whose receiver is attached
on replica `R1` (local entry `conn`, directory entry naming `R1`) and not on
replica `R2`, which `json.Marshal` encodes as `data`, and whose encoding
decodes to a packet with the same receiver and the same encoding (as it does
when it decodes back to `p`): `Send(p)` on `R2` results in exactly one socket
write in the fleet, on `R1`, to the receiver's socket, of the bytes `data`,
which are the bytes that a local `Send(p)` on `R1` writes. -/
theorem cross_replica_delivery {Data : Type}
    (Marshal : OutPacket Data → Except String String)
    (Unmarshal : String → Except String (OutPacket Data))
    (R1 R2 : messengerImpl) (store : HashStore) (p q : OutPacket Data)
    (conn : connection) (info : connectionInfo) (data : String)
    (hids : R1.serverID ≠ R2.serverID)
    (hvalid : validateOutgoingPacket p = true)
    (hR1 : R1.localConnections.Get p.ReceiverID = some conn)
    (hR2 : R2.localConnections.Get p.ReceiverID = none)
    (hgd : globalConnectionInfoGet store p.ReceiverID = Except.ok info)
    (hsid : info.serverID = R1.serverID)
    (hm : Marshal p = Except.ok data)
    (hu : Unmarshal data = Except.ok q)
    (hq : q.ReceiverID = p.ReceiverID)
    (hmq : Marshal q = Except.ok data) :
    socketWrites (fleetSend Marshal Unmarshal [R1, R2] store R2 p) =
        [(R1.serverID, conn.socket, data)] ∧
      Send Marshal R1 store p = [Effect.write conn.socket data] := by
  have hsend : Send Marshal R2 store p =
      [Effect.lookup p.ReceiverID, Effect.publish R1.serverID data] := by
    simp [Send, sendMessageImpl, hvalid, hR2, hgd, hm, hsid]
  have hhandle : Handle Marshal Unmarshal R1 data = [Effect.write conn.socket data] := by
    simp [Handle, hu, hq, hR1, pushMessage, hmq]
  constructor
  · unfold fleetSend
    rw [hsend]
    have hne : (R2.serverID == R1.serverID) = false := by
      simpa using fun h => hids h.symm
    simp [deliver, socketWrites, hhandle, hne]
  · simp [Send, sendMessageImpl, hvalid, hR1, pushMessage, hm]

theorem cross_replica_delivery_witness :
    socketWrites (fleetSend exampleMarshal exampleUnmarshal
        [(AddClient (newMessenger "R1") emptyHashes "alice" 7).1, newMessenger "R2"]
        (AddClient (newMessenger "R1") emptyHashes "alice" 7).2 (newMessenger "R2")
        chatPacket) = [("R1", 7, chatPayload)] :=
  (cross_replica_delivery exampleMarshal exampleUnmarshal
    (AddClient (newMessenger "R1") emptyHashes "alice" 7).1 (newMessenger "R2")
    (AddClient (newMessenger "R1") emptyHashes "alice" 7).2 chatPacket chatPacket
    { socket := 7, clientID := "alice" } { clientID := "alice", serverID := "R1" }
    chatPayload (by decide) (by decide) (by decide) (by decide) rfl rfl
    rfl rfl rfl rfl).1

/-- C12 as stated fails: `alice` is attached on `R1` and not on `R2`, the
directory names `R1`, and the packet is valid, but its data is a channel;
`json.Marshal` fails on `R2`, nothing is published and no socket is written
anywhere in the fleet. -/
theorem cross_replica_unencodable_writes_nothing :
    validateOutgoingPacket channelPacket = true ∧
      (AddClient (newMessenger "R1") emptyHashes "alice" 7).1.localConnections.Get
          channelPacket.ReceiverID = some { socket := 7, clientID := "alice" } ∧
      (newMessenger "R2").localConnections.Get channelPacket.ReceiverID = none ∧
      globalConnectionInfoGet (AddClient (newMessenger "R1") emptyHashes "alice" 7).2
          channelPacket.ReceiverID = Except.ok { clientID := "alice", serverID := "R1" } ∧
      socketWrites (fleetSend exampleMarshal exampleUnmarshal
        [(AddClient (newMessenger "R1") emptyHashes "alice" 7).1, newMessenger "R2"]
        (AddClient (newMessenger "R1") emptyHashes "alice" 7).2 (newMessenger "R2")
        channelPacket) = [] := by
  refine ⟨by decide, by decide, by decide, rfl, by decide⟩

/-! ## Event bus -/

/-- C16 fails on the code: two `Subscribe` calls for the same event name leave
two dispatch loops running for it.  The map keeps only the second
subscription, so `Unsubscribe` stops that one and the first loop keeps
delivering; a published message reaches both handlers. -/
theorem double_subscribe_two_loops :
    (busCalls NewEventRedis
        [BusCall.Subscribe "chat" (fun _ _ => "first"),
         BusCall.Subscribe "chat" (fun _ _ => "second")]).map
        (fun e => activeLoops e "chat") = some 2 ∧
      (busCalls NewEventRedis
        [BusCall.Subscribe "chat" (fun _ _ => "first"),
         BusCall.Subscribe "chat" (fun _ _ => "second")]).map
        (fun e => dispatch e "chat" "hello") = some ["first", "second"] ∧
      (busCalls NewEventRedis
        [BusCall.Subscribe "chat" (fun _ _ => "first"),
         BusCall.Subscribe "chat" (fun _ _ => "second"),
         BusCall.Unsubscribe "chat",
         BusCall.Unsubscribe "chat"]).map
        (fun e => dispatch e "chat" "hello") = some ["first"] := by
  decide

/-! ## Scheduler tick -/

theorem tickBySpec_none_due (T : Int) (lock : Nat → Bool) (now186 : Nat → Int)
    (es : List scheduleEntry) :
    ∀ (i : Nat) (s : ScheduleSafeImpl), (∀ e ∈ es, ¬ e.nextExecution ≤ T) →
      tickBySpec T lock now186 i es s = (es, s, []) := by
  induction es with
  | nil => intro i s _; rfl
  | cons e rest ih =>
    intro i s h
    have he := h e (List.mem_cons_self _ _)
    unfold tickBySpec
    rw [if_neg (fun hc => he hc.1), ih (i + 1) s (fun x hx => h x (List.mem_cons_of_mem _ hx))]
    simp [he]

theorem tickLoop_eq_tickBySpec (T : Int) (lock : Nat → Bool) (now186 : Nat → Int)
    (es : List scheduleEntry) :
    ∀ (i : Nat) (s : ScheduleSafeImpl),
      es.Pairwise (fun a b => a.nextExecution ≤ b.nextExecution) →
      (∀ e ∈ es, (s.handlers e.jobName).isSome = true) →
      tickLoop T lock now186 i es s = tickBySpec T lock now186 i es s := by
  induction es with
  | nil => intro i s _ _; rfl
  | cons e rest ih =>
    intro i s hs hreg
    rw [List.pairwise_cons] at hs
    obtain ⟨h, hh⟩ := Option.isSome_iff_exists.mp (hreg e (List.mem_cons_self _ _))
    have hrest : ∀ x ∈ rest, (s.handlers x.jobName).isSome = true :=
      fun x hx => hreg x (List.mem_cons_of_mem _ hx)
    unfold tickLoop tickBySpec
    by_cases hdue : e.nextExecution ≤ T
    · rw [if_pos hdue]
      simp only [hh]
      by_cases hl : lock i = true
      · rw [if_pos hl, if_pos ⟨hdue, hl⟩]
        simp only [updateNextExecutionTime]
        rw [ih (i + 1)
          { s with
            redisClient := s.redisClient.Set (getSchedulerKey e.jobName e.cronSpec)
              (toString (e.cronSchedule.Next T))
              (timeSub (e.cronSchedule.Next T) (now186 i)) } hs.2 hrest]
        rfl
      · rw [if_neg hl, if_neg (fun hc => hl hc.2), ih (i + 1) s hs.2 hrest]
        simp [hdue]
    · rw [if_neg hdue, if_neg (fun hc => hdue hc.1)]
      have hnone : ∀ x ∈ rest, ¬ x.nextExecution ≤ T := by
        intro x hx hx2
        exact hdue (le_trans (hs.1 x hx) hx2)
      rw [tickBySpec_none_due T lock now186 rest (i + 1) s hnone]
      simp [hdue]

theorem tickBySpec_entries (T : Int) (lock : Nat → Bool) (now186 : Nat → Int)
    (es : List scheduleEntry) :
    ∀ (i : Nat) (s : ScheduleSafeImpl) (k : Nat) (e : scheduleEntry), es[k]? = some e →
      (tickBySpec T lock now186 i es s).1[k]? =
        some (if e.nextExecution ≤ T ∧ lock (i + k) = true
          then { e with nextExecution := e.cronSchedule.Next T } else e) := by
  induction es with
  | nil => intro i s k e h; simp at h
  | cons a rest ih =>
    intro i s k e h
    unfold tickBySpec
    cases k with
    | zero =>
      simp only [List.getElem?_cons_zero, Option.some.injEq] at h
      subst h
      by_cases hc : a.nextExecution ≤ T ∧ lock i = true
      · simp [hc]
      · simp [hc]
    | succ k =>
      simp only [List.getElem?_cons_succ] at h
      have hk : i + (k + 1) = i + 1 + k := by omega
      by_cases hc : a.nextExecution ≤ T ∧ lock i = true
      · rw [if_pos hc]
        simp only [List.getElem?_cons_succ]
        rw [ih (i + 1) _ k e h, hk]
      · rw [if_neg hc]
        simp only [List.getElem?_cons_succ]
        rw [ih (i + 1) _ k e h, hk]

/-- C19: in one pass of the timer case that wakes at `T`, with the entries
sorted ascending by `nextExecution` (and, as `ScheduleJob` ensures, a handler
registered under the job name of every entry), the code does what the
specification words entry by entry (`tickBySpec`): every entry with
`nextExecution ≤ T` gets a lock attempt; each of them whose lock is acquired
has its handler invoked with `(T, jobName, cronSpec)`, its `nextExecution` set
to `cronSchedule.Next T` and that value written to its register; every entry
with `nextExecution > T` and every due entry whose lock is busy is left
unchanged. -/
theorem tick_fires_due_entries (s : ScheduleSafeImpl) (T : Int) (lock : Nat → Bool)
    (now186 : Nat → Int)
    (hsorted : s.scheduleEntries.Pairwise (fun a b => a.nextExecution ≤ b.nextExecution))
    (hreg : ∀ e ∈ s.scheduleEntries, (s.handlers e.jobName).isSome = true) :
    (tick s T lock now186).1.scheduleEntries =
        (tickBySpec T lock now186 0 s.scheduleEntries s).1 ∧
      (tick s T lock now186).1.redisClient =
        (tickBySpec T lock now186 0 s.scheduleEntries s).2.1.redisClient ∧
      (tick s T lock now186).2 = (tickBySpec T lock now186 0 s.scheduleEntries s).2.2 ∧
      ∀ (k : Nat) (e : scheduleEntry), s.scheduleEntries[k]? = some e →
        (tick s T lock now186).1.scheduleEntries[k]? =
          some (if e.nextExecution ≤ T ∧ lock k = true
            then { e with nextExecution := e.cronSchedule.Next T } else e) := by
  have h := tickLoop_eq_tickBySpec T lock now186 s.scheduleEntries 0 s hsorted hreg
  unfold tick
  rw [h]
  refine ⟨rfl, rfl, rfl, ?_⟩
  intro k e hk
  have := tickBySpec_entries T lock now186 s.scheduleEntries 0 s k e hk
  rw [Nat.zero_add] at this
  exact this

theorem tick_fires_due_entries_witness :
    (tick (ScheduleJob exampleParse (freshScheduler (fun _ => none)) 3000 3000 "hourly"
        "0 * * * *" exampleHandler).2 3600 (fun _ => true) (fun _ => 3600)).2 =
      [SchedEffect.lock "handlerMutex:hourly-MCAqICogKiAq",
       SchedEffect.invoke 3600 "hourly" "0 * * * *" "hourly",
       SchedEffect.set "scheduler:hourly-MCAqICogKiAq" "7200" (3600 * Second)] := by
  rw [(tick_fires_due_entries
    (ScheduleJob exampleParse (freshScheduler (fun _ => none)) 3000 3000 "hourly"
        "0 * * * *" exampleHandler).2 3600 (fun _ => true) (fun _ => 3600)
    (by decide) (by decide)).2.2.1]
  decide

theorem ScheduleJob_keeps_handlers_registered
    (ParseStandard : String → Except String Schedule) (s : ScheduleSafeImpl)
    (now97 now186 : Int) (jobName cronSpec : String) (handler : ScheduleHandler)
    (hreg : ∀ e ∈ s.scheduleEntries, (s.handlers e.jobName).isSome = true) :
    ∀ e ∈ (ScheduleJob ParseStandard s now97 now186 jobName cronSpec handler).2.scheduleEntries,
      ((ScheduleJob ParseStandard s now97 now186 jobName cronSpec handler).2.handlers
        e.jobName).isSome = true := by
  unfold ScheduleJob
  by_cases hr : s.running = true
  · rw [if_pos hr]; exact hreg
  · rw [if_neg hr]
    cases hp : ParseStandard cronSpec with
    | error err => exact hreg
    | ok schedule =>
      dsimp only
      have key : ∀ (entry : scheduleEntry), entry.jobName = jobName →
          ∀ e ∈ s.scheduleEntries ++ [entry],
            ((fun n => if n = jobName then some handler else s.handlers n) e.jobName).isSome
              = true := by
        intro entry hentry e he
        rcases List.mem_append.mp he with h | h
        · by_cases hn : e.jobName = jobName
          · simp [hn]
          · simp [hn, hreg e h]
        · rw [List.mem_singleton] at h
          subst h
          simp [hentry]
      cases hret : retrieveNextExecutionTime s jobName cronSpec with
      | ok nextExec => exact key _ rfl
      | error e => exact key _ rfl

/-! ## Scheduler keys -/

set_option maxRecDepth 100000 in
theorem cronAlphabet_bytes :
    ∀ ch ∈ cronAlphabet, ∀ b ∈ (String.utf8EncodeChar ch).map UInt8.toNat, b % 64 ≠ 62 := by
  decide

theorem cronAlphabet_dashFree (cronSpec : String)
    (h : ∀ ch ∈ cronSpec.data, ch ∈ cronAlphabet) : dashFree cronSpec := by
  intro b hb
  obtain ⟨ch, hch, hbc⟩ := List.mem_flatMap.mp hb
  exact cronAlphabet_bytes ch (h ch hch) b hbc

/-- The restriction on the bytes of the spec cannot be dropped for strings
that are not cron specs: `ab~` encodes to `YWJ-`, so `("job", "ab~")` and
`("job-YWJ", "")` would get the same keys.  `cron.ParseStandard` rejects both
specs, so `ScheduleJob` never builds these keys. -/
theorem keys_collide_outside_cron_specs :
    getSchedulerKey "job" "ab~" = getSchedulerKey "job-YWJ" "" ∧
      getMutexKey "job" "ab~" = getMutexKey "job-YWJ" "" ∧
      ("job", "ab~") ≠ ("job-YWJ", "") ∧ ¬ dashFree "ab~" := by
  decide

theorem Put_keys_nodup (l : localConnections) (key : String) (client : connection)
    (h : (l.connections.map (fun e => e.1)).Nodup) :
    ((l.Put key client).connections.map (fun e => e.1)).Nodup := by
  unfold localConnections.Put
  rw [List.map_cons, List.nodup_cons]
  constructor
  · intro hmem
    obtain ⟨e, he, hk⟩ := List.mem_map.mp hmem
    have := (List.mem_filter.mp he).2
    simp at this
    exact this hk
  · exact (h.sublist ((List.filter_sublist _).map _))

/-! ## Handlers of a sequence of `ScheduleJob` calls -/

theorem ScheduleJob_succeeded (ParseStandard : String → Except String Schedule)
    (s : ScheduleSafeImpl) (now97 now186 : Int) (jobName cronSpec : String)
    (handler : ScheduleHandler)
    (hok : succeeded (ScheduleJob ParseStandard s now97 now186 jobName cronSpec handler).1
      = true) :
    (ScheduleJob ParseStandard s now97 now186 jobName cronSpec handler).2.handlers =
        (fun n => if n = jobName then some handler else s.handlers n) ∧
      (ScheduleJob ParseStandard s now97 now186 jobName cronSpec handler).2.scheduleEntries.map
          (fun e => (e.jobName, e.cronSpec)) =
        s.scheduleEntries.map (fun e => (e.jobName, e.cronSpec)) ++ [(jobName, cronSpec)] := by
  unfold ScheduleJob at hok ⊢
  by_cases hr : s.running = true
  · rw [if_pos hr] at hok; exact absurd hok (by simp [succeeded])
  · rw [if_neg hr] at hok ⊢
    cases hp : ParseStandard cronSpec with
    | error err => rw [hp] at hok; exact absurd hok (by simp [succeeded])
    | ok schedule =>
      dsimp only
      cases hret : retrieveNextExecutionTime s jobName cronSpec with
      | ok nextExec => exact ⟨rfl, by simp⟩
      | error e => exact ⟨rfl, by simp [updateNextExecutionTime]⟩

theorem scheduleCalls_handlers (ParseStandard : String → Except String Schedule)
    (calls : List ScheduleCall) (jobName : String) :
    ∀ s : ScheduleSafeImpl, callsSucceed ParseStandard s calls = true →
      (scheduleCalls ParseStandard s calls).handlers jobName =
        match lastHandler calls jobName with
        | some h => some h
        | none => s.handlers jobName := by
  induction calls with
  | nil => intro s _; rfl
  | cons c rest ih =>
    intro s hok
    rw [callsSucceed, Bool.and_eq_true] at hok
    rw [scheduleCalls, ih _ hok.2, lastHandler]
    cases hl : lastHandler rest jobName with
    | some h => rfl
    | none =>
      dsimp only
      rw [(ScheduleJob_succeeded ParseStandard s c.now97 c.now186 c.jobName c.cronSpec
        c.handler hok.1).1]
      by_cases hj : c.jobName = jobName
      · simp [hj]
      · have hj' : ¬ jobName = c.jobName := fun h => hj h.symm
        simp [hj, hj']

theorem scheduleCalls_entries (ParseStandard : String → Except String Schedule)
    (calls : List ScheduleCall) :
    ∀ s : ScheduleSafeImpl, callsSucceed ParseStandard s calls = true →
      (scheduleCalls ParseStandard s calls).scheduleEntries.map
          (fun e => (e.jobName, e.cronSpec)) =
        s.scheduleEntries.map (fun e => (e.jobName, e.cronSpec)) ++
          calls.map (fun c => (c.jobName, c.cronSpec)) := by
  induction calls with
  | nil => intro s _; simp [scheduleCalls]
  | cons c rest ih =>
    intro s hok
    rw [callsSucceed, Bool.and_eq_true] at hok
    rw [scheduleCalls, ih _ hok.2,
      (ScheduleJob_succeeded ParseStandard s c.now97 c.now186 c.jobName c.cronSpec
        c.handler hok.1).2]
    simp

theorem lastHandler_some (calls : List ScheduleCall) (jobName : String) (h : ScheduleHandler)
    (hl : lastHandler calls jobName = some h) :
    ∃ pre call post, calls = pre ++ call :: post ∧ call.jobName = jobName ∧
      call.handler = h ∧ ∀ d ∈ post, d.jobName ≠ jobName := by
  induction calls with
  | nil => exact absurd hl (by simp [lastHandler])
  | cons c rest ih =>
    rw [lastHandler] at hl
    cases hr : lastHandler rest jobName with
    | some h' =>
      rw [hr] at hl
      obtain ⟨pre, call, post, hc, hj, hh, hp⟩ := ih (hr.trans hl)
      exact ⟨c :: pre, call, post, by rw [hc]; rfl, hj, hh, hp⟩
    | none =>
      rw [hr] at hl
      dsimp only at hl
      by_cases hj : c.jobName = jobName
      · rw [if_pos hj] at hl
        refine ⟨[], c, rest, rfl, hj, Option.some.inj hl, ?_⟩
        intro d hd hdj
        have : ∀ l : List ScheduleCall, d ∈ l → lastHandler l jobName ≠ none := by
          intro l
          induction l with
          | nil => intro hm; exact absurd hm (List.not_mem_nil d)
          | cons x xs ihx =>
            intro hm
            rw [lastHandler]
            cases hx : lastHandler xs jobName with
            | some _ => simp
            | none =>
              rcases List.mem_cons.mp hm with hm | hm
              · subst hm; simp [hdj]
              · exact absurd hx (ihx hm)
        exact this rest hd hr
      · rw [if_neg hj] at hl
        exact absurd hl (by simp)

theorem updateNextExecutionTime_handlers (s : ScheduleSafeImpl) (entry : scheduleEntry)
    (now186 : Int) : (updateNextExecutionTime s entry now186).2.handlers = s.handlers := rfl

theorem tickLoop_invoke (T : Int) (lock : Nat → Bool) (now186 : Nat → Int)
    (es : List scheduleEntry) :
    ∀ (i : Nat) (s : ScheduleSafeImpl) (t : Int) (j c out : String),
      SchedEffect.invoke t j c out ∈ (tickLoop T lock now186 i es s).2.2 →
        t = T ∧ (∃ e ∈ es, e.jobName = j ∧ e.cronSpec = c) ∧
          ∃ h, s.handlers j = some h ∧ out = h T j c := by
  induction es with
  | nil => intro i s t j c out hm; simp [tickLoop] at hm
  | cons entry rest ih =>
    intro i s t j c out hm
    have lift : ∀ (s' : ScheduleSafeImpl) (k : Nat), s'.handlers = s.handlers →
        SchedEffect.invoke t j c out ∈ (tickLoop T lock now186 k rest s').2.2 →
        t = T ∧ (∃ e ∈ entry :: rest, e.jobName = j ∧ e.cronSpec = c) ∧
          ∃ h, s.handlers j = some h ∧ out = h T j c := by
      intro s' k hs hmem
      obtain ⟨ht, ⟨e, he, hej⟩, hh⟩ := ih k s' t j c out hmem
      rw [hs] at hh
      exact ⟨ht, ⟨e, List.mem_cons_of_mem _ he, hej⟩, hh⟩
    rw [tickLoop] at hm
    by_cases hdue : entry.nextExecution ≤ T
    · rw [if_pos hdue] at hm
      cases hh : s.handlers entry.jobName with
      | none =>
        rw [hh] at hm
        exact lift s (i + 1) rfl hm
      | some handler =>
        rw [hh] at hm
        dsimp only at hm
        by_cases hl : lock i = true
        · rw [if_pos hl] at hm
          dsimp only at hm
          rcases List.mem_cons.mp hm with hm | hm
          · exact absurd hm (by simp)
          · rcases List.mem_cons.mp hm with hm | hm
            · injection hm with h1 h2 h3 h4
              subst h1 h2 h3
              exact ⟨rfl, ⟨entry, List.mem_cons_self _ _, rfl, rfl⟩, handler, hh, h4⟩
            · rcases List.mem_cons.mp hm with hm | hm
              · exact absurd hm (by simp)
              · refine lift _ (i + 1) ?_ hm
                rfl
        · rw [if_neg hl] at hm
          dsimp only at hm
          rcases List.mem_cons.mp hm with hm | hm
          · exact absurd hm (by simp)
          · exact lift s (i + 1) rfl hm
    · rw [if_neg hdue] at hm
      simp at hm

/-- C21 (amended): after any sequence of successful `ScheduleJob` calls on a
new scheduler, in every later state `s` of that scheduler (same handler
registry, entries for pairs the calls created, whatever their next execution
and order), every handler invocation of a tick at `T` is for an entry `(j, c)`
that one of the calls created, and the handler invoked is the one passed to
the last call of the sequence whose job name is `j`, called with `(T, j, c)`. -/
theorem fired_handler_is_last_registered
    (ParseStandard : String → Except String Schedule) (store : RedisStore)
    (calls : List ScheduleCall) (s : ScheduleSafeImpl) (T : Int) (lock : Nat → Bool)
    (now186 : Nat → Int)
    (hok : callsSucceed ParseStandard (freshScheduler store) calls = true)
    (hhandlers : s.handlers =
      (scheduleCalls ParseStandard (freshScheduler store) calls).handlers)
    (hentries : ∀ e ∈ s.scheduleEntries, (e.jobName, e.cronSpec) ∈
      (scheduleCalls ParseStandard (freshScheduler store) calls).scheduleEntries.map
        (fun e => (e.jobName, e.cronSpec))) :
    ∀ (t : Int) (j c out : String),
      SchedEffect.invoke t j c out ∈ (tick s T lock now186).2 →
        t = T ∧ (∃ created ∈ calls, created.jobName = j ∧ created.cronSpec = c) ∧
          ∃ pre call post, calls = pre ++ call :: post ∧ call.jobName = j ∧
            (∀ d ∈ post, d.jobName ≠ j) ∧ out = call.handler T j c := by
  intro t j c out hm
  obtain ⟨ht, ⟨e, he, hej, hec⟩, h, hh, hout⟩ :=
    tickLoop_invoke T lock now186 _ 0 _ t j c out hm
  refine ⟨ht, ?_, ?_⟩
  · have hmem := hentries e he
    rw [scheduleCalls_entries ParseStandard calls _ hok] at hmem
    simp only [freshScheduler, List.map_nil, List.nil_append, List.mem_map] at hmem
    obtain ⟨created, hc, hpair⟩ := hmem
    injection hpair with h1 h2
    exact ⟨created, hc, h1.trans hej, h2.trans hec⟩
  · rw [hhandlers, scheduleCalls_handlers ParseStandard calls j _ hok] at hh
    cases hl : lastHandler calls j with
    | none => rw [hl] at hh; exact absurd hh (by simp [freshScheduler])
    | some h' =>
      rw [hl] at hh
      obtain ⟨pre, call, post, hc, hj, hhand, hpost⟩ := lastHandler_some calls j h' hl
      refine ⟨pre, call, post, hc, hj, hpost, ?_⟩
      rw [hout, hhand]
      exact congrArg (fun f => f T j c) (Option.some.inj hh).symm

set_option maxRecDepth 100000 in
theorem fired_handler_is_last_registered_witness :
    callsSucceed twoSpecParse (freshScheduler (fun _ => none)) twoNameCalls = true ∧
      SchedEffect.invoke 3600 "report" "0 * * * *" "first" ∈
        (tick
          (refreshScheduleEntries
            (scheduleCalls twoSpecParse (freshScheduler (fun _ => none)) twoNameCalls))
          3600 (fun _ => true) (fun _ => 3600)).2 ∧
      ∃ pre call post, twoNameCalls = pre ++ call :: post ∧ call.jobName = "report" ∧
        (∀ d ∈ post, d.jobName ≠ "report") ∧ "first" = call.handler 3600 "report" "0 * * * *" :=
  ⟨by decide, by decide,
    (fired_handler_is_last_registered twoSpecParse (fun _ => none) twoNameCalls
      (refreshScheduleEntries
        (scheduleCalls twoSpecParse (freshScheduler (fun _ => none)) twoNameCalls))
      3600 (fun _ => true) (fun _ => 3600) (by decide) rfl (by decide)
      3600 "report" "0 * * * *" "first" (by decide)).2.2⟩

set_option maxRecDepth 100000 in
/-- C21 as stated fails: `ScheduleJob("report", "0 * * * *", firstHandler)`
then `ScheduleJob("report", "30 * * * *", secondHandler)` at Unix time 3000
both succeed and create two entries; when the first entry fires at 3600, the
handler invoked is `secondHandler`, not the handler of the call that created
the entry. -/
theorem same_name_entry_runs_later_handler :
    callsSucceed twoSpecParse (freshScheduler (fun _ => none)) sameNameCalls = true ∧
      (scheduleCalls twoSpecParse (freshScheduler (fun _ => none)) sameNameCalls).scheduleEntries.map
          (fun e => (e.jobName, e.cronSpec, e.nextExecution)) =
        [("report", "0 * * * *", 3600), ("report", "30 * * * *", 5400)] ∧
      (tick (scheduleCalls twoSpecParse (freshScheduler (fun _ => none)) sameNameCalls)
          3600 (fun _ => true) (fun _ => 3600)).2 =
        [SchedEffect.lock (getMutexKey "report" "0 * * * *"),
         SchedEffect.invoke 3600 "report" "0 * * * *" "second",
         SchedEffect.set (getSchedulerKey "report" "0 * * * *") "7200" (3600 * Second)] ∧
      firstHandler 3600 "report" "0 * * * *" = "first" := by
  refine ⟨by decide, by decide, by decide, rfl⟩
/-! ## Refresh of the entries from the registers -/

theorem refreshScheduleEntries_entry (s : ScheduleSafeImpl) (i : Nat) (e : scheduleEntry)
    (he : s.scheduleEntries[i]? = some e) :
    ∃ e', (refreshScheduleEntries s).scheduleEntries[i]? = some e' ∧
      e'.jobName = e.jobName ∧ e'.cronSpec = e.cronSpec ∧
      (∀ v, retrieveNextExecutionTime s e.jobName e.cronSpec = Except.ok v →
        e'.nextExecution = v) ∧
      (s.redisClient (getSchedulerKey e.jobName e.cronSpec) = none → e' = e) ∧
      (∀ res, s.redisClient (getSchedulerKey e.jobName e.cronSpec) = some res →
        e'.nextExecution = stringToInt64 res.value) := by
  unfold refreshScheduleEntries
  dsimp only
  rw [List.getElem?_map, he]
  refine ⟨_, rfl, ?_⟩
  unfold retrieveNextExecutionTime
  dsimp only
  cases hk : s.redisClient (getSchedulerKey e.jobName e.cronSpec) with
  | none =>
    refine ⟨rfl, rfl, ?_, fun _ => rfl, ?_⟩
    · intro v hv; exact absurd hv (by simp)
    · intro res hres; exact absurd hres (by simp)
  | some res =>
    refine ⟨rfl, rfl, ?_, ?_, ?_⟩
    · intro v hv
      dsimp only at hv ⊢
      by_cases hz : stringToInt64 res.value = 0
      · rw [if_pos hz] at hv; exact absurd hv (by simp)
      · rw [if_neg hz] at hv
        injection hv
    · intro h; exact absurd h (by simp)
    · intro res' hres
      injection hres with hres
      rw [hres]

set_option maxRecDepth 100000 in
/-- C22 fails on the code: the register of the entry `("hourly", "0 * * * *")`,
whose next execution is 3600, holds `0`, or holds `soon`, which is not a
decimal integer.  `retrieveNextExecutionTime` returns an error for both, yet
`refreshScheduleEntries` does not leave the entry unchanged: it sets the next
execution to Unix time 0, so that a tick at Unix time 1000 runs the handler. -/
theorem refresh_adopts_zero_register :
    (hourlyScheduler (registerStore "0")).scheduleEntries.map (fun e => e.nextExecution)
        = [3600] ∧
      retrieveNextExecutionTime (hourlyScheduler (registerStore "0")) "hourly" "0 * * * *" =
        Except.error "next duration time is zero" ∧
      (refreshScheduleEntries (hourlyScheduler (registerStore "0"))).scheduleEntries.map
          (fun e => e.nextExecution) = [0] ∧
      retrieveNextExecutionTime (hourlyScheduler (registerStore "soon")) "hourly" "0 * * * *" =
        Except.error "next duration time is zero" ∧
      (refreshScheduleEntries (hourlyScheduler (registerStore "soon"))).scheduleEntries.map
          (fun e => e.nextExecution) = [0] ∧
      (tick (refreshScheduleEntries (hourlyScheduler (registerStore "0"))) 1000
          (fun _ => true) (fun _ => 1000)).2 =
        [SchedEffect.lock (getMutexKey "hourly" "0 * * * *"),
         SchedEffect.invoke 1000 "hourly" "0 * * * *" "hourly",
         SchedEffect.set (getSchedulerKey "hourly" "0 * * * *") "3600" (2600 * Second)] := by
  refine ⟨by decide, ?_, by decide, ?_, by decide, by decide⟩
  · have h : (hourlyScheduler (registerStore "0")).redisClient
        (getSchedulerKey "hourly" "0 * * * *") =
          some { value := "0", ttl := some (3600 * Second) } := by decide
    unfold retrieveNextExecutionTime
    dsimp only
    rw [h]
    rfl
  · have h : (hourlyScheduler (registerStore "soon")).redisClient
        (getSchedulerKey "hourly" "0 * * * *") =
          some { value := "soon", ttl := some (3600 * Second) } := by decide
    unfold retrieveNextExecutionTime
    dsimp only
    rw [h]
    rfl

/-! ## End of a read loop -/

theorem Get_Remove_ne (l : localConnections) (key other : String) (h : other ≠ key) :
    (l.Remove key).Get other = l.Get other := by
  unfold localConnections.Remove localConnections.Get
  dsimp only
  congr 1
  induction l.connections with
  | nil => rfl
  | cons e es ih =>
    rcases e with ⟨k, c⟩
    by_cases he : k = key
    · subst he
      have hne : ¬ k = other := fun h' => h h'.symm
      simp [List.filter_cons, List.find?_cons, hne, ih]
    · by_cases ho : k = other
      · subst ho
        simp [List.filter_cons, he, List.find?_cons]
      · simp [List.filter_cons, he, List.find?_cons, ho, ih]

theorem Get_Remove_self (l : localConnections) (key : String) :
    (l.Remove key).Get key = none := by
  unfold localConnections.Remove localConnections.Get
  dsimp only
  simp [List.find?_eq_none]

theorem readLoopError_of_current (m : messengerImpl) (store : HashStore) (client : connection)
    (hcur : m.localConnections.Get client.clientID = some client) :
    (readLoopError m store client).2.2 = [client.socket] ∧
      (readLoopError m store client).1.localConnections.Get client.clientID = none ∧
      ∀ other, other ≠ client.clientID →
        (readLoopError m store client).1.localConnections.Get other =
          m.localConnections.Get other := by
  unfold readLoopError removeClient
  dsimp only
  rw [hcur]
  exact ⟨rfl, Get_Remove_self _ _, fun other h => Get_Remove_ne _ _ _ h⟩

set_option maxRecDepth 100000 in
/-- C23 fails on the code: on replica `server-1`, `alice` is attached with
socket 7, then attached again with socket 8; then the read loop of the first
connection ends on a read error.  The table entry, which refers to the second
connection, is removed, `Close` is called on socket 8 and not on socket 7,
and the directory entry of `alice` is deleted. -/
theorem read_error_after_reattach_closes_new_socket :
    ((AddClient (AddClient (newMessenger "server-1") emptyHashes "alice" 7).1
        (AddClient (newMessenger "server-1") emptyHashes "alice" 7).2 "alice"
        8).1.localConnections.Get "alice" = some { socket := 8, clientID := "alice" }) ∧
      (readLoopError
        (AddClient (AddClient (newMessenger "server-1") emptyHashes "alice" 7).1
          (AddClient (newMessenger "server-1") emptyHashes "alice" 7).2 "alice" 8).1
        (AddClient (AddClient (newMessenger "server-1") emptyHashes "alice" 7).1
          (AddClient (newMessenger "server-1") emptyHashes "alice" 7).2 "alice" 8).2
        { socket := 7, clientID := "alice" }).2.2 = [8] ∧
      (readLoopError
        (AddClient (AddClient (newMessenger "server-1") emptyHashes "alice" 7).1
          (AddClient (newMessenger "server-1") emptyHashes "alice" 7).2 "alice" 8).1
        (AddClient (AddClient (newMessenger "server-1") emptyHashes "alice" 7).1
          (AddClient (newMessenger "server-1") emptyHashes "alice" 7).2 "alice" 8).2
        { socket := 7, clientID := "alice" }).1.localConnections.connections = [] ∧
      (globalConnectionInfoGet
        (AddClient (AddClient (newMessenger "server-1") emptyHashes "alice" 7).1
          (AddClient (newMessenger "server-1") emptyHashes "alice" 7).2 "alice" 8).2
        "alice" = Except.ok { clientID := "alice", serverID := "server-1" }) ∧
      globalConnectionInfoGet
        (readLoopError
          (AddClient (AddClient (newMessenger "server-1") emptyHashes "alice" 7).1
            (AddClient (newMessenger "server-1") emptyHashes "alice" 7).2 "alice" 8).1
          (AddClient (AddClient (newMessenger "server-1") emptyHashes "alice" 7).1
            (AddClient (newMessenger "server-1") emptyHashes "alice" 7).2 "alice" 8).2
          { socket := 7, clientID := "alice" }).2.1
        "alice" = Except.error "client info alice not found" := by
  refine ⟨by decide, by decide, by decide, ?_, ?_⟩
  · rfl
  · rfl

/-! ## JSON text -/

theorem skipWS_cons (c : Char) (rest : List Char)
    (h : ¬ (c = ' ' ∨ c = '\t' ∨ c = '\r' ∨ c = '\n')) : skipWS (c :: rest) = c :: rest := by
  rw [skipWS, if_neg h]

set_option maxRecDepth 100000 in
theorem hexValue_hexDigit : ∀ n, n < 16 → hexValue (hexDigit n) = some n := by
  decide

theorem hex4_small (n : Nat) (hn : n < 256) (tl : List Char) :
    hex4 ('0' :: '0' :: hexDigit (n / 16) :: hexDigit (n % 16) :: tl) = some (n, tl) := by
  have h1 := hexValue_hexDigit (n / 16) (by omega)
  have h2 := hexValue_hexDigit (n % 16) (by omega)
  have h0 : hexValue '0' = some 0 := by decide
  simp only [hex4, h0, h1, h2]
  congr 2
  omega

theorem Char_ofNat_toNat (c : Char) : Char.ofNat c.toNat = c := by
  have h : c.toNat.isValidChar := c.valid
  unfold Char.ofNat
  rw [dif_pos h]
  rfl

theorem unescape_small (c : Char) (hc : c.toNat < 256) (tl : List Char) :
    unescape ('u' :: '0' :: '0' :: hexDigit (c.toNat / 16) :: hexDigit (c.toNat % 16) :: tl) =
      some (c, tl) := by
  have h4 := hex4_small c.toNat hc tl
  simp only [unescape, h4]
  have hs : ¬ (55296 ≤ c.toNat ∧ c.toNat < 57344) := by omega
  simp [hs, Char_ofNat_toNat]

theorem parseString_step (c : Char) (tl : List Char) (fuel : Nat) :
    parseString (fuel + 1) (escapeChar c ++ tl) =
      (parseString fuel tl).map (fun r => (c :: r.1, r.2)) := by
  unfold escapeChar
  by_cases h1 : c = '"'
  · subst h1; simp [parseString, unescape]
  rw [if_neg h1]
  by_cases h2 : c = '\\'
  · subst h2; simp [parseString, unescape]
  rw [if_neg h2]
  by_cases h3 : c = '\n'
  · subst h3; simp [parseString, unescape]
  rw [if_neg h3]
  by_cases h4 : c = '\r'
  · subst h4; simp [parseString, unescape]
  rw [if_neg h4]
  by_cases h5 : c = '\t'
  · subst h5; simp [parseString, unescape]
  rw [if_neg h5]
  by_cases h6 : c.toNat < 32 ∨ c = '<' ∨ c = '>' ∨ c = '&'
  · rw [if_pos h6]
    have hc : c.toNat < 256 := by
      rcases h6 with h | h | h | h
      · omega
      · subst h; decide
      · subst h; decide
      · subst h; decide
    have hu := unescape_small c hc tl
    show parseString (fuel + 1)
      ('\\' :: 'u' :: '0' :: '0' :: hexDigit (c.toNat / 16) :: hexDigit (c.toNat % 16) :: tl) = _
    rw [parseString, if_neg (by decide), if_pos rfl, hu]
  rw [if_neg h6]
  by_cases h7 : c = '\u2028'
  · subst h7
    show parseString (fuel + 1) ('\\' :: 'u' :: '2' :: '0' :: '2' :: '8' :: tl) = _
    rw [parseString, if_neg (by decide), if_pos rfl]
    rfl
  rw [if_neg h7]
  by_cases h8 : c = '\u2029'
  · subst h8
    show parseString (fuel + 1) ('\\' :: 'u' :: '2' :: '0' :: '2' :: '9' :: tl) = _
    rw [parseString, if_neg (by decide), if_pos rfl]
    rfl
  rw [if_neg h8]
  have h9 : ¬ c.toNat < 32 := fun h => h6 (Or.inl h)
  show parseString (fuel + 1) (c :: tl) = _
  rw [parseString, if_neg h1, if_neg h2, if_neg h9]

theorem parseString_escape (s : List Char) : ∀ (rest : List Char) (fuel : Nat),
    s.length + 1 ≤ fuel → parseString fuel (escape s ++ '"' :: rest) = some (s, rest) := by
  induction s with
  | nil =>
    intro rest fuel hf
    obtain ⟨f, rfl⟩ : ∃ f, fuel = f + 1 := ⟨fuel - 1, by simp at hf; omega⟩
    simp [escape, parseString]
  | cons c s ih =>
    intro rest fuel hf
    obtain ⟨f, rfl⟩ : ∃ f, fuel = f + 1 := ⟨fuel - 1, by simp at hf; omega⟩
    have he : escape (c :: s) ++ '"' :: rest = escapeChar c ++ (escape s ++ '"' :: rest) := by
      simp [escape]
    rw [he, parseString_step, ih rest f (by simp at hf; omega)]
    rfl

theorem escapeChar_length (c : Char) : 1 ≤ (escapeChar c).length := by
  unfold escapeChar
  split_ifs <;> simp

theorem escape_length (s : List Char) : s.length ≤ (escape s).length := by
  induction s with
  | nil => simp [escape]
  | cons c s ih =>
    have h := escapeChar_length c
    simp only [escape, List.flatMap_cons, List.length_append, List.length_cons] at ih ⊢
    omega

theorem parseString_render (s rest : List Char) :
    parseString (escape s ++ '"' :: rest).length (escape s ++ '"' :: rest) = some (s, rest) := by
  apply parseString_escape
  have h := escape_length s
  simp only [List.length_append, List.length_cons]
  omega

theorem numStep_delimiter (st : NumState) (c : Char) (h : delimiter c) : numStep st c = none := by
  rcases h with h | h | h <;> subst h <;> cases st <;> decide

theorem scanNumber_append (literal : List Char) : ∀ (st : NumState) (rest : List Char),
    scanNumber st literal = some (literal, []) → delimited rest →
      scanNumber st (literal ++ rest) = some (literal, rest) := by
  induction literal with
  | nil =>
    intro st rest h hd
    cases rest with
    | nil => exact h
    | cons c tl =>
      have hacc : st.accepting = true := by
        simp only [scanNumber] at h
        by_contra hn
        simp [hn] at h
      simp only [List.nil_append, scanNumber, numStep_delimiter st c hd, hacc, if_true]
  | cons d lit ih =>
    intro st rest h hd
    simp only [List.cons_append, scanNumber] at h ⊢
    cases hs : numStep st d with
    | none =>
      rw [hs] at h
      simp only at h
      split_ifs at h
      simp at h
    | some st1 =>
      rw [hs] at h
      simp only at h ⊢
      cases hr : scanNumber st1 lit with
      | none => rw [hr] at h; simp at h
      | some r =>
        rw [hr] at h
        simp only [Option.map_some', Option.some.injEq, Prod.mk.injEq, List.cons.injEq,
          true_and] at h
        have hr' : scanNumber st1 lit = some (lit, []) := by
          rw [hr]
          congr 1
          exact Prod.ext h.1 h.2
        show Option.map (fun r => (d :: r.1, r.2)) (scanNumber st1 (lit ++ rest)) = _
        rw [ih st1 rest hr' hd]
        rfl

theorem startsValue_facts (c : Char) (h : startsValue c) :
    ¬ (c = ' ' ∨ c = '\t' ∨ c = '\r' ∨ c = '\n') ∧ c ≠ ']' ∧ c ≠ '\x7d' := by
  rcases h with h | h | h | h | h | h | h | h
  · subst h; decide
  · subst h; decide
  · subst h; decide
  · subst h; decide
  · subst h; decide
  · subst h; decide
  · subst h; decide
  · refine ⟨?_, ?_, ?_⟩
    · rintro (h1 | h1 | h1 | h1) <;> subst h1 <;> exact absurd h (by decide)
    · intro h1; subst h1; exact absurd h (by decide)
    · intro h1; subst h1; exact absurd h (by decide)

theorem validNumber_head (literal : List Char) (h : validNumber literal = true) :
    ∃ d tl, literal = d :: tl ∧ (d = '-' ∨ d.isDigit = true) := by
  unfold validNumber at h
  have h' := of_decide_eq_true h
  cases literal with
  | nil => simp [scanNumber, NumState.accepting] at h'
  | cons d tl =>
    refine ⟨d, tl, rfl, ?_⟩
    simp only [scanNumber] at h'
    cases hs : numStep NumState.start d with
    | none => rw [hs] at h'; simp [NumState.accepting] at h'
    | some st =>
      simp only [numStep] at hs
      by_cases h1 : d = '-'
      · exact Or.inl h1
      · by_cases h2 : d = '0'
        · subst h2; exact Or.inr (by decide)
        · rw [if_neg h1, if_neg h2] at hs
          by_cases h3 : d.isDigit = true
          · exact Or.inr h3
          · rw [if_neg h3] at hs; simp at hs

theorem render_head (j : JSON) (hw : wfJSON j = true) :
    ∃ c tl, render j = c :: tl ∧ startsValue c := by
  cases j with
  | null => exact ⟨'n', _, by rw [render], by simp [startsValue]⟩
  | bool b =>
    cases b
    · exact ⟨'f', _, by rw [render], by simp [startsValue]⟩
    · exact ⟨'t', _, by rw [render], by simp [startsValue]⟩
  | number literal =>
    simp only [wfJSON] at hw
    obtain ⟨d, tl, hl, hd⟩ := validNumber_head literal hw
    refine ⟨d, tl, by simp [render, hl], ?_⟩
    rcases hd with hd | hd
    · simp [startsValue, hd]
    · simp [startsValue, hd]
  | string s => exact ⟨'"', _, by rw [render], by simp [startsValue]⟩
  | array elems => exact ⟨'[', _, by rw [render], by simp [startsValue]⟩
  | object members => exact ⟨'\x7b', _, by rw [render], by simp [startsValue]⟩

theorem skipWS_delimited (rest : List Char) (tl : List Char) (c : Char)
    (h : rest = c :: tl) (hc : delimiter c) : skipWS rest = c :: tl := by
  subst h
  apply skipWS_cons
  rcases hc with h | h | h <;> subst h <;> decide

theorem parseValue_number (literal rest : List Char) (depth fuel : Nat)
    (hw : validNumber literal = true) (hd : delimited rest) :
    parseValue depth (fuel + 1) (literal ++ rest) = some (JSON.number literal, rest) := by
  obtain ⟨d, tl, hl, hdig⟩ := validNumber_head literal hw
  have hsc := scanNumber_append literal NumState.start rest (of_decide_eq_true hw) hd
  subst hl
  have hsv : startsValue d := by
    rcases hdig with h | h
    · simp [startsValue, h]
    · simp [startsValue, h]
  have hws := (startsValue_facts d hsv).1
  have hne : d ≠ '"' ∧ d ≠ '[' ∧ d ≠ '\x7b' ∧ d ≠ 'n' ∧ d ≠ 't' ∧ d ≠ 'f' := by
    rcases hdig with h | h
    · subst h; decide
    · refine ⟨?_, ?_, ?_, ?_, ?_, ?_⟩ <;> (intro h1; subst h1; exact absurd h (by decide))
  show parseValue depth (fuel + 1) (d :: (tl ++ rest)) = _
  rw [parseValue, skipWS_cons d _ hws]
  simp only [if_neg hne.1, if_neg hne.2.1, if_neg hne.2.2.1, if_neg hne.2.2.2.1,
    if_neg hne.2.2.2.2.1, if_neg hne.2.2.2.2.2]
  show Option.map _ (scanNumber NumState.start ((d :: tl) ++ rest)) = _
  rw [hsc]
  rfl

theorem fuel_succ (n fuel : Nat) (h : n + 1 ≤ fuel) : ∃ f, fuel = f + 1 ∧ n ≤ f :=
  ⟨fuel - 1, by omega, by omega⟩

mutual
theorem parseValue_render : ∀ (j : JSON), wfJSON j = true →
    ∀ (depth fuel : Nat) (rest : List Char), depth + nesting j ≤ maxNestingDepth →
      need j ≤ fuel → delimited rest →
        parseValue depth fuel (render j ++ rest) = some (j, rest)
  | JSON.null, _, depth, fuel, rest, _, hf, _ => by
    obtain ⟨f, rfl, _⟩ := fuel_succ 0 fuel (by simpa [need] using hf)
    show parseValue depth (f + 1) ('n' :: 'u' :: 'l' :: 'l' :: rest) = _
    rw [parseValue, skipWS_cons _ _ (by decide)]
    rfl
  | JSON.bool true, _, depth, fuel, rest, _, hf, _ => by
    obtain ⟨f, rfl, _⟩ := fuel_succ 0 fuel (by simpa [need] using hf)
    show parseValue depth (f + 1) ('t' :: 'r' :: 'u' :: 'e' :: rest) = _
    rw [parseValue, skipWS_cons _ _ (by decide)]
    rfl
  | JSON.bool false, _, depth, fuel, rest, _, hf, _ => by
    obtain ⟨f, rfl, _⟩ := fuel_succ 0 fuel (by simpa [need] using hf)
    show parseValue depth (f + 1) ('f' :: 'a' :: 'l' :: 's' :: 'e' :: rest) = _
    rw [parseValue, skipWS_cons _ _ (by decide)]
    rfl
  | JSON.number literal, hw, depth, fuel, rest, _, hf, hd => by
    obtain ⟨f, rfl, _⟩ := fuel_succ 0 fuel (by simpa [need] using hf)
    exact parseValue_number literal rest depth f (by simpa [wfJSON] using hw) hd
  | JSON.string s, _, depth, fuel, rest, _, hf, _ => by
    obtain ⟨f, rfl, _⟩ := fuel_succ 0 fuel (by simpa [need] using hf)
    have ht : render (JSON.string s) ++ rest = '"' :: (escape s ++ '"' :: rest) := by
      simp [render]
    rw [ht, parseValue, skipWS_cons _ _ (by decide)]
    simp only [if_true]
    rw [parseString_render]
    rfl
  | JSON.array [], _, depth, fuel, rest, hn, hf, _ => by
    obtain ⟨f, rfl, _⟩ := fuel_succ 0 fuel (by simpa [need, needElems] using hf)
    have hdepth : ¬ maxNestingDepth ≤ depth := by
      rw [nesting] at hn; omega
    show parseValue depth (f + 1) ('[' :: ']' :: rest) = _
    rw [parseValue, skipWS_cons _ _ (by decide)]
    simp only [if_neg (show ¬ '[' = '"' by decide), if_true, if_neg hdepth]
    rw [skipWS_cons _ _ (by decide)]
    rfl
  | JSON.array (x :: xs), hw, depth, fuel, rest, hn, hf, _ => by
    obtain ⟨f, rfl, hf'⟩ := fuel_succ (needElems (x :: xs)) fuel (by
      rw [need] at hf; omega)
    have hdepth : ¬ maxNestingDepth ≤ depth := by
      rw [nesting] at hn; omega
    have hwx : wfJSON x = true := by
      simp only [wfJSON, wfElems, Bool.and_eq_true] at hw; exact hw.1
    have ih := parseElems_render (x :: xs) (by simpa [wfJSON] using hw) (by simp)
      (depth + 1) f rest (by rw [nesting] at hn; omega) hf'
    obtain ⟨c, tl, hc, hsv⟩ := render_head x hwx
    obtain ⟨hws, hnb, _⟩ := startsValue_facts c hsv
    have hhead : ∃ tl1, renderElems (x :: xs) ++ ']' :: rest = c :: tl1 := by
      cases xs with
      | nil => exact ⟨tl ++ ']' :: rest, by simp [renderElems, hc]⟩
      | cons y ys => exact ⟨tl ++ ',' :: (renderElems (y :: ys) ++ ']' :: rest), by
          simp [renderElems, hc]⟩
    obtain ⟨tl1, htl1⟩ := hhead
    have ht : render (JSON.array (x :: xs)) ++ rest =
        '[' :: (renderElems (x :: xs) ++ ']' :: rest) := by
      simp [render]
    rw [ht, parseValue, skipWS_cons _ _ (by decide)]
    simp only [if_neg (show ¬ '[' = '"' by decide), if_true, if_neg hdepth]
    rw [ih]
    rw [htl1, skipWS_cons _ _ hws]
    split
    · next heq =>
      injection heq with h1 _
      exact absurd h1 hnb
    · rfl
  | JSON.object [], _, depth, fuel, rest, hn, hf, _ => by
    obtain ⟨f, rfl, _⟩ := fuel_succ 0 fuel (by simpa [need, needMembers] using hf)
    have hdepth : ¬ maxNestingDepth ≤ depth := by
      rw [nesting] at hn; omega
    show parseValue depth (f + 1) ('\x7b' :: '\x7d' :: rest) = _
    rw [parseValue, skipWS_cons _ _ (by decide)]
    simp only [if_neg (show ¬ '\x7b' = '"' by decide), if_neg (show ¬ '\x7b' = '[' by decide),
      if_true, if_neg hdepth]
    rw [skipWS_cons _ _ (by decide)]
    rfl
  | JSON.object ((k, v) :: ms), hw, depth, fuel, rest, hn, hf, _ => by
    obtain ⟨f, rfl, hf'⟩ := fuel_succ (needMembers ((k, v) :: ms)) fuel (by
      rw [need] at hf; omega)
    have hdepth : ¬ maxNestingDepth ≤ depth := by
      rw [nesting] at hn; omega
    have ih := parseMembers_render ((k, v) :: ms) (by simpa [wfJSON] using hw) (by simp)
      (depth + 1) f rest (by rw [nesting] at hn; omega) hf'
    have hhead : ∃ tl1, renderMembers ((k, v) :: ms) ++ '\x7d' :: rest = '"' :: tl1 := by
      cases ms with
      | nil => exact ⟨_, by simp only [renderMembers]; rfl⟩
      | cons m ms1 => exact ⟨_, by simp only [renderMembers]; rfl⟩
    obtain ⟨tl1, htl1⟩ := hhead
    have ht : render (JSON.object ((k, v) :: ms)) ++ rest =
        '\x7b' :: (renderMembers ((k, v) :: ms) ++ '\x7d' :: rest) := by
      simp [render]
    rw [ht, parseValue, skipWS_cons _ _ (by decide)]
    simp only [if_neg (show ¬ '\x7b' = '"' by decide), if_neg (show ¬ '\x7b' = '[' by decide),
      if_true, if_neg hdepth]
    rw [ih]
    rw [htl1, skipWS_cons _ _ (by decide)]
    rfl
theorem parseElems_render : ∀ (l : List JSON), wfElems l = true → l ≠ [] →
    ∀ (depth fuel : Nat) (rest : List Char), depth + nestingElems l ≤ maxNestingDepth →
      needElems l ≤ fuel →
        parseElems depth fuel (renderElems l ++ ']' :: rest) = some (l, rest)
  | [], _, h, _, _, _, _, _ => absurd rfl h
  | [x], hw, _, depth, fuel, rest, hn, hf => by
    obtain ⟨f, rfl, hf'⟩ := fuel_succ (need x) fuel (by
      simp only [needElems] at hf; omega)
    have hwx : wfJSON x = true := by
      simp only [wfElems, Bool.and_eq_true] at hw; exact hw.1
    have hnx : depth + nesting x ≤ maxNestingDepth := by
      simp only [nestingElems] at hn; omega
    have ih := parseValue_render x hwx depth f (']' :: rest) hnx hf' (Or.inr (Or.inl rfl))
    rw [renderElems, parseElems, ih]
    simp only
    rw [skipWS_cons _ _ (by decide)]
    rfl
  | x :: y :: ys, hw, _, depth, fuel, rest, hn, hf => by
    obtain ⟨f, rfl, hf'⟩ := fuel_succ (need x + needElems (y :: ys)) fuel (by
      rw [needElems] at hf; omega)
    have hwx : wfJSON x = true := by
      simp only [wfElems, Bool.and_eq_true] at hw; exact hw.1
    have hwr : wfElems (y :: ys) = true := by
      rw [wfElems, Bool.and_eq_true] at hw; exact hw.2
    rw [nestingElems] at hn
    have ih := parseValue_render x hwx depth f
      (',' :: (renderElems (y :: ys) ++ ']' :: rest)) (by omega) (by omega) (Or.inl rfl)
    have ih2 := parseElems_render (y :: ys) hwr (by simp) depth f rest (by omega) (by omega)
    have ht : renderElems (x :: y :: ys) ++ ']' :: rest =
        render x ++ ',' :: (renderElems (y :: ys) ++ ']' :: rest) := by
      rw [renderElems]
      · simp
      · simp
    rw [ht, parseElems, ih]
    simp only
    rw [skipWS_cons _ _ (by decide)]
    simp only
    rw [ih2]
    rfl
theorem parseMembers_render : ∀ (l : List (List Char × JSON)), wfMembers l = true → l ≠ [] →
    ∀ (depth fuel : Nat) (rest : List Char), depth + nestingMembers l ≤ maxNestingDepth →
      needMembers l ≤ fuel →
        parseMembers depth fuel (renderMembers l ++ '\x7d' :: rest) = some (l, rest)
  | [], _, h, _, _, _, _, _ => absurd rfl h
  | [(k, v)], hw, _, depth, fuel, rest, hn, hf => by
    obtain ⟨f, rfl, hf'⟩ := fuel_succ (need v) fuel (by
      simp only [needMembers] at hf; omega)
    have hwx : wfJSON v = true := by
      simp only [wfMembers, Bool.and_eq_true] at hw; exact hw.1
    have hnx : depth + nesting v ≤ maxNestingDepth := by
      simp only [nestingMembers] at hn; omega
    have ih := parseValue_render v hwx depth f ('\x7d' :: rest) hnx hf' (Or.inr (Or.inr rfl))
    have ht : renderMembers [(k, v)] ++ '\x7d' :: rest =
        '"' :: (escape k ++ '"' :: (':' :: (render v ++ '\x7d' :: rest))) := by
      simp [renderMembers]
    rw [ht, parseMembers, skipWS_cons _ _ (by decide)]
    simp only
    rw [parseString_render]
    simp only
    rw [skipWS_cons _ _ (by decide)]
    simp only
    rw [ih]
    simp only
    rw [skipWS_cons _ _ (by decide)]
    rfl
  | (k, v) :: m :: ms, hw, _, depth, fuel, rest, hn, hf => by
    obtain ⟨f, rfl, hf'⟩ := fuel_succ (need v + needMembers (m :: ms)) fuel (by
      rw [needMembers] at hf; omega)
    have hwx : wfJSON v = true := by
      simp only [wfMembers, Bool.and_eq_true] at hw; exact hw.1
    have hwr : wfMembers (m :: ms) = true := by
      rw [wfMembers, Bool.and_eq_true] at hw; exact hw.2
    rw [nestingMembers] at hn
    have ih := parseValue_render v hwx depth f
      (',' :: (renderMembers (m :: ms) ++ '\x7d' :: rest)) (by omega) (by omega) (Or.inl rfl)
    have ih2 := parseMembers_render (m :: ms) hwr (by simp) depth f rest (by omega) (by omega)
    have ht : renderMembers ((k, v) :: m :: ms) ++ '\x7d' :: rest =
        '"' :: (escape k ++ '"' :: (':' :: (render v ++
          ',' :: (renderMembers (m :: ms) ++ '\x7d' :: rest)))) := by
      rw [renderMembers]
      · simp
      · simp
    rw [ht, parseMembers, skipWS_cons _ _ (by decide)]
    simp only
    rw [parseString_render]
    simp only
    rw [skipWS_cons _ _ (by decide)]
    simp only
    rw [ih]
    simp only
    rw [skipWS_cons _ _ (by decide)]
    simp only
    rw [ih2]
    rfl
end

mutual
theorem need_le : ∀ (j : JSON), need j ≤ 2 * (render j).length + 1
  | JSON.null => by simp [need]
  | JSON.bool _ => by simp [need]
  | JSON.number _ => by simp [need]
  | JSON.string _ => by simp [need]
  | JSON.array l => by
    have ih := needElems_le l
    simp only [need, render, List.length_cons, List.length_append, List.length_nil]
    omega
  | JSON.object l => by
    have ih := needMembers_le l
    simp only [need, render, List.length_cons, List.length_append, List.length_nil]
    omega
theorem needElems_le : ∀ (l : List JSON), needElems l ≤ 2 * (renderElems l).length + 2
  | [] => by simp [needElems]
  | [x] => by
    have ih := need_le x
    simp only [needElems, renderElems]
    omega
  | x :: y :: ys => by
    have ih := need_le x
    have ih2 := needElems_le (y :: ys)
    have ht : renderElems (x :: y :: ys) = render x ++ ',' :: renderElems (y :: ys) := by
      simp only [renderElems]
    rw [ht, needElems]
    simp only [List.length_cons, List.length_append]
    omega
theorem needMembers_le : ∀ (l : List (List Char × JSON)),
    needMembers l ≤ 2 * (renderMembers l).length + 2
  | [] => by simp [needMembers]
  | [(k, v)] => by
    have ih := need_le v
    simp only [needMembers, renderMembers, List.length_cons, List.length_append]
    omega
  | (k, v) :: m :: ms => by
    have ih := need_le v
    have ih2 := needMembers_le (m :: ms)
    have ht : renderMembers ((k, v) :: m :: ms) =
        '"' :: (escape k ++ '"' :: ':' :: (render v ++ ',' :: renderMembers (m :: ms))) := by
      simp only [renderMembers]
    rw [ht, needMembers]
    simp only [List.length_cons, List.length_append]
    omega
end

theorem bytesLess_irrefl : ∀ (a : List Nat), bytesLess a a = false
  | [] => rfl
  | x :: xs => by
    rw [bytesLess, if_neg (Nat.lt_irrefl x), if_neg (Nat.lt_irrefl x)]
    exact bytesLess_irrefl xs

theorem bytesLess_asymm : ∀ (a b : List Nat), bytesLess a b = true → bytesLess b a = false
  | _, [], h => by simp [bytesLess] at h
  | [], _ :: _, _ => rfl
  | x :: xs, y :: ys, h => by
    rw [bytesLess] at h ⊢
    by_cases h1 : x < y
    · rw [if_neg (by omega), if_pos h1]
    · rw [if_neg h1] at h
      by_cases h2 : y < x
      · rw [if_pos h2] at h; exact absurd h (by simp)
      · rw [if_neg h2] at h
        rw [if_neg h2, if_neg h1]
        exact bytesLess_asymm xs ys h

theorem insertEntry_append {α : Type} (k : String) (v : α) :
    ∀ (acc : List (String × α)),
      (∀ e ∈ acc, bytesLess (stringBytes e.1) (stringBytes k) = true) →
        insertEntry k v acc = acc ++ [(k, v)]
  | [], _ => rfl
  | (k1, v1) :: rest, h => by
    have h1 := h (k1, v1) (List.mem_cons_self _ _)
    have hne : ¬ k = k1 := by
      intro he
      subst he
      rw [bytesLess_irrefl] at h1
      exact absurd h1 (by simp)
    have hnl : ¬ bytesLess (stringBytes k) (stringBytes k1) = true := by
      rw [bytesLess_asymm _ _ h1]
      simp
    rw [insertEntry, if_neg hne, if_neg hnl,
      insertEntry_append k v rest (fun e he => h e (List.mem_cons_of_mem _ he))]
    rfl

theorem foldl_insert_sorted {α : Type} : ∀ (l acc : List (String × α)),
    (∀ a ∈ acc, ∀ e ∈ l, bytesLess (stringBytes a.1) (stringBytes e.1) = true) →
    sortedKeys (l.map (fun e => e.1)) = true →
      l.foldl (fun acc e => insertEntry e.1 e.2 acc) acc = acc ++ l
  | [], acc, _, _ => by simp
  | e :: rest, acc, h, hs => by
    rw [List.map_cons, sortedKeys, Bool.and_eq_true, List.all_eq_true] at hs
    rw [List.foldl_cons,
      insertEntry_append e.1 e.2 acc (fun a ha => h a ha e (List.mem_cons_self _ _)),
      foldl_insert_sorted rest (acc ++ [(e.1, e.2)]) ?_ hs.2]
    · simp
    · intro a ha e1 he1
      rcases List.mem_append.mp ha with ha | ha
      · exact h a ha e1 (List.mem_cons_of_mem _ he1)
      · rw [List.mem_singleton] at ha
        subst ha
        exact hs.1 e1.1 (List.mem_map.mpr ⟨e1, he1, rfl⟩)

theorem sortEntries_sorted {α : Type} (l : List (String × α))
    (hs : sortedKeys (l.map (fun e => e.1)) = true) : sortEntries l = l := by
  unfold sortEntries
  rw [foldl_insert_sorted l [] (fun a ha => absurd ha (List.not_mem_nil a)) hs]
  rfl

mutual
theorem decode_encode_value (FormatFloat : Nat → List Char) (ParseFloat : List Char → Option Nat) :
    ∀ (v : GoValue), jsonNative FormatFloat ParseFloat v = true →
      ∃ j, encodeValue FormatFloat v = Except.ok j ∧ decodeValue ParseFloat j = Except.ok v ∧
        wfJSON j = true ∧ nesting j = valueDepth v
  | GoValue.null, _ =>
    ⟨JSON.null, by rw [encodeValue], by rw [decodeValue], by simp [wfJSON],
      by simp [nesting, valueDepth]⟩
  | GoValue.bool b, _ =>
    ⟨JSON.bool b, by rw [encodeValue], by rw [decodeValue], by simp [wfJSON],
      by simp [nesting, valueDepth]⟩
  | GoValue.float64 bits, h => by
    rw [jsonNative, Bool.and_eq_true, Bool.and_eq_true] at h
    obtain ⟨⟨h1, h2⟩, h3⟩ := h
    have h1' := of_decide_eq_true h1
    have h3' := of_decide_eq_true h3
    refine ⟨JSON.number (FormatFloat bits), ?_, ?_, ?_, ?_⟩
    · rw [encodeValue, if_neg h1']
    · rw [decodeValue, h3']
    · rw [wfJSON]; exact h2
    · simp [nesting, valueDepth]
  | GoValue.int _, h => by rw [jsonNative] at h; exact absurd h (by simp)
  | GoValue.string s, _ =>
    ⟨JSON.string s.data, by rw [encodeValue], by rw [decodeValue], by simp [wfJSON],
      by simp [nesting, valueDepth]⟩
  | GoValue.slice elems, h => by
    rw [jsonNative] at h
    obtain ⟨js, h1, h2, h3, h4⟩ := decode_encode_elems FormatFloat ParseFloat elems h
    refine ⟨JSON.array js, ?_, ?_, ?_, ?_⟩
    · rw [encodeValue, h1]
    · rw [decodeValue, h2]
    · rw [wfJSON]; exact h3
    · rw [nesting, valueDepth, h4]
  | GoValue.map entries, h => by
    rw [jsonNative, Bool.and_eq_true] at h
    obtain ⟨js, h1, h2, h3, h4, h5⟩ :=
      decode_encode_entries FormatFloat ParseFloat entries h.2
    have hsort : sortEntries js = js := sortEntries_sorted js (by rw [h2]; exact h.1)
    refine ⟨JSON.object (js.map (fun e => (e.1.data, e.2))), ?_, ?_, ?_, ?_⟩
    · rw [encodeValue, h1]
      simp only
      rw [hsort]
    · rw [decodeValue, h3 [],
        foldl_insert_sorted entries [] (fun a ha => absurd ha (List.not_mem_nil a)) h.1]
      rfl
    · rw [wfJSON]; exact h4
    · rw [nesting, valueDepth, h5]
  | GoValue.chan, h => by rw [jsonNative] at h; exact absurd h (by simp)
theorem decode_encode_elems (FormatFloat : Nat → List Char)
    (ParseFloat : List Char → Option Nat) :
    ∀ (l : List GoValue), jsonNativeElems FormatFloat ParseFloat l = true →
      ∃ js, encodeElems FormatFloat l = Except.ok js ∧
        decodeElems ParseFloat js = Except.ok l ∧ wfElems js = true ∧
        nestingElems js = valueDepthElems l
  | [], _ =>
    ⟨[], by rw [encodeElems], by rw [decodeElems], by rw [wfElems],
      by rw [nestingElems, valueDepthElems]⟩
  | v :: rest, h => by
    rw [jsonNativeElems, Bool.and_eq_true] at h
    obtain ⟨j, h1, h2, h3, h4⟩ := decode_encode_value FormatFloat ParseFloat v h.1
    obtain ⟨js, g1, g2, g3, g4⟩ := decode_encode_elems FormatFloat ParseFloat rest h.2
    refine ⟨j :: js, ?_, ?_, ?_, ?_⟩
    · rw [encodeElems, h1, g1]
    · rw [decodeElems, h2, g2]
    · rw [wfElems, h3, g3]; rfl
    · rw [nestingElems, valueDepthElems, h4, g4]
theorem decode_encode_entries (FormatFloat : Nat → List Char)
    (ParseFloat : List Char → Option Nat) :
    ∀ (l : List (String × GoValue)), jsonNativeEntries FormatFloat ParseFloat l = true →
      ∃ js, encodeEntries FormatFloat l = Except.ok js ∧
        js.map (fun e => e.1) = l.map (fun e => e.1) ∧
        (∀ acc, decodeMembers ParseFloat (js.map (fun e => (e.1.data, e.2))) acc =
          Except.ok (l.foldl (fun acc e => insertEntry e.1 e.2 acc) acc)) ∧
        wfMembers (js.map (fun e => (e.1.data, e.2))) = true ∧
        nestingMembers (js.map (fun e => (e.1.data, e.2))) = valueDepthEntries l
  | [], _ => ⟨[], by rw [encodeEntries], rfl, fun acc => by
      rw [List.map_nil, decodeMembers]; rfl, by rw [List.map_nil, wfMembers],
      by rw [List.map_nil, nestingMembers, valueDepthEntries]⟩
  | (k, v) :: rest, h => by
    rw [jsonNativeEntries, Bool.and_eq_true] at h
    obtain ⟨j, h1, h2, h3, h4⟩ := decode_encode_value FormatFloat ParseFloat v h.1
    obtain ⟨js, g1, g2, g3, g4, g5⟩ := decode_encode_entries FormatFloat ParseFloat rest h.2
    refine ⟨(k, j) :: js, ?_, ?_, ?_, ?_, ?_⟩
    · rw [encodeEntries, h1, g1]
    · rw [List.map_cons, List.map_cons, g2]
    · intro acc
      rw [List.map_cons, decodeMembers, h2]
      simp only
      rw [g3]
      rfl
    · rw [List.map_cons, wfMembers, h3, g4]; rfl
    · rw [List.map_cons, nestingMembers, valueDepthEntries, h4, g5]
end

/-! ## Round trip of the packets -/

end GoCommonWeb
